import Mathlib

/-!
# harbor-service: the streaming upsert handler

A shallow embedding of `http/handlers/v1/harbors/harbors.go`, `http/web/response.go`
and `domain/harbor/harbor.go`, together with a model of the parts of Go's
`encoding/json` and `net/http/httptest` the handler drives.

Conventions of the embedding.

* The request body is the sequence of JSON lexical elements that the scanner of
  `encoding/json` sees in it (white space skipped, string literals unquoted, number
  literals converted); bytes that start no JSON lexical element are `Lexeme.invalid`.
* A Go `error` returned by a collaborator (the harbor service, the response
  controller) is its `Error()` text, `none` standing for `nil`.
* A `float64` is its IEEE-754 bit pattern; no arithmetic on it is modelled.
* Nil and empty slices are both the empty list.
-/

namespace HarborService

/-- Go `float64`, as the bit pattern of the IEEE-754 binary64 value. -/
structure float64 where
  bits : Nat
deriving DecidableEq, Repr

/-! ## domain/harbor/harbor.go -/

namespace harbor

/-- Harbor represents a harbor. -/
structure Harbor where
  UNLoc : String
  Name : String
  City : String
  Country : String
  Alias : List String
  Regions : List String
  Coordinates : List float64
  Province : String
  Timezone : String
  UNLocs : List String
  Code : String
deriving DecidableEq, Repr

end harbor

/-! ## encoding/json: lexical elements, values, the value scanner -/

namespace json

/-- Lexical elements of a JSON text. `num f` is a number literal together with the
result of `strconv.ParseFloat` on it (`none` when the literal is out of the range of
a `float64`); `invalid` is anything that is not the start of a JSON lexical element. -/
inductive Lexeme where
  | lbrace
  | rbrace
  | lbrack
  | rbrack
  | colon
  | comma
  | str (s : String)
  | num (f : Option float64)
  | bool (b : Bool)
  | null
  | invalid
deriving DecidableEq, Repr

/-- A JSON value. -/
inductive JValue where
  | null
  | bool (b : Bool)
  | number (f : Option float64)
  | string (s : String)
  | array (xs : List JValue)
  | object (ms : List (String × JValue))

/-- A `json.Token`: a delimiter, or a scalar value. -/
inductive Token where
  | Delim (c : Char)
  | bool (b : Bool)
  | float64 (f : float64)
  | string (s : String)
  | nil
deriving DecidableEq, Repr

/-- Errors of the decoder (`io.EOF`, `io.ErrUnexpectedEOF`, `*json.SyntaxError`,
`*json.UnmarshalTypeError`), errors made with `errors.New`, and errors made with
`fmt.Errorf` from a format and tokens. The texts of the decoder's own errors are not
modelled: the handler never looks at them. -/
inductive error where
  | EOF
  | ErrUnexpectedEOF
  | SyntaxError
  | UnmarshalTypeError
  | New (text : String)
  | Errorf (format : String) (args : List Token)
deriving DecidableEq, Repr

mutual
/-- The lexical elements of a JSON value. -/
def render : JValue → List Lexeme
  | .null => [.null]
  | .bool b => [.bool b]
  | .number f => [.num f]
  | .string s => [.str s]
  | .array xs => .lbrack :: (renderElems xs ++ [.rbrack])
  | .object ms => .lbrace :: (renderMembers ms ++ [.rbrace])
/-- The elements of an array, separated by commas. -/
def renderElems : List JValue → List Lexeme
  | [] => []
  | [v] => render v
  | v :: w :: vs => render v ++ .comma :: renderElems (w :: vs)
/-- The members of an object, separated by commas. -/
def renderMembers : List (String × JValue) → List Lexeme
  | [] => []
  | [(k, v)] => .str k :: .colon :: render v
  | (k, v) :: m :: ms => .str k :: .colon :: (render v ++ .comma :: renderMembers (m :: ms))
end

/-- An open container on the scanner's parse stack (`scanner.parseState`), with what
has been read of it: the elements of an array, or the members of an object and the
key whose value is being read. Both lists are in reverse order. -/
inductive Frame where
  | array (elems : List JValue)
  | object (members : List (String × JValue)) (key : String)

/-- What the scanner expects next (`scanner.step`). -/
inductive Step where
  /-- `stateBeginValue` -/
  | beginValue
  /-- `stateBeginValueOrEmpty`: just after `[` -/
  | beginValueOrEmpty
  /-- `stateBeginStringOrEmpty`: just after `{` -/
  | beginStringOrEmpty
  /-- `stateBeginString`: after a comma in an object -/
  | beginString (members : List (String × JValue))
  /-- `stateInString` ended on an object key: a colon is next -/
  | endKey (members : List (String × JValue)) (key : String)
  /-- `stateEndValue`: the value `v` is complete -/
  | endValue (v : JValue)

/-- A scalar lexical element as a value. -/
def Lexeme.scalar? : Lexeme → Option JValue
  | .str s => some (.string s)
  | .num f => some (.number f)
  | .bool b => some (.bool b)
  | .null => some .null
  | _ => none

/-- The scanner at the start of a value (`stateBeginValue`). -/
def beginValue (stack : List Frame) (c : Lexeme) : Option (Step × List Frame) :=
  match c with
  | .lbrack => some (.beginValueOrEmpty, stack)
  | .lbrace => some (.beginStringOrEmpty, stack)
  | c => (c.scalar?).map (fun v => (.endValue v, stack))

/-- One transition of the scanner on the lexical element `c`; `none` is a syntax
error. -/
def step (st : Step) (stack : List Frame) (c : Lexeme) : Option (Step × List Frame) :=
  match st, c with
  | .beginValue, c => beginValue stack c
  | .beginValueOrEmpty, .rbrack => some (.endValue (.array []), stack)
  | .beginValueOrEmpty, c => beginValue (.array [] :: stack) c
  | .beginStringOrEmpty, .rbrace => some (.endValue (.object []), stack)
  | .beginStringOrEmpty, .str k => some (.endKey [] k, stack)
  | .beginStringOrEmpty, _ => none
  | .beginString ms, .str k => some (.endKey ms k, stack)
  | .beginString _, _ => none
  | .endKey ms k, .colon => some (.beginValue, .object ms k :: stack)
  | .endKey _ _, _ => none
  | .endValue v, c =>
    match stack, c with
    | .array elems :: rest, .comma => some (.beginValue, .array (v :: elems) :: rest)
    | .array elems :: rest, .rbrack => some (.endValue (.array (v :: elems).reverse), rest)
    | .object ms k :: rest, .comma => some (.beginString ((k, v) :: ms), rest)
    | .object ms k :: rest, .rbrace => some (.endValue (.object ((k, v) :: ms).reverse), rest)
    | _, _ => none

/-- The scanner run over the input until the value that was begun is complete
(`scanEnd`): it returns the value and the unread input. -/
def scan : Step → List Frame → List Lexeme → Except error (JValue × List Lexeme)
  | .endValue v, [], rest => .ok (v, rest)
  | _, _, [] => .error .ErrUnexpectedEOF
  | st, stack, c :: rest =>
    match step st stack c with
    | none => .error .SyntaxError
    | some (st1, stack1) => scan st1 stack1 rest

/-- `Decoder.readValue` together with the decoding of the value read: the next
complete JSON value of the input, and the input after it. -/
def readValue (buf : List Lexeme) : Except error (JValue × List Lexeme) :=
  match buf with
  | [] => .error .EOF
  | buf => scan .beginValue [] buf

/-! ## encoding/json: the streaming decoder (`stream.go`) -/

/-- The token states of `stream.go`. -/
inductive TokenState where
  | tokenTopValue
  | tokenArrayStart
  | tokenArrayValue
  | tokenArrayComma
  | tokenObjectStart
  | tokenObjectKey
  | tokenObjectColon
  | tokenObjectValue
  | tokenObjectComma
deriving DecidableEq, Repr

/-- A `json.Decoder`: the unread input, the sticky error of `Decode`, the token state
and the stack of token states (top first). -/
structure Decoder where
  buf : List Lexeme
  err : Option error
  tokenState : TokenState
  tokenStack : List TokenState
deriving DecidableEq, Repr

/-- `json.NewDecoder`. -/
def NewDecoder (r : List Lexeme) : Decoder :=
  { buf := r, err := none, tokenState := .tokenTopValue, tokenStack := [] }

/-- `Decoder.peek`: the next lexical element, not consumed. -/
def Decoder.peek (dec : Decoder) : Except error Lexeme :=
  match dec.buf with
  | [] => .error .EOF
  | c :: _ => .ok c

/-- `Decoder.More`: whether there is another element in the array or object being
read. -/
def Decoder.More (dec : Decoder) : Bool :=
  match dec.peek with
  | .ok c => c != .rbrack && c != .rbrace
  | .error _ => false

/-- `Decoder.tokenValueAllowed`. -/
def Decoder.tokenValueAllowed (dec : Decoder) : Bool :=
  match dec.tokenState with
  | .tokenTopValue | .tokenArrayStart | .tokenArrayValue | .tokenObjectValue => true
  | _ => false

/-- `Decoder.tokenValueEnd`. -/
def Decoder.tokenValueEnd (dec : Decoder) : Decoder :=
  match dec.tokenState with
  | .tokenArrayStart | .tokenArrayValue => { dec with tokenState := .tokenArrayComma }
  | .tokenObjectValue => { dec with tokenState := .tokenObjectComma }
  | _ => dec

/-- `Decoder.tokenPrepareForDecode`: a `Decode` that follows `Token` calls first
consumes the comma or colon that is due. -/
def Decoder.tokenPrepareForDecode (dec : Decoder) : Except error Unit × Decoder :=
  match dec.tokenState with
  | .tokenArrayComma =>
    match dec.buf with
    | [] => (.error .EOF, dec)
    | c :: rest =>
      if c ≠ .comma then (.error .SyntaxError, dec)
      else (.ok (), { dec with buf := rest, tokenState := .tokenArrayValue })
  | .tokenObjectColon =>
    match dec.buf with
    | [] => (.error .EOF, dec)
    | c :: rest =>
      if c ≠ .colon then (.error .SyntaxError, dec)
      else (.ok (), { dec with buf := rest, tokenState := .tokenObjectValue })
  | _ => (.ok (), dec)

/-- `Decoder.Decode`: reads the next JSON value of the input and stores it in the
target, which `unmarshal` stands for (what `decodeState.unmarshal` does for the type of
the target, started from the target's zero value). An error of `unmarshal` is
returned after the value has been consumed and is not sticky. -/
def Decoder.Decode {α : Type} (unmarshal : JValue → Except error α) (dec : Decoder) :
    Except error α × Decoder :=
  match dec.err with
  | some e => (.error e, dec)
  | none =>
    match dec.tokenPrepareForDecode with
    | (.error e, dec1) => (.error e, dec1)
    | (.ok _, dec1) =>
      if !dec1.tokenValueAllowed then (.error .SyntaxError, dec1)
      else
        match readValue dec1.buf with
        | .error e => (.error e, { dec1 with err := some e })
        | .ok (v, rest) => (unmarshal v, ({ dec1 with buf := rest }).tokenValueEnd)

/-- Unmarshalling into a `string` variable. -/
def unmarshalString : JValue → Except error String
  | .string s => .ok s
  | .null => .ok ""
  | _ => .error .UnmarshalTypeError

/-- Unmarshalling into an `any` variable, for the scalar values that `Token` hands
to `Decode` (it deals with an opening bracket or brace itself). -/
def unmarshalInterface : JValue → Except error Token
  | .null => .ok .nil
  | .bool b => .ok (.bool b)
  | .number (some f) => .ok (.float64 f)
  | .number none => .error .UnmarshalTypeError
  | .string s => .ok (.string s)
  | _ => .error .UnmarshalTypeError

/-- `Decoder.tokenError`. -/
def Decoder.tokenError (dec : Decoder) : Except error Token × Decoder :=
  (.error .SyntaxError, dec)

/-- The `default` case of the switch in `Token`: any value that does not start with
a bracket or a brace. -/
def Decoder.tokenDefault (dec : Decoder) : Except error Token × Decoder :=
  if !dec.tokenValueAllowed then dec.tokenError
  else dec.Decode unmarshalInterface

/-- The loop of `Decoder.Token` on the unread input `buf` in token state `st`; the
stack and the sticky error are those of `dec0`. -/
def Decoder.tokenLoop (dec0 : Decoder) : TokenState → List Lexeme → Except error Token × Decoder
  | st, [] => (.error .EOF, { dec0 with buf := [], tokenState := st })
  | st, c :: rest =>
    let dec : Decoder := { dec0 with buf := c :: rest, tokenState := st }
    match c with
    | .lbrack =>
      if !dec.tokenValueAllowed then dec.tokenError
      else (.ok (.Delim '['),
        { dec with buf := rest, tokenStack := st :: dec.tokenStack, tokenState := .tokenArrayStart })
    | .rbrack =>
      if st ≠ .tokenArrayStart ∧ st ≠ .tokenArrayComma then dec.tokenError
      else
        match dec.tokenStack with
        | [] => dec.tokenError
        | top :: stack =>
          (.ok (.Delim ']'),
            ({ dec with buf := rest, tokenState := top, tokenStack := stack }).tokenValueEnd)
    | .lbrace =>
      if !dec.tokenValueAllowed then dec.tokenError
      else (.ok (.Delim '\x7b'),
        { dec with buf := rest, tokenStack := st :: dec.tokenStack, tokenState := .tokenObjectStart })
    | .rbrace =>
      if st ≠ .tokenObjectStart ∧ st ≠ .tokenObjectComma then dec.tokenError
      else
        match dec.tokenStack with
        | [] => dec.tokenError
        | top :: stack =>
          (.ok (.Delim '\x7d'),
            ({ dec with buf := rest, tokenState := top, tokenStack := stack }).tokenValueEnd)
    | .colon =>
      if st ≠ .tokenObjectColon then dec.tokenError
      else Decoder.tokenLoop dec0 .tokenObjectValue rest
    | .comma =>
      if st = .tokenArrayComma then Decoder.tokenLoop dec0 .tokenArrayValue rest
      else if st = .tokenObjectComma then Decoder.tokenLoop dec0 .tokenObjectKey rest
      else dec.tokenError
    | .str _ =>
      if st = .tokenObjectStart ∨ st = .tokenObjectKey then
        match ({ dec with tokenState := .tokenTopValue }).Decode unmarshalString with
        | (.error e, dec1) => (.error e, { dec1 with tokenState := st })
        | (.ok x, dec1) => (.ok (.string x), { dec1 with tokenState := .tokenObjectColon })
      else dec.tokenDefault
    | _ => dec.tokenDefault

/-- `Decoder.Token`: the next JSON token of the input, and the decoder after it. -/
def Decoder.Token (dec : Decoder) : Except error Token × Decoder :=
  Decoder.tokenLoop dec dec.tokenState dec.buf

/-! ## encoding/json: encoding (`encode.go`) -/

/-- The hexadecimal digit of `n < 16`. -/
def hex (n : Nat) : Char :=
  "0123456789abcdef".data.getD n '0'

/-- The encoding of one character inside a JSON string, with HTML escaping on, as
`json.Marshal` does it (`appendString`). -/
def appendChar (c : Char) : List Char :=
  if c = '\\' ∨ c = '"' then ['\\', c]
  else if c = '\x08' then ['\\', 'b']
  else if c = '\x0c' then ['\\', 'f']
  else if c = '\n' then ['\\', 'n']
  else if c = '\r' then ['\\', 'r']
  else if c = '\t' then ['\\', 't']
  else if c.toNat < 32 ∨ c = '<' ∨ c = '>' ∨ c = '&' then
    ['\\', 'u', '0', '0', hex (c.toNat / 16), hex (c.toNat % 16)]
  else if c = '\u2028' ∨ c = '\u2029' then
    ['\\', 'u', '2', '0', '2', hex (c.toNat % 16)]
  else [c]

/-- The JSON encoding of a Go string (`appendString`). -/
def appendString (src : String) : String :=
  "\"" ++ String.mk (src.data.flatMap appendChar) ++ "\""

/-- The members of a JSON object whose values are strings, encoded and separated by
commas. -/
def appendMembers : List (String × String) → String
  | [] => ""
  | [(k, v)] => appendString k ++ ":" ++ appendString v
  | (k, v) :: m :: ms => appendString k ++ ":" ++ appendString v ++ "," ++ appendMembers (m :: ms)

end json

/-! ## net/http/httptest: the response writer -/

namespace http

def StatusOK : Nat := 200
def StatusBadRequest : Nat := 400
def StatusInternalServerError : Nat := 500

/-- An `http.ResponseWriter`, after `httptest.ResponseRecorder`: the status code, the
header map, the body written so far, whether the header has been written, and the
header map as it was when the header was written (the headers of the response). The
sniffing of a content type by a `Write` that finds none set is not modelled. `panicked`
tells that a call on the recorder has panicked, which ends the run of its caller. -/
structure ResponseRecorder where
  Code : Nat
  HeaderMap : List (String × String)
  Body : String
  Flushed : Bool
  wroteHeader : Bool
  snapHeader : List (String × String)
  panicked : Bool
deriving DecidableEq, Repr

/-- `httptest.NewRecorder`. -/
def NewRecorder : ResponseRecorder :=
  { Code := 200, HeaderMap := [], Body := "", Flushed := false, wroteHeader := false,
    snapHeader := [], panicked := false }

/-- `w.Header().Set(key, value)`. -/
def ResponseRecorder.HeaderSet (rw : ResponseRecorder) (key value : String) : ResponseRecorder :=
  { rw with HeaderMap := (key, value) :: rw.HeaderMap.filter (fun kv => kv.1 != key) }

/-- `checkWriteHeaderCode`: whether it panics, which it does for a status code that is
not a three-digit number. -/
def checkWriteHeaderCode (code : Nat) : Bool :=
  decide (code < 100) || decide (code > 999)

/-- `ResponseRecorder.WriteHeader`: only the first call has an effect, and it panics on
a status code that `checkWriteHeaderCode` refuses. -/
def ResponseRecorder.WriteHeader (rw : ResponseRecorder) (code : Nat) : ResponseRecorder :=
  if rw.wroteHeader then rw
  else if checkWriteHeaderCode code then { rw with panicked := true }
  else { rw with Code := code, wroteHeader := true, snapHeader := rw.HeaderMap }

/-- Whether the call `rw.WriteHeader(code)` panics. With the status codes 200, 400 and
500 it never does. -/
def ResponseRecorder.panics (rw : ResponseRecorder) (code : Nat) : Bool :=
  !rw.wroteHeader && checkWriteHeaderCode code

/-- `ResponseRecorder.Write`: writes the header with status 200 if it has not been
written, then appends to the body. It never fails. -/
def ResponseRecorder.Write (rw : ResponseRecorder) (buf : String) : ResponseRecorder :=
  let rw1 := rw.WriteHeader 200
  { rw1 with Body := rw1.Body ++ buf }

/-- `ResponseRecorder.Flush`: writes the header with status 200 if it has not been
written. -/
def ResponseRecorder.Flush (rw : ResponseRecorder) : ResponseRecorder :=
  { rw.WriteHeader 200 with Flushed := true }

end http

/-! ## http/web/response.go -/

namespace web

/-- The payload of a response, an `interface{}` in the source: a map or struct that
`json.Marshal` encodes as an object with the given string members, in the given order
(`map[string]string{"error": m}` is `object [("error", m)]`), or a value that
`json.Marshal` fails on. -/
inductive Payload where
  | object (members : List (String × String))
  | unsupported
deriving DecidableEq, Repr

/-- `json.Marshal` on a payload: the text, or the text of the error. -/
def Marshal : Payload → Except String String
  | .object members => .ok ("\x7b" ++ json.appendMembers members ++ "\x7d")
  | .unsupported => .error "json: unsupported type"

/-- The package variables `marshalJson` and `writeResponse`, which the tests replace.
`writeResponse` returns the text of its error, if any, and the writer after it. -/
structure Vars where
  marshalJson : Payload → Except String String
  writeResponse : http.ResponseRecorder → String → Option String × http.ResponseRecorder

/-- The values the package gives its variables: `json.Marshal` and `w.Write`. -/
def Vars.default : Vars :=
  { marshalJson := Marshal
    writeResponse := fun w response => (none, w.Write response) }

/-- The fixed body of the fallback response. -/
def errorResponse : String := "\x7b\"error\": \"internal server error\"\x7d"

/-- Respond responds a json with a payload. A `WriteHeader(code)` that panics ends the
call. -/
def Respond (vars : Vars) (w : http.ResponseRecorder) (code : Nat) (payload : Payload) :
    http.ResponseRecorder :=
  match vars.marshalJson payload with
  | .error _ =>
    let w := w.HeaderSet "Content-Type" "application/json"
    let w := w.WriteHeader http.StatusInternalServerError
    w.Write errorResponse
  | .ok response =>
    let w := w.HeaderSet "Content-Type" "application/json"
    if w.panics code then w.WriteHeader code
    else
      let w := w.WriteHeader code
      match vars.writeResponse w response with
      | (some _, w) =>
        let w := w.WriteHeader http.StatusInternalServerError
        w.Write errorResponse
      | (none, w) => w

/-- RespondWithError responds a json with an error message. -/
def RespondWithError (vars : Vars) (w : http.ResponseRecorder) (code : Nat) (message : String) :
    http.ResponseRecorder :=
  Respond vars w code (.object [("error", message)])

/-- RespondAfterFlush responds a json with a payload after flushing the response. -/
def RespondAfterFlush (vars : Vars) (w : http.ResponseRecorder) (payload : Payload) :
    http.ResponseRecorder :=
  match vars.marshalJson payload with
  | .error _ =>
    let w := w.HeaderSet "Content-Type" "application/json"
    let w := w.WriteHeader http.StatusInternalServerError
    w.Write errorResponse
  | .ok response =>
    let w := w.HeaderSet "Content-Type" "application/json"
    match vars.writeResponse w response with
    | (some _, w) =>
      let w := w.WriteHeader http.StatusInternalServerError
      w.Write errorResponse
    | (none, w) => w

end web

/-! ## validate (the package is not among the sources) -/

namespace validate

/-- Modelled from the spec: one violation of `validate.Check`, the offending field and
the human-readable reason (spec 4.2). -/
structure FieldError where
  Field : String
  Err : String
deriving DecidableEq, Repr

/-- Modelled from the spec: `validate.Check`, of the package `validate`, which is not
among the sources. Given the fields of a record that are tagged `validate:"required"`,
by their JSON names and in declaration order, with their values, it returns no error
(`none`) or the non-empty ordered set of violations, one for every required field
that is empty, each naming the field, with the reason `<field> is a required field`. -/
def Check (required : List (String × String)) : Option (List FieldError) :=
  match (required.filter (fun f => f.2 == "")).map
      (fun f => ({ Field := f.1, Err := f.1 ++ " is a required field" } : FieldError)) with
  | [] => none
  | errs => some errs

/-- Modelled from the spec: the violations separated by commas, each as a JSON object
with the members `field` and `error`. -/
def encodeFieldErrors : List FieldError → String
  | [] => ""
  | [e] => "\x7b" ++ json.appendMembers [("field", e.Field), ("error", e.Err)] ++ "\x7d"
  | e :: e1 :: es =>
    "\x7b" ++ json.appendMembers [("field", e.Field), ("error", e.Err)] ++ "\x7d," ++
      encodeFieldErrors (e1 :: es)

/-- Modelled from the spec: the `Error()` text of the error `validate.Check` returns,
the violation set serialised as JSON (the text the handler's test expects,
`[{"field":"name","error":"name is a required field"},...]`). -/
def Error (errs : List FieldError) : String :=
  "[" ++ encodeFieldErrors errs ++ "]"

end validate

/-! ## http/handlers/v1/harbors/harbors.go -/

namespace harbors

open json

/-- A Go slice, as `encoding/json` decodes into it: its elements, and the values that
its backing array holds beyond its length, which a later decode into the slice finds
in its slots. Slots that a growth of the backing array has added hold the zero value,
as does a slot that is yet to be added, and are left out of `spare`. -/
structure Slice (α : Type) where
  elems : List α
  spare : List α
deriving DecidableEq, Repr

/-- The nil slice, and the slice of `reflect.MakeSlice(t, 0, 0)`. -/
def Slice.empty {α : Type} : Slice α :=
  { elems := [], spare := [] }

/-- UpsertHarborRequest represents the request to upsert a harbor. -/
structure UpsertHarborRequest where
  UNLoc : String
  Name : String
  City : String
  Country : String
  Alias : Slice String
  Regions : Slice String
  Coordinates : Slice float64
  Province : String
  Timezone : String
  UNLocs : Slice String
  Code : String
deriving DecidableEq, Repr

/-- The zero value of `UpsertHarborRequest` (`var req UpsertHarborRequest`). -/
def UpsertHarborRequest.zero : UpsertHarborRequest :=
  { UNLoc := "", Name := "", City := "", Country := "", Alias := .empty, Regions := .empty,
    Coordinates := .empty, Province := "", Timezone := "", UNLocs := .empty, Code := "" }

/-- ToHarbor converts the UpsertHarborRequest to a harbor.Harbor. The slices of the
harbor are read through their elements only. -/
def UpsertHarborRequest.ToHarbor (u : UpsertHarborRequest) : harbor.Harbor :=
  { UNLoc := u.UNLoc
    Name := u.Name
    City := u.City
    Country := u.Country
    Alias := u.Alias.elems
    Regions := u.Regions.elems
    Coordinates := u.Coordinates.elems
    Province := u.Province
    Timezone := u.Timezone
    UNLocs := u.UNLocs.elems
    Code := u.Code }

/-- The fields tagged `validate:"required"`, by JSON name, in declaration order. -/
def UpsertHarborRequest.required (u : UpsertHarborRequest) : List (String × String) :=
  [("name", u.Name), ("city", u.City), ("country", u.Country)]

/-- The fields of `UpsertHarborRequest`. -/
inductive Field where
  | UNLoc | Name | City | Country | Alias | Regions | Coordinates | Province | Timezone
  | UNLocs | Code
deriving DecidableEq, Repr

/-- The JSON names of the fields (the `json` struct tags), in declaration order. -/
def fields : List (String × Field) :=
  [("unloc", .UNLoc), ("name", .Name), ("city", .City), ("country", .Country),
   ("alias", .Alias), ("regions", .Regions), ("coordinates", .Coordinates),
   ("province", .Province), ("timezone", .Timezone), ("unlocs", .UNLocs), ("code", .Code)]

/-- `foldRune` of `encoding/json` as far as names made of ASCII letters are concerned:
an ASCII letter folds to its upper case, and the two other characters that fold to an
ASCII letter are the long s and the Kelvin sign. -/
def foldRune (c : Char) : Char :=
  if c = 'ſ' then 'S' else if c = 'K' then 'K' else c.toUpper

/-- `foldName`: the key with every character folded. -/
def foldName (key : String) : List Char :=
  key.data.map foldRune

/-- The field an object key is stored in: the field of that exact name
(`byExactName`), else the field whose folded name is the folded key (`byFoldedName`),
else none, and the member is skipped. -/
def findField (key : String) : Option Field :=
  match fields.find? (fun f => f.1 == key) with
  | some f => some f.2
  | none => (fields.find? (fun f => foldName f.1 == foldName key)).map (fun f => f.2)

/-- Storing a JSON value in a `string` field that holds `old` (`literalStore`): null
leaves the field as it is, anything but a string is an `UnmarshalTypeError`. -/
def storeString (old : String) : JValue → Except error String
  | .null => .ok old
  | .string s => .ok s
  | _ => .error .UnmarshalTypeError

/-- Storing a JSON value in a `float64` slot: a number out of range is an
`UnmarshalTypeError`. -/
def storeFloat (old : float64) : JValue → Except error float64
  | .null => .ok old
  | .number (some f) => .ok f
  | _ => .error .UnmarshalTypeError

/-- Storing the elements of a JSON array in the slots of a `[]string` (the loop of
`array` in decode.go): element `i` is decoded into slot `i`, which holds what the
backing array held there; a slot beyond the capacity is new and holds the zero
value. `slots` are the values of the backing array from the current slot on. -/
def storeStringElems : List JValue → List String → Except error (List String)
  | [], _ => .ok []
  | v :: vs, slots =>
    match storeString (slots.headD "") v, storeStringElems vs slots.tail with
    | .ok s, .ok ss => .ok (s :: ss)
    | .error e, _ => .error e
    | _, .error e => .error e

/-- Storing the elements of a JSON array in the slots of a `[]float64`. -/
def storeFloatElems : List JValue → List float64 → Except error (List float64)
  | [], _ => .ok []
  | v :: vs, slots =>
    match storeFloat (slots.headD ⟨0⟩) v, storeFloatElems vs slots.tail with
    | .ok s, .ok ss => .ok (s :: ss)
    | .error e, _ => .error e
    | _, .error e => .error e

/-- Storing a JSON value in a `[]string` field that holds `old`: null makes it the nil
slice, the empty array a new empty slice, and an array is decoded element by element
into the slots of the backing array of `old`, the length set to the number of
elements; what the backing array holds beyond them stays. Anything else is an
`UnmarshalTypeError`. -/
def storeStrings (old : Slice String) : JValue → Except error (Slice String)
  | .null => .ok .empty
  | .array [] => .ok .empty
  | .array xs =>
    (storeStringElems xs (old.elems ++ old.spare)).map
      (fun ys => { elems := ys, spare := (old.elems ++ old.spare).drop xs.length })
  | _ => .error .UnmarshalTypeError

/-- Storing a JSON value in a `[]float64` field that holds `old`. -/
def storeFloats (old : Slice float64) : JValue → Except error (Slice float64)
  | .null => .ok .empty
  | .array [] => .ok .empty
  | .array xs =>
    (storeFloatElems xs (old.elems ++ old.spare)).map
      (fun ys => { elems := ys, spare := (old.elems ++ old.spare).drop xs.length })
  | _ => .error .UnmarshalTypeError

/-- Storing the value of the member `key` of a JSON object in the request. -/
def UpsertHarborRequest.store (req : UpsertHarborRequest) (key : String) (v : JValue) :
    Except error UpsertHarborRequest :=
  match findField key with
  | none => .ok req
  | some .UNLoc => (storeString req.UNLoc v).map (fun x => { req with UNLoc := x })
  | some .Name => (storeString req.Name v).map (fun x => { req with Name := x })
  | some .City => (storeString req.City v).map (fun x => { req with City := x })
  | some .Country => (storeString req.Country v).map (fun x => { req with Country := x })
  | some .Alias => (storeStrings req.Alias v).map (fun x => { req with Alias := x })
  | some .Regions => (storeStrings req.Regions v).map (fun x => { req with Regions := x })
  | some .Coordinates =>
    (storeFloats req.Coordinates v).map (fun x => { req with Coordinates := x })
  | some .Province => (storeString req.Province v).map (fun x => { req with Province := x })
  | some .Timezone => (storeString req.Timezone v).map (fun x => { req with Timezone := x })
  | some .UNLocs => (storeStrings req.UNLocs v).map (fun x => { req with UNLocs := x })
  | some .Code => (storeString req.Code v).map (fun x => { req with Code := x })

/-- Storing the members of a JSON object in the request, in order; a later member of
the same name is decoded into what the earlier one left in the field. -/
def UpsertHarborRequest.storeMembers :
    UpsertHarborRequest → List (String × JValue) → Except error UpsertHarborRequest
  | req, [] => .ok req
  | req, (k, v) :: ms =>
    match req.store k v with
    | .error e => .error e
    | .ok req1 => req1.storeMembers ms

/-- What `dec.Decode(&req)` does with the value it has read, `req` being a fresh
`UpsertHarborRequest`: an object is stored member by member, null leaves the zero
value and is no error, and any other value is an `UnmarshalTypeError`. (A null element
of an array leaves its slot as it is.) -/
def unmarshal : JValue → Except error UpsertHarborRequest
  | .null => .ok .zero
  | .object ms => UpsertHarborRequest.zero.storeMembers ms
  | _ => .error .UnmarshalTypeError

/-- UpsertHarborResponse represents the response to upsert a harbor. -/
structure UpsertHarborResponse where
  Message : String
deriving DecidableEq, Repr

/-- The response as a payload (its `json` struct tag). -/
def UpsertHarborResponse.payload (r : UpsertHarborResponse) : web.Payload :=
  .object [("message", r.Message)]

/-- The interface `responseController`, made by the package variable
`newHttpResponseController`. `FlushErr` is what `Flush` returns; `flushes` tells whether
`Flush` reaches the response writer, as the controller of `http.NewResponseController`
does, or not, as the test double `mockResponseController`. -/
structure responseController where
  FlushErr : Option String
  flushes : Bool
deriving DecidableEq, Repr

/-- `ctr.Flush()`. -/
def responseController.Flush (ctr : responseController) (w : http.ResponseRecorder) :
    Option String × http.ResponseRecorder :=
  (ctr.FlushErr, if ctr.flushes then w.Flush else w)

/-- The interface `harborService`: `UpsertHarbor` on a store of type `σ` returns the
error, if any, and the store after the call. -/
structure harborService (σ : Type) where
  UpsertHarbor : harbor.Harbor → σ → Option String × σ

/-- The store of the service together with the record of the calls made to
`UpsertHarbor` so far, oldest first. -/
structure World (σ : Type) where
  store : σ
  calls : List harbor.Harbor

/-- The handlers for managing harbors. -/
structure handlers (σ : Type) where
  service : harborService σ

/-- The call `h.service.UpsertHarbor(ctx, harbor)`, recorded. -/
def handlers.UpsertHarbor {σ : Type} (h : handlers σ) (hb : harbor.Harbor) (world : World σ) :
    Option String × World σ :=
  let r := h.service.UpsertHarbor hb world.store
  (r.1, { store := r.2, calls := world.calls ++ [hb] })

/-- The custom error type that carries an HTTP status code. -/
structure handlerError where
  code : Nat
  msg : String
deriving DecidableEq, Repr

def handlerError.Error (he : handlerError) : String :=
  he.msg

/-- readKey reads the next token and returns it as a string. -/
def readKey (dec : Decoder) : Except error String × Decoder :=
  match dec.Token with
  | (.error err, dec1) => (.error err, dec1)
  | (.ok (.string key), dec1) => (.ok key, dec1)
  | (.ok _, dec1) => (.error (.New "invalid JSON key"), dec1)

/-- readExpectedToken reads the next token and verifies it matches the expected
delimiter. -/
def readExpectedToken (dec : Decoder) (expected : Char) : Option error × Decoder :=
  match dec.Token with
  | (.error err, dec1) => (some err, dec1)
  | (.ok tok, dec1) =>
    if tok ≠ .Delim expected then
      (some (.Errorf "unexpected token: got %v, expected %v" [tok, .Delim expected]), dec1)
    else (none, dec1)

/-- processSingleHarbor handles processing of a single harbor entry. -/
def handlers.processSingleHarbor {σ : Type} (h : handlers σ) (world : World σ) (dec : Decoder) :
    Option handlerError × World σ × Decoder :=
  match readKey dec with
  | (.error _, dec1) => (some ⟨http.StatusBadRequest, "invalid JSON key"⟩, world, dec1)
  | (.ok key, dec1) =>
    match dec1.Decode unmarshal with
    | (.error _, dec2) =>
      (some ⟨http.StatusBadRequest, "invalid JSON harbor structure"⟩, world, dec2)
    | (.ok req, dec2) =>
      match validate.Check req.required with
      | some errs => (some ⟨http.StatusBadRequest, validate.Error errs⟩, world, dec2)
      | none =>
        let req := { req with UNLoc := key }
        match h.UpsertHarbor req.ToHarbor world with
        | (some _, world1) =>
          (some ⟨http.StatusInternalServerError, "error upserting harbor"⟩, world1, dec2)
        | (none, world1) => (none, world1, dec2)

/-- The loop of `processHarbors`, run for at most `fuel` entries: `none` when the fuel
is used up before the loop ends. -/
def handlers.processHarborsLoop {σ : Type} (h : handlers σ) :
    Nat → World σ → Decoder → Option (Option handlerError × World σ × Decoder)
  | 0, _, _ => none
  | fuel + 1, world, dec =>
    if dec.More then
      match h.processSingleHarbor world dec with
      | (some herr, world1, dec1) => some (some herr, world1, dec1)
      | (none, world1, dec1) => h.processHarborsLoop fuel world1 dec1
    else some (none, world, dec)

/-- processHarbors iterates through each harbor entry in the JSON and delegates
processing. Every entry consumes input, so the length of the unread input bounds the
number of entries. -/
def handlers.processHarbors {σ : Type} (h : handlers σ) (world : World σ) (dec : Decoder) :
    Option (Option handlerError × World σ × Decoder) :=
  h.processHarborsLoop (dec.buf.length + 1) world dec

/-- What a run of `HandleUpsert` leaves behind: the response writer, the store with
the record of the calls to `UpsertHarbor`, and the decoder. -/
structure Outcome (σ : Type) where
  w : http.ResponseRecorder
  world : World σ
  dec : Decoder

/-- HandleUpsert handles the upsert of harbors in a streaming fashion. `body` is
`r.Body`, `ctr` the controller made by `newHttpResponseController`, `vars` the
variables of the package `web`. -/
def handlers.HandleUpsert {σ : Type} (h : handlers σ) (vars : web.Vars) (ctr : responseController)
    (w : http.ResponseRecorder) (body : List Lexeme) (world : World σ) : Option (Outcome σ) :=
  let dec := NewDecoder body
  -- check for opening brace.
  match readExpectedToken dec '\x7b' with
  | (some _, dec1) =>
    some ⟨web.RespondWithError vars w http.StatusBadRequest
      "invalid JSON: expected '\x7b' at start", world, dec1⟩
  | (none, dec1) =>
    -- process each harbor in the JSON object.
    match h.processHarbors world dec1 with
    | none => none
    | some (some herr, world1, dec2) =>
      some ⟨web.RespondWithError vars w herr.code herr.Error, world1, dec2⟩
    | some (none, world1, dec2) =>
      -- check for closing brace.
      match readExpectedToken dec2 '\x7d' with
      | (some _, dec3) =>
        some ⟨web.RespondWithError vars w http.StatusBadRequest
          "invalid JSON: expected '\x7d' at end", world1, dec3⟩
      | (none, dec3) =>
        -- flush response and finalize.
        match ctr.Flush w with
        | (some err, w1) =>
          some ⟨web.RespondWithError vars w1 http.StatusInternalServerError err, world1, dec3⟩
        | (none, w1) =>
          some ⟨web.RespondAfterFlush vars w1
            (UpsertHarborResponse.payload { Message := "harbors upserted" }), world1, dec3⟩

end harbors

/-! ## Definitions used to state the properties -/

namespace json

/-- The elements of an array, each followed by a comma. -/
def renderElemsComma (xs : List JValue) : List Lexeme :=
  xs.flatMap (fun v => render v ++ [.comma])

/-- The members of an object, each followed by a comma. -/
def renderMembersComma (ms : List (String × JValue)) : List Lexeme :=
  ms.flatMap (fun m => .str m.1 :: .colon :: (render m.2 ++ [.comma]))

/-- What the scanner has read of the containers that are open on its stack. -/
def readOfStack : List Frame → List Lexeme
  | [] => []
  | .array elems :: rest => readOfStack rest ++ .lbrack :: renderElemsComma elems.reverse
  | .object ms k :: rest =>
    readOfStack rest ++ .lbrace :: (renderMembersComma ms.reverse ++ [.str k, .colon])

/-- What the scanner has read since it was last at the start of a value. -/
def readOfStep : Step → List Lexeme
  | .beginValue => []
  | .beginValueOrEmpty => [.lbrack]
  | .beginStringOrEmpty => [.lbrace]
  | .beginString ms => .lbrace :: renderMembersComma ms.reverse
  | .endKey ms k => .lbrace :: (renderMembersComma ms.reverse ++ [.str k])
  | .endValue v => render v

end json

namespace harbors
open json

/-- The token state in which the decoder meets an entry of the top-level object: the
first entry right after the opening brace, a later one after the value before it. -/
def entryState (first : Bool) : TokenState :=
  if first then .tokenObjectStart else .tokenObjectComma

/-- The lexical elements of consecutive entries of the top-level object as the handler
meets them: every entry but the very first is preceded by a comma. -/
def renderEntries : Bool → List (String × JValue) → List Lexeme
  | _, [] => []
  | first, (k, v) :: es =>
    (if first then [] else [.comma]) ++ .str k :: .colon :: (render v ++ renderEntries false es)

/-- The request an entry decodes to, when its value decodes and passes validation. -/
def entryRequest (e : String × JValue) : Option UpsertHarborRequest :=
  match unmarshal e.2 with
  | .ok req =>
    match validate.Check req.required with
    | none => some req
    | some _ => none
  | .error _ => none

/-- The harbor the handler makes of the entry with key `key` decoded to `req`. -/
def harborOf (key : String) (req : UpsertHarborRequest) : harbor.Harbor :=
  ({ req with UNLoc := key }).ToHarbor

/-- The harbor of an entry that decodes and passes validation. -/
def entryHarbor (e : String × JValue) : Option harbor.Harbor :=
  (entryRequest e).map (harborOf e.1)

/-- The store after `UpsertHarbor` has been called on each harbor in turn, when every
call succeeds. -/
def upsertAll {σ : Type} (svc : harborService σ) : σ → List harbor.Harbor → Option σ
  | s, [] => some s
  | s, hb :: hbs =>
    match svc.UpsertHarbor hb s with
    | (none, s1) => upsertAll svc s1 hbs
    | (some _, _) => none

/-- The harbors of a list of entries, when every one of them decodes and passes
validation. -/
def harborsOf : List (String × JValue) → Option (List harbor.Harbor)
  | [] => some []
  | e :: es =>
    match entryHarbor e, harborsOf es with
    | some hb, some hbs => some (hb :: hbs)
    | _, _ => none

/-- An entry's value is an object with name, city and country populated: it is a JSON
object that decodes into the request (its known members have the types of the wire
protocol) and leaves none of the three fields empty. -/
def populated (v : JValue) : Bool :=
  match v with
  | .object ms =>
    match UpsertHarborRequest.zero.storeMembers ms with
    | .ok req => req.Name != "" && req.City != "" && req.Country != ""
    | .error _ => false
  | _ => false

/-- The required fields that a decoded record leaves empty, by JSON name, in the
order in which the record declares them: name, city, country. -/
def missingFields (req : UpsertHarborRequest) : List String :=
  (if req.Name = "" then ["name"] else []) ++ (if req.City = "" then ["city"] else []) ++
    (if req.Country = "" then ["country"] else [])

/-- The violation reported for a missing required field. -/
def requiredError (field : String) : validate.FieldError :=
  { Field := field, Err := field ++ " is a required field" }

/-- The body of an error response with the given message. -/
def errorBody (message : String) : String :=
  "\x7b\"error\":" ++ json.appendString message ++ "\x7d"

/-- The valid record of the handler's tests (Los Angeles). -/
def losAngeles : JValue :=
  .object [("name", .string "Los Angeles"), ("city", .string "Los Angeles"),
    ("country", .string "USA"), ("alias", .array []), ("regions", .array []),
    ("coordinates", .array [.number (some ⟨13861393114467566145⟩),
      .number (some ⟨4629989238410472692⟩)]),
    ("province", .string "California"), ("timezone", .string "America/Los_Angeles"),
    ("unlocs", .array [.string "USLAX"]), ("code", .string "53001")]

/-- A lexical element that, where an object key is due, makes `readKey` fail: anything
but a string, the closing brace and the closing bracket (on which the decoder
reports that the object has no further entry). It covers a number, a boolean, null
and the opening of a nested structure. -/
def notKey : Lexeme → Bool
  | .str _ => false
  | .rbrace => false
  | .rbrack => false
  | _ => true

/-- A value on which `dec.Decode(&req)` fails: anything but null that is not an object
(an array, a string, a number, a boolean), or an object one of whose known members
has the wrong type. -/
def malformedRecord : JValue → Bool
  | .null => false
  | .object ms =>
    match UpsertHarborRequest.zero.storeMembers ms with
    | .ok _ => false
    | .error _ => true
  | _ => true

/-- The calls made to `UpsertHarbor` when the harbors are upserted in turn until a call
fails: the harbors up to and including the first on which `UpsertHarbor` returns an
error, or all of them. -/
def callsMade {σ : Type} (svc : harborService σ) : σ → List harbor.Harbor → List harbor.Harbor
  | _, [] => []
  | s, hb :: hbs =>
    match svc.UpsertHarbor hb s with
    | (none, s1) => hb :: callsMade svc s1 hbs
    | (some _, _) => [hb]

/-- The store after the calls of `callsMade`. -/
def storeAfter {σ : Type} (svc : harborService σ) : σ → List harbor.Harbor → σ
  | s, [] => s
  | s, hb :: hbs =>
    match svc.UpsertHarbor hb s with
    | (none, s1) => storeAfter svc s1 hbs
    | (some _, s1) => s1

/-- The input begins with an entry that decodes and passes validation (`first` tells
whether it is the first entry of the object, or is preceded by a comma). -/
def beginsWithEntry (first : Bool) (buf : List Lexeme) : Prop :=
  ∃ e rest, (entryHarbor e).isSome = true ∧ buf = renderEntries first [e] ++ rest

/-- The test double of the handler's tests: a service on a store without content
whose `UpsertHarbor` returns `UpsertHarborErr` on every call. -/
def mockHarborService (UpsertHarborErr : Option String) : harborService Unit :=
  { UpsertHarbor := fun _ s => (UpsertHarborErr, s) }

end harbors

/-! ## domain/harbor/repository.go, services/harbor_service.go -/

namespace harbor

/-- HarborRepository defines the interface that a harbor repository should implement:
`UpsertHarbor` on a store of type `σ` returns the error, if any, and the store after
the call. -/
structure HarborRepository (σ : Type) where
  UpsertHarbor : Harbor → σ → Option String × σ

end harbor

namespace services

/-- HarborService is a service that provides operations on Harbors. -/
structure HarborService (σ : Type) where
  repository : harbor.HarborRepository σ

/-- UpsertHarbor upserts a Harbor. -/
def HarborService.UpsertHarbor {σ : Type} (s : HarborService σ) (h : harbor.Harbor) (st : σ) :
    Option String × σ :=
  match s.repository.UpsertHarbor h st with
  | (some err, st1) => (some err, st1)
  | (none, st1) => (none, st1)

/-- NewHarborService initializes a new HarborService. -/
def NewHarborService {σ : Type} (repo : harbor.HarborRepository σ) : HarborService σ :=
  { repository := repo }

/-- The service as a `harborService` of the handlers. -/
def HarborService.service {σ : Type} (s : HarborService σ) : harbors.harborService σ :=
  { UpsertHarbor := s.UpsertHarbor }

end services

namespace harbors

/-- New creates the handlers for managing harbors. -/
def New {σ : Type} (service : harborService σ) : handlers σ :=
  { service := service }

end harbors

/-! ## strings, fmt -/

namespace strings

/-- `unicode.IsSpace`. -/
def isSpace (c : Char) : Bool :=
  c == '\t' || c == '\n' || c == '\x0b' || c == '\x0c' || c == '\r' || c == ' ' ||
    c == '\u0085' || c == '\u00a0' || c == '\u1680' ||
    (0x2000 ≤ c.toNat && c.toNat ≤ 0x200a) ||
    c == '\u2028' || c == '\u2029' || c == '\u202f' || c == '\u205f' || c == '\u3000'

/-- The fields of the text `cs` that follows the characters `cur` (in reverse order)
of the field being read. -/
def fieldsFrom : List Char → List Char → List String
  | [], cur => if cur.isEmpty then [] else [String.mk cur.reverse]
  | c :: cs, cur =>
    if isSpace c then
      if cur.isEmpty then fieldsFrom cs [] else String.mk cur.reverse :: fieldsFrom cs []
    else fieldsFrom cs (c :: cur)

/-- `strings.Fields`: the text split around each run of white space. -/
def Fields (s : String) : List String :=
  fieldsFrom s.data []

/-- `strings.Join`: the elements with the separator between them. -/
def Join (elems : List String) (sep : String) : String :=
  match elems with
  | [] => ""
  | [e] => e
  | e :: rest => rest.foldl (fun b s => b ++ sep ++ s) e

end strings

namespace fmt

/-- `fmt.Sprint` of a `[]float64`: the elements in brackets, separated by a space.
`formatFloat` stands for the formatting of one `float64` by the verb `%v`, which is not
modelled. -/
def Sprint (formatFloat : float64 → String) (a : List float64) : String :=
  "[" ++ strings.Join (a.map formatFloat) " " ++ "]"

end fmt

/-! ## storage/sqlite/harbor_repository.go -/

namespace sqlite

/-- The SQL query to upsert a harbor into the database. -/
def upsertQuery : String :=
  "\nINSERT INTO harbors (unloc, name, city, country, alias, regions, coordinates, province, timezone, unlocs, code)\nVALUES (?, ?, ?, ?, ?, ?, ?, ?, ?, ?, ?)\nON CONFLICT(unloc) DO UPDATE SET\n\tname = excluded.name,\n\tcity = excluded.city,\n\tcountry = excluded.country,\n\talias = excluded.alias,\n\tregions = excluded.regions,\n\tcoordinates = excluded.coordinates,\n\tprovince = excluded.province,\n\ttimezone = excluded.timezone,\n\tunlocs = excluded.unlocs,\n\tcode = excluded.code;\n"

/-- The columns that the statement of `upsertQuery` inserts into, in its order. -/
def upsertColumns : List String :=
  ["unloc", "name", "city", "country", "alias", "regions", "coordinates", "province",
    "timezone", "unlocs", "code"]

/-- A `*sql.DB`, as far as the repository uses it: `ExecContext` with a query and its
arguments, on a database state of type `σ`, returns the error, if any, and the state
after the statement. -/
structure DB (σ : Type) where
  ExecContext : String → List String → σ → Option String × σ

/-- The SQLite implementation of the harbor repository. -/
structure harborSQLiteRepository (σ : Type) where
  db : DB σ

/-- NewHarborRepository creates a new harbor repository. -/
def NewHarborRepository {σ : Type} (db : DB σ) : harborSQLiteRepository σ :=
  { db := db }

/-- UpsertHarbor upserts a harbor into the database. -/
def harborSQLiteRepository.UpsertHarbor {σ : Type} (formatFloat : float64 → String)
    (r : harborSQLiteRepository σ) (harbor : harbor.Harbor) (s : σ) : Option String × σ :=
  let flattenAliases := strings.Join harbor.Alias ","
  let flattenRegions := strings.Join harbor.Regions ","
  let flattenCoordinates :=
    strings.Join (strings.Fields (fmt.Sprint formatFloat harbor.Coordinates)) ","
  let flattenUNLocs := strings.Join harbor.UNLocs ","
  match r.db.ExecContext upsertQuery
      [harbor.UNLoc, harbor.Name, harbor.City, harbor.Country, flattenAliases, flattenRegions,
        flattenCoordinates, harbor.Province, harbor.Timezone, flattenUNLocs, harbor.Code] s with
  | (some err, s1) => (some ("upserting harbor: " ++ err), s1)
  | (none, s1) => (none, s1)

/-- The repository as a `harbor.HarborRepository`. -/
def harborSQLiteRepository.repository {σ : Type} (formatFloat : float64 → String)
    (r : harborSQLiteRepository σ) : harbor.HarborRepository σ :=
  { UpsertHarbor := r.UpsertHarbor formatFloat }

/-- The test double of the repository's tests (`sqlmock`): a database that records the
statements executed, with their arguments, oldest first, and returns `err` for each. -/
def mockDB (err : Option String) : DB (List (String × List String)) :=
  { ExecContext := fun query args log => (err, log ++ [(query, args)]) }

/-- The table `harbors` as a map from `unloc` to the row of that key, a row being the
values of the columns of `upsertColumns`. -/
abbrev Table := String → Option (List String)

/-- The database that executes the upsert statement on the table as an
insert-or-overwrite on `unloc`: the row of the given arguments becomes the row of its
`unloc`, whether or not that key had a row, and no other row changes. A statement that
is not given its eleven arguments is an error. -/
def tableDB : DB Table :=
  { ExecContext := fun _ args t =>
      match args with
      | unloc :: _ =>
        if args.length = 11 then (none, fun k => if k = unloc then some args else t k)
        else (some "sql: wrong number of arguments", t)
      | [] => (some "sql: wrong number of arguments", t) }

/-- The values that the statement is to store for a harbor, column by column, as the
spec describes them: the text fields as they are and the ordered sequences of strings
as their elements in input order separated by commas; `coordinates` is the text for
the coordinates. -/
def storedRow (coordinates : String) (harbor : harbor.Harbor) : List (String × String) :=
  [("unloc", harbor.UNLoc), ("name", harbor.Name), ("city", harbor.City),
    ("country", harbor.Country), ("alias", String.intercalate "," harbor.Alias),
    ("regions", String.intercalate "," harbor.Regions), ("coordinates", coordinates),
    ("province", harbor.Province), ("timezone", harbor.Timezone),
    ("unlocs", String.intercalate "," harbor.UNLocs), ("code", harbor.Code)]

/-- The row that `UpsertHarbor` has the statement store for a harbor. -/
def rowOf (formatFloat : float64 → String) (harbor : harbor.Harbor) : List String :=
  (storedRow (strings.Join (strings.Fields (fmt.Sprint formatFloat harbor.Coordinates)) ",")
    harbor).map Prod.snd

/-- The last of the harbors with the key `unloc`, if any. -/
def lastHarbor : List harbor.Harbor → String → Option harbor.Harbor
  | [], _ => none
  | hb :: hbs, unloc =>
    match lastHarbor hbs unloc with
    | some last => some last
    | none => if unloc = hb.UNLoc then some hb else none

/-- The table after the harbors have been submitted in turn, as the spec describes it
(insert-or-update, last write wins): every key among them has the row of the last
harbor with that key, and every other key has the row it had, if any. -/
def tableAfter (formatFloat : float64 → String) (t : Table) (hbs : List harbor.Harbor) : Table :=
  fun unloc =>
    match lastHarbor hbs unloc with
    | some hb => some (rowOf formatFloat hb)
    | none => t unloc

/-- The handlers as `cmd/main.go` wires them, on the database `tableDB`. -/
def tableHandlers (formatFloat : float64 → String) : harbors.handlers Table :=
  harbors.New (services.NewHarborService
    ((NewHarborRepository tableDB).repository formatFloat)).service

/-- The text for the coordinates as the claim describes it: an opening bracket, the
default formatting of each element, separated by commas, in input order, and a
closing bracket. -/
def coordinatesText (formatFloat : float64 → String) (coordinates : List float64) : String :=
  "[" ++ strings.Join (coordinates.map formatFloat) "," ++ "]"

/-- The harbor of the repository's tests. -/
def testHarbor : harbor.Harbor :=
  { UNLoc := "unloc", Name := "name", City := "city", Country := "country",
    Alias := ["alias1", "alias2"], Regions := ["region1", "region2"],
    Coordinates := [⟨4607182418800017408⟩, ⟨4611686018427387904⟩], Province := "province",
    Timezone := "timezone", UNLocs := ["unloc1", "unloc2"], Code := "code" }

/-- The formatting by `%v` of the two coordinates of the repository's tests, 1.0 and
2.0, given by their bit patterns; any other value is shown as `NaN`. -/
def formatTestFloat (f : float64) : String :=
  if f.bits = 4607182418800017408 then "1"
  else if f.bits = 4611686018427387904 then "2"
  else "NaN"

end sqlite

/-! ## http/middleware/middleware.go -/

namespace http

/-- An `http.Request`, as far as the middleware looks at it: the header map (for every
key, its values) and the content length; `Body` is the request body. -/
structure Request where
  Header : List (String × List String)
  ContentLength : Int
  Body : List json.Lexeme

/-- `r.Header.Get(key)`, for a key in canonical form: the first value of the key, or the
empty string. -/
def Request.HeaderGet (r : Request) (key : String) : String :=
  match r.Header.find? (fun kv => kv.1 == key) with
  | some (_, v :: _) => v
  | _ => ""

/-- `w.Header().Del(key)`. -/
def ResponseRecorder.HeaderDel (rw : ResponseRecorder) (key : String) : ResponseRecorder :=
  { rw with HeaderMap := rw.HeaderMap.filter (fun kv => kv.1 != key) }

/-- `http.Error`: replies to the request with the error message, as plain text, and
the status code. A `WriteHeader(code)` that panics ends the call. -/
def Error (w : ResponseRecorder) (error : String) (code : Nat) : ResponseRecorder :=
  let w := w.HeaderDel "Content-Length"
  let w := w.HeaderSet "Content-Type" "text/plain; charset=utf-8"
  let w := w.HeaderSet "X-Content-Type-Options" "nosniff"
  if w.panics code then w.WriteHeader code
  else
    let w := w.WriteHeader code
    w.Write (error ++ "\n")

end http

namespace middleware

/-- PreventRequestSmuggling blocks smuggling attempts by validating Transfer-Encoding
headers. An `http.Handler` is a function from the writer and the request to the writer
it leaves. -/
def PreventRequestSmuggling (next : http.ResponseRecorder → http.Request → http.ResponseRecorder)
    (w : http.ResponseRecorder) (r : http.Request) : http.ResponseRecorder :=
  if r.HeaderGet "Transfer-Encoding" == "chunked" && decide (r.ContentLength > 0) then
    http.Error w "Invalid Transfer-Encoding header" http.StatusBadRequest
  else next w r

end middleware

/-! ## The response side of `HandleUpsert` -/

namespace harbors
open json

/-- What `HandleUpsert` does on the response side, on a writer of type `ω`: the flush of
the controller and the two functions of the package `web` it responds with. -/
structure Responder (ω : Type) where
  Flush : ω → Option String × ω
  RespondWithError : ω → Nat → String → ω
  RespondAfterFlush : ω → web.Payload → ω

/-- HandleUpsert handles the upsert of harbors in a streaming fashion: the function of
the source with the response side taken as a parameter. -/
def handlers.HandleUpsertVia {σ ω : Type} (h : handlers σ) (rsp : Responder ω) (w : ω)
    (body : List Lexeme) (world : World σ) : Option (ω × World σ × Decoder) :=
  let dec := NewDecoder body
  -- check for opening brace.
  match readExpectedToken dec '\x7b' with
  | (some _, dec1) =>
    some (rsp.RespondWithError w http.StatusBadRequest "invalid JSON: expected '\x7b' at start",
      world, dec1)
  | (none, dec1) =>
    -- process each harbor in the JSON object.
    match h.processHarbors world dec1 with
    | none => none
    | some (some herr, world1, dec2) =>
      some (rsp.RespondWithError w herr.code herr.Error, world1, dec2)
    | some (none, world1, dec2) =>
      -- check for closing brace.
      match readExpectedToken dec2 '\x7d' with
      | (some _, dec3) =>
        some (rsp.RespondWithError w http.StatusBadRequest "invalid JSON: expected '\x7d' at end",
          world1, dec3)
      | (none, dec3) =>
        -- flush response and finalize.
        match rsp.Flush w with
        | (some err, w1) =>
          some (rsp.RespondWithError w1 http.StatusInternalServerError err, world1, dec3)
        | (none, w1) =>
          some (rsp.RespondAfterFlush w1
            (UpsertHarborResponse.payload { Message := "harbors upserted" }), world1, dec3)

/-- A call of `HandleUpsert` to the package `web`. -/
inductive ResponseCall where
  | RespondWithError (code : Nat) (message : String)
  | RespondAfterFlush (payload : web.Payload)
deriving DecidableEq, Repr

/-- The response side of the source, which also records the calls made to the package
`web`, oldest first: the controller `ctr` and the package `web` with its variables
`vars`, on a response writer paired with the record of the calls. -/
def recordingResponder (vars : web.Vars) (ctr : responseController) :
    Responder (http.ResponseRecorder × List ResponseCall) :=
  { Flush := fun w => ((ctr.Flush w.1).1, ((ctr.Flush w.1).2, w.2))
    RespondWithError := fun w code message =>
      (web.RespondWithError vars w.1 code message, w.2 ++ [.RespondWithError code message])
    RespondAfterFlush := fun w payload =>
      (web.RespondAfterFlush vars w.1 payload, w.2 ++ [.RespondAfterFlush payload]) }

/-- The body of the success response. -/
def successBody : String := "\x7b\"message\":\"harbors upserted\"\x7d"

end harbors

/-! ## Properties -/

namespace json

theorem scan_done (v : JValue) (rest : List Lexeme) : scan (.endValue v) [] rest = .ok (v, rest) := by
  cases rest <;> simp [scan]

theorem scan_cons (st : Step) (stack : List Frame) (c : Lexeme) (rest : List Lexeme)
    (h : ∀ v, st = .endValue v → stack ≠ []) :
    scan st stack (c :: rest) =
      match step st stack c with
      | none => .error .SyntaxError
      | some (st1, stack1) => scan st1 stack1 rest := by
  cases st <;> first | rfl | skip
  cases stack
  · exact absurd rfl (h _ rfl)
  · rfl

/-- A value renders to at least one lexical element, and on its first element the
scanner goes on as at the start of a value also just after an opening bracket. -/
theorem scan_orEmpty (v : JValue) (stack : List Frame) (rest : List Lexeme) :
    scan .beginValueOrEmpty stack (render v ++ rest) =
      scan .beginValue (.array [] :: stack) (render v ++ rest) := by
  cases v <;> simp [render, scan_cons, step, beginValue]

mutual
theorem scan_render (v : JValue) (stack : List Frame) (rest : List Lexeme) :
    scan .beginValue stack (render v ++ rest) = scan (.endValue v) stack rest := by
  cases v with
  | null => simp [render, scan_cons, step, beginValue, Lexeme.scalar?]
  | bool b => simp [render, scan_cons, step, beginValue, Lexeme.scalar?]
  | number f => simp [render, scan_cons, step, beginValue, Lexeme.scalar?]
  | string s => simp [render, scan_cons, step, beginValue, Lexeme.scalar?]
  | array xs =>
    cases xs with
    | nil => simp [render, renderElems, scan_cons, step, beginValue]
    | cons x xs =>
      have h := scan_renderElems (x :: xs) [] stack rest (by simp)
      simp only [render, List.cons_append, List.append_assoc, List.singleton_append, List.nil_append]
      rw [scan_cons _ _ _ _ (by simp)]
      simp only [step, beginValue]
      cases xs with
      | nil =>
        simp only [renderElems] at h ⊢
        rw [scan_orEmpty, h]; simp
      | cons y ys =>
        simp only [renderElems, List.append_assoc] at h ⊢
        rw [scan_orEmpty, h]; simp
  | object ms =>
    cases ms with
    | nil => simp [render, renderMembers, scan_cons, step, beginValue]
    | cons m ms =>
      have h := scan_renderMembers (m :: ms) [] stack rest (by simp)
      simp only [render, List.cons_append, List.append_assoc, List.singleton_append, List.nil_append]
      rw [scan_cons _ _ _ _ (by simp)]
      simp only [step, beginValue]
      obtain ⟨k, v⟩ := m
      cases ms with
      | nil =>
        simp only [renderMembers, List.cons_append] at h ⊢
        rw [scan_cons _ _ _ _ (by simp)] at h ⊢
        simp only [step] at h ⊢
        rw [h]; simp
      | cons y ys =>
        simp only [renderMembers, List.cons_append] at h ⊢
        rw [scan_cons _ _ _ _ (by simp)] at h ⊢
        simp only [step] at h ⊢
        rw [h]; simp
theorem scan_renderElems (xs : List JValue) (acc : List JValue) (stack : List Frame)
    (rest : List Lexeme) (hne : xs ≠ []) :
    scan .beginValue (.array acc :: stack) (renderElems xs ++ .rbrack :: rest) =
      scan (.endValue (.array (acc.reverse ++ xs))) stack rest := by
  match xs, hne with
  | [v], _ =>
    simp only [renderElems]
    rw [scan_render v, scan_cons _ _ _ _ (by simp)]
    simp [step]
  | v :: w :: vs, _ =>
    simp only [renderElems, List.append_assoc, List.cons_append]
    rw [scan_render v, scan_cons _ _ _ _ (by simp)]
    simp only [step]
    rw [scan_renderElems (w :: vs) (v :: acc) stack rest (by simp)]
    simp
theorem scan_renderMembers (ms : List (String × JValue)) (acc : List (String × JValue))
    (stack : List Frame) (rest : List Lexeme) (hne : ms ≠ []) :
    scan (.beginString acc) stack (renderMembers ms ++ .rbrace :: rest) =
      scan (.endValue (.object (acc.reverse ++ ms))) stack rest := by
  match ms, hne with
  | [(k, v)], _ =>
    simp only [renderMembers, List.cons_append]
    rw [scan_cons _ _ _ _ (by simp)]
    simp only [step]
    rw [scan_cons _ _ _ _ (by simp)]
    simp only [step]
    rw [scan_render v, scan_cons _ _ _ _ (by simp)]
    simp [step]
  | (k, v) :: m :: ms, _ =>
    simp only [renderMembers, List.cons_append, List.append_assoc]
    rw [scan_cons _ _ _ _ (by simp)]
    simp only [step]
    rw [scan_cons _ _ _ _ (by simp)]
    simp only [step]
    rw [scan_render v, scan_cons _ _ _ _ (by simp)]
    simp only [step]
    rw [scan_renderMembers (m :: ms) ((k, v) :: acc) stack rest (by simp)]
    simp
end

theorem readValue_render (v : JValue) (rest : List Lexeme) :
    readValue (render v ++ rest) = .ok (v, rest) := by
  have h : readValue (render v ++ rest) = scan .beginValue [] (render v ++ rest) := by
    cases v <;> simp [readValue, render]
  rw [h, scan_render, scan_done]

end json

namespace harbors
open json

theorem readKey_first (k : String) (rest : List Lexeme) (stack : List TokenState) :
    readKey ⟨.str k :: rest, none, .tokenObjectStart, stack⟩ =
      (.ok k, ⟨rest, none, .tokenObjectColon, stack⟩) := by
  simp [readKey, Decoder.Token, Decoder.tokenLoop, Decoder.Decode, Decoder.tokenPrepareForDecode,
    Decoder.tokenValueAllowed, readValue, scan_cons, step, beginValue, Lexeme.scalar?, scan_done,
    unmarshalString, Decoder.tokenValueEnd]

theorem readKey_next (k : String) (rest : List Lexeme) (stack : List TokenState) :
    readKey ⟨.comma :: .str k :: rest, none, .tokenObjectComma, stack⟩ =
      (.ok k, ⟨rest, none, .tokenObjectColon, stack⟩) := by
  simp [readKey, Decoder.Token, Decoder.tokenLoop, Decoder.Decode, Decoder.tokenPrepareForDecode,
    Decoder.tokenValueAllowed, readValue, scan_cons, step, beginValue, Lexeme.scalar?, scan_done,
    unmarshalString, Decoder.tokenValueEnd]

theorem Decode_render {α : Type} (um : JValue → Except error α) (v : JValue) (rest : List Lexeme)
    (stack : List TokenState) :
    Decoder.Decode um ⟨.colon :: (render v ++ rest), none, .tokenObjectColon, stack⟩ =
      (um v, ⟨rest, none, .tokenObjectComma, stack⟩) := by
  simp [Decoder.Decode, Decoder.tokenPrepareForDecode, Decoder.tokenValueAllowed,
    readValue_render, Decoder.tokenValueEnd]

theorem readKey_entry (first : Bool) (k : String) (rest : List Lexeme)
    (stack : List TokenState) :
    readKey ⟨(if first then [] else [Lexeme.comma]) ++ .str k :: rest, none, entryState first, stack⟩ =
      (.ok k, ⟨rest, none, .tokenObjectColon, stack⟩) := by
  cases first
  · simpa [entryState] using readKey_next k rest stack
  · simpa [entryState] using readKey_first k rest stack

theorem processSingleHarbor_entry {σ : Type} (h : handlers σ) (world : World σ) (first : Bool)
    (k : String) (v : JValue) (rest : List Lexeme) (stack : List TokenState) :
    h.processSingleHarbor world
        ⟨(if first then [] else [Lexeme.comma]) ++ .str k :: .colon :: (render v ++ rest), none,
          entryState first, stack⟩ =
      match unmarshal v with
      | .error _ =>
        (some ⟨http.StatusBadRequest, "invalid JSON harbor structure"⟩, world,
          ⟨rest, none, .tokenObjectComma, stack⟩)
      | .ok req =>
        match validate.Check req.required with
        | some errs =>
          (some ⟨http.StatusBadRequest, validate.Error errs⟩, world,
            ⟨rest, none, .tokenObjectComma, stack⟩)
        | none =>
          match h.UpsertHarbor (harborOf k req) world with
          | (some _, world1) =>
            (some ⟨http.StatusInternalServerError, "error upserting harbor"⟩, world1,
              ⟨rest, none, .tokenObjectComma, stack⟩)
          | (none, world1) => (none, world1, ⟨rest, none, .tokenObjectComma, stack⟩) := by
  unfold handlers.processSingleHarbor
  rw [readKey_entry first k]
  simp only [Decode_render]
  cases unmarshal v with
  | error e => rfl
  | ok req =>
    simp only
    cases validate.Check req.required with
    | some errs => rfl
    | none => rfl

theorem More_entry (first : Bool) (k : String) (rest : List Lexeme) (err : Option error)
    (st : TokenState) (stack : List TokenState) :
    Decoder.More ⟨(if first then [] else [Lexeme.comma]) ++ .str k :: rest, err, st, stack⟩ = true := by
  cases first <;> simp [Decoder.More, Decoder.peek]

theorem loop_mono {σ : Type} (h : handlers σ) (n : Nat) :
    ∀ (fuel : Nat) (world : World σ) (dec : Decoder) (r : Option handlerError × World σ × Decoder),
      h.processHarborsLoop fuel world dec = some r →
      h.processHarborsLoop (fuel + n) world dec = some r := by
  intro fuel
  induction fuel with
  | zero => intro world dec r hr; simp [handlers.processHarborsLoop] at hr
  | succ fuel ih =>
    intro world dec r hr
    rw [Nat.add_right_comm]
    simp only [handlers.processHarborsLoop] at hr ⊢
    split at hr
    · rename_i hm
      simp only [hm, if_true]
      rcases hp : h.processSingleHarbor world dec with ⟨_ | herr, world1, dec1⟩
      · rw [hp] at hr
        simp only at hr ⊢
        exact ih _ _ _ hr
      · rw [hp] at hr
        simpa using hr
    · rename_i hm
      simpa [hm] using hr

theorem loop_unique {σ : Type} (h : handlers σ) (f1 f2 : Nat) (world : World σ) (dec : Decoder)
    (r1 r2 : Option handlerError × World σ × Decoder)
    (h1 : h.processHarborsLoop f1 world dec = some r1)
    (h2 : h.processHarborsLoop f2 world dec = some r2) : r1 = r2 := by
  have e1 := loop_mono h f2 f1 world dec r1 h1
  have e2 := loop_mono h f1 f2 world dec r2 h2
  rw [Nat.add_comm] at e2
  rw [e1] at e2
  exact Option.some.inj e2

theorem scan_length (input : List Lexeme) :
    ∀ (st : Step) (stack : List Frame) (v : JValue) (rest : List Lexeme),
      scan st stack input = .ok (v, rest) → rest.length ≤ input.length := by
  induction input with
  | nil =>
    intro st stack v rest hs
    by_cases hd : ∃ w, st = .endValue w ∧ stack = []
    · obtain ⟨w, rfl, rfl⟩ := hd
      rw [scan_done] at hs
      cases hs; simp
    · rw [scan.eq_2 _ _ (fun w h1 h2 => hd ⟨w, h1, h2⟩)] at hs
      cases hs
  | cons c input ih =>
    intro st stack v rest hs
    by_cases hd : ∃ w, st = .endValue w ∧ stack = []
    · obtain ⟨w, rfl, rfl⟩ := hd
      rw [scan_done] at hs
      cases hs; simp
    · rw [scan.eq_3 _ _ _ _ (fun w h1 h2 => hd ⟨w, h1, h2⟩)] at hs
      cases hstep : step st stack c with
      | none => rw [hstep] at hs; cases hs
      | some p =>
        obtain ⟨st1, stack1⟩ := p
        rw [hstep] at hs
        have := ih _ _ _ _ hs
        simp only [List.length_cons]
        omega

theorem readValue_length (buf : List Lexeme) (v : JValue) (rest : List Lexeme)
    (hr : readValue buf = .ok (v, rest)) : rest.length < buf.length := by
  cases buf with
  | nil => simp [readValue] at hr
  | cons c buf =>
    simp only [readValue] at hr
    rw [scan_cons _ _ _ _ (by simp)] at hr
    cases hstep : step .beginValue [] c with
    | none => rw [hstep] at hr; cases hr
    | some p =>
      obtain ⟨st1, stack1⟩ := p
      rw [hstep] at hr
      have := scan_length _ _ _ _ _ hr
      simp only [List.length_cons]
      omega

theorem tokenPrepareForDecode_length (dec dec1 : Decoder) (r : Except error Unit)
    (hp : dec.tokenPrepareForDecode = (r, dec1)) : dec1.buf.length ≤ dec.buf.length := by
  unfold Decoder.tokenPrepareForDecode at hp
  split at hp
  · split at hp
    · cases hp; simp
    · rename_i c rest hb
      split at hp
      · cases hp; simp
      · cases hp; simp [hb]
  · split at hp
    · cases hp; simp
    · rename_i c rest hb
      split at hp
      · cases hp; simp
      · cases hp; simp [hb]
  · cases hp; simp

theorem Decode_length {α : Type} (um : JValue → Except error α) (dec dec2 : Decoder) (x : α)
    (hd : dec.Decode um = (.ok x, dec2)) : dec2.buf.length < dec.buf.length := by
  unfold Decoder.Decode at hd
  split at hd
  · cases hd
  · split at hd
    · cases hd
    · rename_i u dec1 hp
      have h1 := tokenPrepareForDecode_length _ _ _ hp
      split at hd
      · cases hd
      · split at hd
        · cases hd
        · rename_i v rest hr
          have h2 := readValue_length _ _ _ hr
          have h3 : dec2.buf = rest := by
            have := congrArg (fun p => p.2.buf) hd
            simp only [Decoder.tokenValueEnd] at this
            rw [← this]
            split <;> rfl
          rw [h3]; omega

theorem tokenValueEnd_buf (dec : Decoder) : dec.tokenValueEnd.buf = dec.buf := by
  unfold Decoder.tokenValueEnd
  split <;> rfl

theorem tokenDefault_length (dec d : Decoder) (t : Token)
    (ht : dec.tokenDefault = (.ok t, d)) : d.buf.length < dec.buf.length := by
  unfold Decoder.tokenDefault at ht
  split at ht
  · cases ht
  · exact Decode_length _ _ _ _ ht

theorem tokenLoop_length (dec0 : Decoder) (buf : List Lexeme) :
    ∀ (st : TokenState) (t : Token) (d : Decoder),
      Decoder.tokenLoop dec0 st buf = (.ok t, d) → d.buf.length < buf.length := by
  induction buf with
  | nil => intro st t d ht; simp [Decoder.tokenLoop] at ht
  | cons c rest ih =>
    intro st t d ht
    cases c with
    | lbrack =>
      simp only [Decoder.tokenLoop] at ht
      split at ht
      · cases ht
      · cases ht; simp
    | rbrack =>
      simp only [Decoder.tokenLoop] at ht
      split at ht
      · cases ht
      · split at ht
        · cases ht
        · cases ht; simp [tokenValueEnd_buf]
    | lbrace =>
      simp only [Decoder.tokenLoop] at ht
      split at ht
      · cases ht
      · cases ht; simp
    | rbrace =>
      simp only [Decoder.tokenLoop] at ht
      split at ht
      · cases ht
      · split at ht
        · cases ht
        · cases ht; simp [tokenValueEnd_buf]
    | colon =>
      simp only [Decoder.tokenLoop] at ht
      split at ht
      · cases ht
      · have := ih _ _ _ ht
        simp only [List.length_cons]; omega
    | comma =>
      simp only [Decoder.tokenLoop] at ht
      split at ht
      · have := ih _ _ _ ht
        simp only [List.length_cons]; omega
      · split at ht
        · have := ih _ _ _ ht
          simp only [List.length_cons]; omega
        · cases ht
    | str s =>
      simp only [Decoder.tokenLoop] at ht
      split at ht
      · split at ht
        · cases ht
        · rename_i x dec1 hd
          have := Decode_length _ _ _ _ hd
          cases ht
          simpa using this
      · have := tokenDefault_length _ _ _ ht
        simpa using this
    | num f =>
      simp only [Decoder.tokenLoop] at ht
      have := tokenDefault_length _ _ _ ht
      simpa using this
    | bool b =>
      simp only [Decoder.tokenLoop] at ht
      have := tokenDefault_length _ _ _ ht
      simpa using this
    | null =>
      simp only [Decoder.tokenLoop] at ht
      have := tokenDefault_length _ _ _ ht
      simpa using this
    | invalid =>
      simp only [Decoder.tokenLoop] at ht
      have := tokenDefault_length _ _ _ ht
      simpa using this

theorem readKey_length (dec dec1 : Decoder) (k : String)
    (hk : readKey dec = (.ok k, dec1)) : dec1.buf.length < dec.buf.length := by
  unfold readKey at hk
  split at hk
  · cases hk
  · rename_i key d ht
    cases hk
    exact tokenLoop_length _ _ _ _ _ ht
  · cases hk

theorem processSingleHarbor_length {σ : Type} (h : handlers σ) (world world1 : World σ)
    (dec dec1 : Decoder) (hp : h.processSingleHarbor world dec = (none, world1, dec1)) :
    dec1.buf.length < dec.buf.length := by
  unfold handlers.processSingleHarbor at hp
  split at hp
  · cases hp
  · rename_i key d1 hk
    have h1 := readKey_length _ _ _ hk
    split at hp
    · cases hp
    · rename_i req d2 hd
      have h2 := Decode_length _ _ _ _ hd
      split at hp
      · cases hp
      · simp only at hp
        split at hp
        · cases hp
        · cases hp; omega

/-- The loop of `processHarbors` ends before its fuel is used up when the fuel exceeds
the length of the unread input. -/
theorem loop_total {σ : Type} (h : handlers σ) :
    ∀ (fuel : Nat) (world : World σ) (dec : Decoder), dec.buf.length < fuel →
      ∃ r, h.processHarborsLoop fuel world dec = some r := by
  intro fuel
  induction fuel with
  | zero => intro world dec hlt; omega
  | succ fuel ih =>
    intro world dec hlt
    simp only [handlers.processHarborsLoop]
    by_cases hm : dec.More = true
    · simp only [hm, if_true]
      rcases hp : h.processSingleHarbor world dec with ⟨_ | herr, world1, dec1⟩
      · have := processSingleHarbor_length h _ _ _ _ hp
        exact ih world1 dec1 (by omega)
      · exact ⟨_, rfl⟩
    · simp only [hm]
      exact ⟨_, rfl⟩

/-- `processHarbors` returns what its loop returns with any amount of fuel that is
enough. -/
theorem processHarbors_eq {σ : Type} (h : handlers σ) (fuel : Nat) (world : World σ)
    (dec : Decoder) (r : Option handlerError × World σ × Decoder)
    (hr : h.processHarborsLoop fuel world dec = some r) :
    h.processHarbors world dec = some r := by
  obtain ⟨r1, h1⟩ := loop_total h (dec.buf.length + 1) world dec (by omega)
  unfold handlers.processHarbors
  rw [h1, loop_unique h _ _ _ _ _ _ h1 hr]

theorem entryHarbor_some (e : String × JValue) (hb : harbor.Harbor)
    (he : entryHarbor e = some hb) :
    ∃ req, unmarshal e.2 = .ok req ∧ validate.Check req.required = none ∧
      hb = harborOf e.1 req := by
  unfold entryHarbor entryRequest at he
  cases hu : unmarshal e.2 with
  | error err => rw [hu] at he; simp at he
  | ok req =>
    rw [hu] at he
    simp only at he
    cases hc : validate.Check req.required with
    | some errs => rw [hc] at he; simp at he
    | none =>
      rw [hc] at he
      simp only [Option.map_some', Option.some.injEq] at he
      exact ⟨req, rfl, hc, he.symm⟩

theorem harborsOf_cons (e : String × JValue) (es : List (String × JValue))
    (hbs : List harbor.Harbor) (hh : harborsOf (e :: es) = some hbs) :
    ∃ hb hbs1, entryHarbor e = some hb ∧ harborsOf es = some hbs1 ∧ hbs = hb :: hbs1 := by
  simp only [harborsOf] at hh
  split at hh
  · rename_i hb hbs1 h1 h2
    cases hh
    exact ⟨hb, hbs1, h1, h2, rfl⟩
  · cases hh

theorem upsertAll_cons {σ : Type} (svc : harborService σ) (s s1 : σ) (hb : harbor.Harbor)
    (hbs : List harbor.Harbor) (hu : upsertAll svc s (hb :: hbs) = some s1) :
    ∃ s2, svc.UpsertHarbor hb s = (none, s2) ∧ upsertAll svc s2 hbs = some s1 := by
  simp only [upsertAll] at hu
  split at hu
  · rename_i s2 h1
    exact ⟨s2, h1, hu⟩
  · cases hu

/-- The loop of `processHarbors` over entries that all decode, pass validation and are
upserted without error: every one of them is passed to `UpsertHarbor`, in order, and
the decoder is left right after the last of them. -/
theorem loop_entries {σ : Type} (h : handlers σ) (tail : List Lexeme) (stack : List TokenState)
    (fuel : Nat) :
    ∀ (es : List (String × JValue)) (first : Bool) (world : World σ) (hbs : List harbor.Harbor)
      (s1 : σ), harborsOf es = some hbs → upsertAll h.service world.store hbs = some s1 →
      h.processHarborsLoop (es.length + fuel) world
          ⟨renderEntries first es ++ tail, none, entryState first, stack⟩ =
        h.processHarborsLoop fuel ⟨s1, world.calls ++ hbs⟩
          ⟨tail, none, entryState (first && es.isEmpty), stack⟩ := by
  intro es
  induction es with
  | nil =>
    intro first world hbs s1 hh hu
    simp only [harborsOf, Option.some.injEq] at hh
    subst hh
    simp only [upsertAll, Option.some.injEq] at hu
    subst hu
    simp [renderEntries]
  | cons e es ih =>
    intro first world hbs s1 hh hu
    obtain ⟨k, v⟩ := e
    obtain ⟨hb, hbs1, he, hh1, rfl⟩ := harborsOf_cons _ _ _ hh
    obtain ⟨req, hreq, hchk, rfl⟩ := entryHarbor_some _ _ he
    obtain ⟨s2, hs2, hu1⟩ := upsertAll_cons _ _ _ _ _ hu
    have hlen : (((k, v) :: es).length + fuel) = (es.length + fuel) + 1 := by
      simp only [List.length_cons]; omega
    rw [hlen]
    simp only [handlers.processHarborsLoop, renderEntries, List.append_assoc, List.cons_append,
      More_entry, if_true]
    rw [processSingleHarbor_entry]
    simp only at hreq hchk
    simp only [hreq, hchk, handlers.UpsertHarbor, hs2]
    have := ih false ⟨s2, world.calls ++ [harborOf k req]⟩ hbs1 s1 hh1 hu1
    simp only [entryState] at this ⊢
    simp only [Bool.false_eq_true, if_false, Bool.false_and] at this
    rw [this]
    simp

theorem readExpectedToken_open (rest : List Lexeme) :
    readExpectedToken (NewDecoder (.lbrace :: rest)) '\x7b' =
      (none, ⟨rest, none, .tokenObjectStart, [.tokenTopValue]⟩) := by
  simp [readExpectedToken, NewDecoder, Decoder.Token, Decoder.tokenLoop, Decoder.tokenValueAllowed]

theorem readExpectedToken_close (first : Bool) (rest : List Lexeme) (top : TokenState)
    (stack : List TokenState) (htop : top = .tokenTopValue) :
    readExpectedToken ⟨.rbrace :: rest, none, entryState first, top :: stack⟩ '\x7d' =
      (none, ⟨rest, none, top, stack⟩) := by
  subst htop
  cases first <;>
    simp [readExpectedToken, Decoder.Token, Decoder.tokenLoop, entryState, Decoder.tokenValueEnd]

/-- The run of `HandleUpsert` once the opening brace and a run of entries that are
processed successfully have been read, when the decoder reports no further entry:
what is left is the reading of the closing brace, the flush and the response. -/
theorem HandleUpsert_entries_end {σ : Type} (h : handlers σ) (vars : web.Vars)
    (ctr : responseController) (w : http.ResponseRecorder) (world : World σ)
    (es : List (String × JValue)) (tail : List Lexeme) (hbs : List harbor.Harbor) (s1 : σ)
    (hh : harborsOf es = some hbs) (hu : upsertAll h.service world.store hbs = some s1)
    (hmore : Decoder.More ⟨tail, none, entryState es.isEmpty, [.tokenTopValue]⟩ = false) :
    h.HandleUpsert vars ctr w (.lbrace :: (renderEntries true es ++ tail)) world =
      match readExpectedToken ⟨tail, none, entryState es.isEmpty, [.tokenTopValue]⟩ '\x7d' with
      | (some _, dec3) =>
        some ⟨web.RespondWithError vars w http.StatusBadRequest
          "invalid JSON: expected '\x7d' at end", ⟨s1, world.calls ++ hbs⟩, dec3⟩
      | (none, dec3) =>
        match ctr.Flush w with
        | (some err, w1) =>
          some ⟨web.RespondWithError vars w1 http.StatusInternalServerError err,
            ⟨s1, world.calls ++ hbs⟩, dec3⟩
        | (none, w1) =>
          some ⟨web.RespondAfterFlush vars w1
            (UpsertHarborResponse.payload { Message := "harbors upserted" }),
            ⟨s1, world.calls ++ hbs⟩, dec3⟩ := by
  have hloop : h.processHarborsLoop (es.length + 1) world
      ⟨renderEntries true es ++ tail, none, .tokenObjectStart, [.tokenTopValue]⟩ =
      some (none, ⟨s1, world.calls ++ hbs⟩,
        ⟨tail, none, entryState es.isEmpty, [.tokenTopValue]⟩) := by
    have := loop_entries h tail [.tokenTopValue] 1 es true world hbs s1 hh hu
    simp only [entryState, if_true, Bool.true_and] at this hmore ⊢
    rw [this]
    simp [handlers.processHarborsLoop, hmore]
  unfold handlers.HandleUpsert
  simp only [readExpectedToken_open, processHarbors_eq h _ _ _ _ hloop]

/-- The run of `HandleUpsert` once the opening brace and a run of entries that are
processed successfully have been read, when the next entry fails: the response is that
of the failure. -/
theorem HandleUpsert_entries_fail {σ : Type} (h : handlers σ) (vars : web.Vars)
    (ctr : responseController) (w : http.ResponseRecorder) (world : World σ)
    (es : List (String × JValue)) (tail : List Lexeme) (hbs : List harbor.Harbor) (s1 : σ)
    (herr : handlerError) (world2 : World σ) (dec2 : Decoder)
    (hh : harborsOf es = some hbs) (hu : upsertAll h.service world.store hbs = some s1)
    (hmore : Decoder.More ⟨tail, none, entryState es.isEmpty, [.tokenTopValue]⟩ = true)
    (hp : h.processSingleHarbor ⟨s1, world.calls ++ hbs⟩
      ⟨tail, none, entryState es.isEmpty, [.tokenTopValue]⟩ = (some herr, world2, dec2)) :
    h.HandleUpsert vars ctr w (.lbrace :: (renderEntries true es ++ tail)) world =
      some ⟨web.RespondWithError vars w herr.code herr.Error, world2, dec2⟩ := by
  have hloop : h.processHarborsLoop (es.length + 1) world
      ⟨renderEntries true es ++ tail, none, .tokenObjectStart, [.tokenTopValue]⟩ =
      some (some herr, world2, dec2) := by
    have := loop_entries h tail [.tokenTopValue] 1 es true world hbs s1 hh hu
    simp only [entryState, if_true, Bool.true_and] at this hmore hp ⊢
    rw [this]
    simp [handlers.processHarborsLoop, hmore, hp]
  unfold handlers.HandleUpsert
  simp only [readExpectedToken_open, processHarbors_eq h _ _ _ _ hloop]

theorem renderMembers_eq (ms : List (String × JValue)) :
    renderMembers ms = renderEntries true ms := by
  have key : ∀ (ms : List (String × JValue)) (m : String × JValue),
      Lexeme.comma :: renderMembers (m :: ms) = renderEntries false (m :: ms) := by
    intro ms
    induction ms with
    | nil => intro m; obtain ⟨k, v⟩ := m; simp [renderMembers, renderEntries]
    | cons m1 ms ih =>
      intro m; obtain ⟨k, v⟩ := m
      simp only [renderMembers, renderEntries]
      rw [ih m1]
      simp [renderEntries]
  cases ms with
  | nil => simp [renderMembers, renderEntries]
  | cons m ms =>
    obtain ⟨k, v⟩ := m
    cases ms with
    | nil => simp [renderMembers, renderEntries]
    | cons m1 ms =>
      simp only [renderMembers, renderEntries]
      rw [key ms m1]
      simp [renderEntries]

theorem Check_none (req : UpsertHarborRequest)
    (h1 : req.Name ≠ "") (h2 : req.City ≠ "") (h3 : req.Country ≠ "") :
    validate.Check req.required = none := by
  have e1 : (req.Name == "") = false := by simpa using h1
  have e2 : (req.City == "") = false := by simpa using h2
  have e3 : (req.Country == "") = false := by simpa using h3
  simp [validate.Check, UpsertHarborRequest.required, List.filter, e1, e2, e3]

theorem populated_entryHarbor (e : String × JValue) (hp : populated e.2 = true) :
    ∃ hb, entryHarbor e = some hb := by
  obtain ⟨k, v⟩ := e
  cases v with
  | object ms =>
    simp only [populated] at hp
    cases hs : UpsertHarborRequest.zero.storeMembers ms with
    | error err => rw [hs] at hp; simp at hp
    | ok req =>
      rw [hs] at hp
      simp only [Bool.and_eq_true, bne_iff_ne, ne_eq] at hp
      have hc := Check_none req hp.1.1 hp.1.2 hp.2
      exact ⟨harborOf k req, by simp [entryHarbor, entryRequest, unmarshal, hs, hc]⟩
  | _ => simp [populated] at hp

theorem harborsOf_populated (payload : List (String × JValue))
    (hpop : payload.all (fun e => populated e.2) = true) :
    harborsOf payload = some (payload.filterMap entryHarbor) := by
  induction payload with
  | nil => rfl
  | cons e es ih =>
    simp only [List.all_cons, Bool.and_eq_true] at hpop
    obtain ⟨hb, he⟩ := populated_entryHarbor e hpop.1
    simp [harborsOf, he, ih hpop.2, List.filterMap_cons]

/-- C1. For every request body that is a well-formed JSON object in which every
entry's value is an object with name, city and country populated, and for which every
`UpsertHarbor` call and the response flush succeed, `HandleUpsert` responds with status
200 and the body `{"message":"harbors upserted"}`. -/
theorem HandleUpsert_valid_payload {σ : Type} (h : handlers σ) (ctr : responseController)
    (world : World σ) (payload : List (String × JValue)) (s1 : σ)
    (hpop : payload.all (fun e => populated e.2) = true)
    (hups : upsertAll h.service world.store (payload.filterMap entryHarbor) = some s1)
    (hflush : ctr.FlushErr = none) :
    ∃ out, h.HandleUpsert web.Vars.default ctr http.NewRecorder (render (.object payload)) world =
        some out ∧
      out.w.Code = http.StatusOK ∧ out.w.Body = "\x7b\"message\":\"harbors upserted\"\x7d" := by
  have hh := harborsOf_populated payload hpop
  have hmore : Decoder.More ⟨[Lexeme.rbrace], none, entryState payload.isEmpty, [.tokenTopValue]⟩ =
      false := by
    simp [Decoder.More, Decoder.peek]
  have := HandleUpsert_entries_end h web.Vars.default ctr http.NewRecorder world payload [.rbrace]
    _ s1 hh hups hmore
  rw [readExpectedToken_close _ _ _ _ rfl] at this
  simp only [render, renderMembers_eq]
  rw [this]
  obtain ⟨ferr, flushes⟩ := ctr
  simp only at hflush
  subst hflush
  cases flushes
  · exact ⟨_, rfl, rfl, rfl⟩
  · exact ⟨_, rfl, rfl, rfl⟩

theorem HandleUpsert_valid_payload_witness :
    ∃ out, (⟨mockHarborService none⟩ : handlers Unit).HandleUpsert web.Vars.default ⟨none, false⟩
        http.NewRecorder
        (render (.object [("USLAX", losAngeles)]))
        ⟨(), []⟩ = some out ∧
      out.w.Code = http.StatusOK ∧ out.w.Body = "\x7b\"message\":\"harbors upserted\"\x7d" :=
  HandleUpsert_valid_payload ⟨mockHarborService none⟩ ⟨none, false⟩ ⟨(), []⟩ _ () (by rfl) (by rfl)
    (by rfl)

theorem renderEntries_append (a b : List (String × JValue)) :
    ∀ first : Bool, renderEntries first (a ++ b) =
      renderEntries first a ++ renderEntries (first && a.isEmpty) b := by
  induction a with
  | nil => intro first; simp [renderEntries]
  | cons e a ih =>
    intro first
    obtain ⟨k, v⟩ := e
    simp [renderEntries, ih false]

theorem renderEntries_single (first : Bool) (k : String) (v : JValue) (rest : List Lexeme) :
    renderEntries first [(k, v)] ++ rest =
      (if first then [] else [Lexeme.comma]) ++ .str k :: .colon :: (render v ++ rest) := by
  simp [renderEntries]

/-- The response to a failure, written to a fresh writer. -/
theorem RespondWithError_fresh (code : Nat) (message : String)
    (hcode : http.checkWriteHeaderCode code = false) :
    web.RespondWithError web.Vars.default http.NewRecorder code message =
      { Code := code, HeaderMap := [("Content-Type", "application/json")],
        Body := errorBody message, Flushed := false, wroteHeader := true,
        snapHeader := [("Content-Type", "application/json")], panicked := false } := by
  simp only [web.RespondWithError, web.Respond, web.Vars.default, web.Marshal, json.appendMembers,
    http.ResponseRecorder.HeaderSet, http.ResponseRecorder.WriteHeader, http.ResponseRecorder.Write,
    http.ResponseRecorder.panics, http.NewRecorder, errorBody, hcode]
  simp only [Bool.false_eq_true, if_false, if_true, List.filter_nil, Bool.and_false]
  congr 1

/-- The run of `HandleUpsert` on a body whose entries are processed successfully up to
an entry, with key `k` and value `v`, that is not: it ends with that entry. -/
theorem HandleUpsert_entry_fail {σ : Type} (h : handlers σ) (vars : web.Vars)
    (ctr : responseController) (w : http.ResponseRecorder) (world : World σ)
    (es : List (String × JValue)) (k : String) (v : JValue) (rest : List Lexeme)
    (hbs : List harbor.Harbor) (s1 : σ) (herr : handlerError) (world2 : World σ)
    (hh : harborsOf es = some hbs) (hu : upsertAll h.service world.store hbs = some s1)
    (hp : (match unmarshal v with
      | .error _ =>
        (some (⟨http.StatusBadRequest, "invalid JSON harbor structure"⟩ : handlerError),
          (⟨s1, world.calls ++ hbs⟩ : World σ))
      | .ok req =>
        match validate.Check req.required with
        | some errs => (some ⟨http.StatusBadRequest, validate.Error errs⟩, ⟨s1, world.calls ++ hbs⟩)
        | none =>
          match h.UpsertHarbor (harborOf k req) ⟨s1, world.calls ++ hbs⟩ with
          | (some _, world1) =>
            (some ⟨http.StatusInternalServerError, "error upserting harbor"⟩, world1)
          | (none, world1) => (none, world1)) = (some herr, world2)) :
    h.HandleUpsert vars ctr w (.lbrace :: (renderEntries true (es ++ [(k, v)]) ++ rest)) world =
      some ⟨web.RespondWithError vars w herr.code herr.Error, world2,
        ⟨rest, none, .tokenObjectComma, [.tokenTopValue]⟩⟩ := by
  rw [renderEntries_append, List.append_assoc, Bool.true_and, renderEntries_single]
  apply HandleUpsert_entries_fail h vars ctr w world es _ hbs s1 herr world2 _ hh hu
  · exact More_entry _ _ _ _ _ _
  · rw [processSingleHarbor_entry]
    cases hu1 : unmarshal v with
    | error e =>
      rw [hu1] at hp
      simp only [Prod.mk.injEq] at hp ⊢
      exact ⟨hp.1, hp.2, trivial⟩
    | ok req =>
      rw [hu1] at hp
      simp only at hp ⊢
      cases hc : validate.Check req.required with
      | some errs =>
        rw [hc] at hp
        simp only [Prod.mk.injEq] at hp ⊢
        exact ⟨hp.1, hp.2, trivial⟩
      | none =>
        rw [hc] at hp
        simp only at hp ⊢
        rcases hup : h.UpsertHarbor (harborOf k req) ⟨s1, world.calls ++ hbs⟩ with ⟨_ | e, world1⟩
        · rw [hup] at hp
          simp at hp
        · rw [hup] at hp
          simp only [Prod.mk.injEq] at hp ⊢
          exact ⟨hp.1, hp.2, trivial⟩

theorem Check_missing (req : UpsertHarborRequest) (hm : missingFields req ≠ []) :
    validate.Check req.required = some ((missingFields req).map requiredError) := by
  have e1 : (req.Name == "") = decide (req.Name = "") := by
    by_cases h1 : req.Name = "" <;> simp [h1]
  have e2 : (req.City == "") = decide (req.City = "") := by
    by_cases h2 : req.City = "" <;> simp [h2]
  have e3 : (req.Country == "") = decide (req.Country = "") := by
    by_cases h3 : req.Country = "" <;> simp [h3]
  unfold missingFields at hm ⊢
  simp only [validate.Check, UpsertHarborRequest.required, List.filter, e1, e2, e3]
  by_cases h1 : req.Name = "" <;> by_cases h2 : req.City = "" <;> by_cases h3 : req.Country = "" <;>
    simp only [h1, h2, h3, decide_True, decide_False, if_true, if_false, List.map, requiredError,
      List.nil_append, List.cons_append, List.append_nil, not_true_eq_false, ne_eq] at hm ⊢

/-- C2. For every request body in which the first entry that fails to process fails
validation (its value is a well-formed object, but one or more of name, city and
country is missing), `HandleUpsert` responds with status 400 and an error message
that enumerates every missing required field of that entry, not just the first, as a
(field, message) pair with the message `<field> is a required field`, in the order
name, city, country. -/
theorem HandleUpsert_validation_failure {σ : Type} (h : handlers σ) (ctr : responseController)
    (world : World σ) (es : List (String × JValue)) (k : String) (ms : List (String × JValue))
    (req : UpsertHarborRequest) (rest : List Lexeme) (hbs : List harbor.Harbor) (s1 : σ)
    (hh : harborsOf es = some hbs) (hu : upsertAll h.service world.store hbs = some s1)
    (hreq : unmarshal (.object ms) = .ok req) (hmiss : missingFields req ≠ []) :
    ∃ out, h.HandleUpsert web.Vars.default ctr http.NewRecorder
        (.lbrace :: (renderEntries true (es ++ [(k, .object ms)]) ++ rest)) world = some out ∧
      out.w.Code = http.StatusBadRequest ∧
      out.w.Body = errorBody (validate.Error ((missingFields req).map requiredError)) := by
  have hc := Check_missing req hmiss
  have := HandleUpsert_entry_fail h web.Vars.default ctr http.NewRecorder world es k (.object ms)
    rest hbs s1 ⟨http.StatusBadRequest, validate.Error ((missingFields req).map requiredError)⟩
    ⟨s1, world.calls ++ hbs⟩ hh hu (by rw [hreq]; simp only [hc])
  rw [this, RespondWithError_fresh http.StatusBadRequest _ rfl]
  exact ⟨_, rfl, rfl, rfl⟩

theorem HandleUpsert_validation_failure_witness :
    ∃ out, (⟨mockHarborService none⟩ : handlers Unit).HandleUpsert web.Vars.default ⟨none, false⟩
        http.NewRecorder
        (.lbrace :: (renderEntries true ([] ++ [("USLAX", .object [("city", .string "Los Angeles")])])
          ++ [.rbrace])) ⟨(), []⟩ = some out ∧
      out.w.Code = http.StatusBadRequest ∧
      out.w.Body = errorBody (validate.Error [requiredError "name", requiredError "country"]) :=
  HandleUpsert_validation_failure ⟨mockHarborService none⟩ ⟨none, false⟩ ⟨(), []⟩ [] "USLAX"
    [("city", .string "Los Angeles")]
    { UpsertHarborRequest.zero with City := "Los Angeles" } [.rbrace] [] () (by rfl) (by rfl)
    (by rfl) (by decide)

/-- The text of the body in the handler's test of a validation failure. -/
theorem validation_failure_body :
    errorBody (validate.Error [requiredError "name", requiredError "country"]) =
      "\x7b\"error\":\"[\x7b\\\"field\\\":\\\"name\\\",\\\"error\\\":\\\"name is a required field\\\"\x7d,\x7b\\\"field\\\":\\\"country\\\",\\\"error\\\":\\\"country is a required field\\\"\x7d]\"\x7d" := by
  decide

theorem readExpectedToken_not_open (body : List Lexeme) (hb : body.head? ≠ some .lbrace) :
    ∃ e dec1, readExpectedToken (NewDecoder body) '\x7b' = (some e, dec1) := by
  cases body with
  | nil => exact ⟨_, _, rfl⟩
  | cons c rest =>
    cases c with
    | lbrace => simp at hb
    | num f =>
      cases f <;>
        simp [readExpectedToken, NewDecoder, Decoder.Token, Decoder.tokenLoop, Decoder.tokenDefault,
          Decoder.tokenValueAllowed, Decoder.Decode, Decoder.tokenPrepareForDecode, readValue,
          scan_cons, step, beginValue, Lexeme.scalar?, scan_done, unmarshalInterface,
          Decoder.tokenValueEnd, Decoder.tokenError]
    | _ =>
      simp [readExpectedToken, NewDecoder, Decoder.Token, Decoder.tokenLoop, Decoder.tokenDefault,
        Decoder.tokenValueAllowed, Decoder.Decode, Decoder.tokenPrepareForDecode, readValue,
        scan_cons, step, beginValue, Lexeme.scalar?, scan_done, unmarshalInterface,
        Decoder.tokenValueEnd, Decoder.tokenError]

/-- C3. For every request body missing the opening object delimiter (its first token
is anything other than the opening brace, or no token can be read at all, as in an
empty body), `HandleUpsert` responds with status 400 and the body
`{"error":"invalid JSON: expected '{' at start"}`, and `UpsertHarbor` is never called. -/
theorem HandleUpsert_missing_open {σ : Type} (h : handlers σ) (ctr : responseController)
    (world : World σ) (body : List Lexeme) (hb : body.head? ≠ some .lbrace) :
    ∃ out, h.HandleUpsert web.Vars.default ctr http.NewRecorder body world = some out ∧
      out.w.Code = http.StatusBadRequest ∧
      out.w.Body = errorBody "invalid JSON: expected '\x7b' at start" ∧
      out.world.calls = world.calls := by
  obtain ⟨e, dec1, he⟩ := readExpectedToken_not_open body hb
  unfold handlers.HandleUpsert
  simp only [he, RespondWithError_fresh http.StatusBadRequest _ rfl]
  exact ⟨_, rfl, rfl, rfl, rfl⟩

theorem HandleUpsert_missing_open_witness :
    ∃ out, (⟨mockHarborService none⟩ : handlers Unit).HandleUpsert web.Vars.default ⟨none, false⟩
        http.NewRecorder (render (.object [("USLAX", losAngeles)])).tail ⟨(), []⟩ = some out ∧
      out.w.Code = http.StatusBadRequest ∧
      out.w.Body = errorBody "invalid JSON: expected '\x7b' at start" ∧
      out.world.calls = [] :=
  HandleUpsert_missing_open ⟨mockHarborService none⟩ ⟨none, false⟩ ⟨(), []⟩ _ (by decide)

/-- C4, as stated, fails: a body cut off inside a record has its closing delimiter
missing, yet the response is not the one for a missing closing brace but the one for
a malformed record. The body is the valid body of the tests, cut after seven lexical
elements (`{ "USLAX": { "name": "Los Angeles"`). -/
theorem HandleUpsert_truncated_inside_entry :
    ∃ out, (⟨mockHarborService none⟩ : handlers Unit).HandleUpsert web.Vars.default ⟨none, false⟩
        http.NewRecorder ((render (.object [("USLAX", losAngeles)])).take 7) ⟨(), []⟩ = some out ∧
      out.w.Code = http.StatusBadRequest ∧
      out.w.Body = errorBody "invalid JSON harbor structure" ∧
      out.w.Body ≠ errorBody "invalid JSON: expected '\x7d' at end" :=
  ⟨_, rfl, rfl, rfl, by decide⟩

theorem dropLast_render_object (payload : List (String × JValue)) :
    (render (.object payload)).dropLast = .lbrace :: (renderEntries true payload ++ []) := by
  simp only [render, renderMembers_eq, List.append_nil]
  rw [← List.cons_append, List.dropLast_concat]

/-- C4, amended. For every request body that is a well-formed JSON object cut off
right before its closing brace, all of whose entries are processed successfully (each
decodes, passes validation and is upserted without error), `HandleUpsert` responds with
status 400 and the body `{"error":"invalid JSON: expected '}' at end"}`. -/
theorem HandleUpsert_missing_close {σ : Type} (h : handlers σ) (ctr : responseController)
    (world : World σ) (payload : List (String × JValue)) (hbs : List harbor.Harbor) (s1 : σ)
    (hh : harborsOf payload = some hbs) (hu : upsertAll h.service world.store hbs = some s1) :
    ∃ out, h.HandleUpsert web.Vars.default ctr http.NewRecorder
        (render (.object payload)).dropLast world = some out ∧
      out.w.Code = http.StatusBadRequest ∧
      out.w.Body = errorBody "invalid JSON: expected '\x7d' at end" := by
  have hmore : Decoder.More ⟨[], none, entryState payload.isEmpty, [.tokenTopValue]⟩ = false := by
    simp [Decoder.More, Decoder.peek]
  have := HandleUpsert_entries_end h web.Vars.default ctr http.NewRecorder world payload []
    hbs s1 hh hu hmore
  have hr : readExpectedToken ⟨[], none, entryState payload.isEmpty, [.tokenTopValue]⟩ '\x7d' =
      (some .EOF, ⟨[], none, entryState payload.isEmpty, [.tokenTopValue]⟩) := by
    simp [readExpectedToken, Decoder.Token, Decoder.tokenLoop]
  rw [hr] at this
  rw [dropLast_render_object, this, RespondWithError_fresh http.StatusBadRequest _ rfl]
  exact ⟨_, rfl, rfl, rfl⟩

theorem HandleUpsert_missing_close_witness :
    ∃ out, (⟨mockHarborService none⟩ : handlers Unit).HandleUpsert web.Vars.default ⟨none, false⟩
        http.NewRecorder (render (.object [("USLAX", losAngeles)])).dropLast ⟨(), []⟩ = some out ∧
      out.w.Code = http.StatusBadRequest ∧
      out.w.Body = errorBody "invalid JSON: expected '\x7d' at end" :=
  HandleUpsert_missing_close ⟨mockHarborService none⟩ ⟨none, false⟩ ⟨(), []⟩
    [("USLAX", losAngeles)] _ () (by rfl) (by rfl)

theorem readKey_notKey (first : Bool) (c : Lexeme) (rest : List Lexeme) (stack : List TokenState)
    (hc : notKey c = true) :
    ∃ e dec1, readKey ⟨(if first then [] else [Lexeme.comma]) ++ c :: rest, none, entryState first,
      stack⟩ = (.error e, dec1) := by
  cases first <;> cases c <;>
    first
    | (simp [notKey] at hc; done)
    | simp [readKey, Decoder.Token, Decoder.tokenLoop, Decoder.tokenDefault, entryState,
        Decoder.tokenValueAllowed, Decoder.tokenError]

theorem processSingleHarbor_readKey_error {σ : Type} (h : handlers σ) (world : World σ)
    (dec dec1 : Decoder) (e : error) (hk : readKey dec = (.error e, dec1)) :
    h.processSingleHarbor world dec =
      (some ⟨http.StatusBadRequest, "invalid JSON key"⟩, world, dec1) := by
  unfold handlers.processSingleHarbor
  rw [hk]

/-- C5. For every request body that opens with the opening brace and in which the
first entry that fails to process has a key token that is not a JSON string (a number,
a boolean, null or a nested structure), `HandleUpsert` responds with status 400 and the
body `{"error":"invalid JSON key"}`; more generally every error returned by `readKey`,
whatever its own message, is reported with exactly this message and status. -/
theorem HandleUpsert_invalid_key {σ : Type} (h : handlers σ) (ctr : responseController)
    (world : World σ) (es : List (String × JValue)) (c : Lexeme) (rest : List Lexeme)
    (hbs : List harbor.Harbor) (s1 : σ)
    (hh : harborsOf es = some hbs) (hu : upsertAll h.service world.store hbs = some s1)
    (hc : notKey c = true) :
    (∃ out, h.HandleUpsert web.Vars.default ctr http.NewRecorder
        (.lbrace :: (renderEntries true es ++
          ((if es.isEmpty then [] else [Lexeme.comma]) ++ c :: rest))) world = some out ∧
      out.w.Code = http.StatusBadRequest ∧ out.w.Body = errorBody "invalid JSON key") ∧
    ∀ (world0 : World σ) (dec : Decoder),
      match readKey dec with
      | (.error _, dec1) =>
        h.processSingleHarbor world0 dec =
          (some ⟨http.StatusBadRequest, "invalid JSON key"⟩, world0, dec1)
      | (.ok _, _) => True := by
  constructor
  · obtain ⟨e, dec1, hk⟩ := readKey_notKey es.isEmpty c rest [.tokenTopValue] hc
    have hmore : Decoder.More ⟨(if es.isEmpty then [] else [Lexeme.comma]) ++ c :: rest, none,
        entryState es.isEmpty, [.tokenTopValue]⟩ = true := by
      cases es.isEmpty <;> cases c <;>
        first
        | (simp [notKey] at hc; done)
        | simp [Decoder.More, Decoder.peek]
    have := HandleUpsert_entries_fail h web.Vars.default ctr http.NewRecorder world es _ hbs s1
      _ _ _ hh hu hmore (processSingleHarbor_readKey_error h _ _ _ _ hk)
    rw [this, RespondWithError_fresh http.StatusBadRequest _ rfl]
    exact ⟨_, rfl, rfl, rfl⟩
  · intro world0 dec
    rcases hk : readKey dec with ⟨_ | _, dec1⟩
    · exact processSingleHarbor_readKey_error h _ _ _ _ hk
    · trivial

theorem HandleUpsert_invalid_key_witness :
    (∃ out, (⟨mockHarborService none⟩ : handlers Unit).HandleUpsert web.Vars.default ⟨none, false⟩
        http.NewRecorder
        (.lbrace :: (renderEntries true [] ++
          ((if ([] : List (String × JValue)).isEmpty then [] else [Lexeme.comma]) ++
            .bool true :: (.colon :: (render losAngeles ++ [.rbrace])))))
        ⟨(), []⟩ = some out ∧
      out.w.Code = http.StatusBadRequest ∧ out.w.Body = errorBody "invalid JSON key") ∧
    ∀ (world0 : World Unit) (dec : Decoder),
      match readKey dec with
      | (.error _, dec1) =>
        (⟨mockHarborService none⟩ : handlers Unit).processSingleHarbor world0 dec =
          (some ⟨http.StatusBadRequest, "invalid JSON key"⟩, world0, dec1)
      | (.ok _, _) => True :=
  HandleUpsert_invalid_key ⟨mockHarborService none⟩ ⟨none, false⟩ ⟨(), []⟩ [] (.bool true) _ [] ()
    (by rfl) (by rfl) (by rfl)

/-- C6, as stated, fails: null is a value that is not a JSON object, yet for the body
`{"USLAX": null}` the entry is decoded (to the empty record) and validated, and the
response is that of a validation failure, not `invalid JSON harbor structure`. -/
theorem HandleUpsert_null_record :
    ∃ out, (⟨mockHarborService none⟩ : handlers Unit).HandleUpsert web.Vars.default ⟨none, false⟩
        http.NewRecorder (render (.object [("USLAX", .null)])) ⟨(), []⟩ = some out ∧
      out.w.Code = http.StatusBadRequest ∧
      out.w.Body = errorBody (validate.Error
        [requiredError "name", requiredError "city", requiredError "country"]) ∧
      out.w.Body ≠ errorBody "invalid JSON harbor structure" :=
  ⟨_, rfl, rfl, rfl, by decide⟩

theorem unmarshal_malformedRecord (v : JValue) (hv : malformedRecord v = true) :
    ∃ e, unmarshal v = .error e := by
  cases v with
  | null => simp [malformedRecord] at hv
  | object ms =>
    simp only [malformedRecord] at hv
    cases hs : UpsertHarborRequest.zero.storeMembers ms with
    | ok req => rw [hs] at hv; simp at hv
    | error e => exact ⟨e, by simp [unmarshal, hs]⟩
  | _ => exact ⟨_, rfl⟩

/-- C6, amended. For every request body that opens with the opening brace and in which
the first entry that fails to process has a string key followed by a value on which
the decoding of the record fails (an array, a string, a number, a boolean, or an
object with a member of the wrong type; not null), `HandleUpsert` responds with status
400 and the body `{"error":"invalid JSON harbor structure"}`, and that entry is not
upserted: the calls made are those for the entries before it. -/
theorem HandleUpsert_malformed_record {σ : Type} (h : handlers σ) (ctr : responseController)
    (world : World σ) (es : List (String × JValue)) (k : String) (v : JValue) (rest : List Lexeme)
    (hbs : List harbor.Harbor) (s1 : σ)
    (hh : harborsOf es = some hbs) (hu : upsertAll h.service world.store hbs = some s1)
    (hv : malformedRecord v = true) :
    ∃ out, h.HandleUpsert web.Vars.default ctr http.NewRecorder
        (.lbrace :: (renderEntries true (es ++ [(k, v)]) ++ rest)) world = some out ∧
      out.w.Code = http.StatusBadRequest ∧
      out.w.Body = errorBody "invalid JSON harbor structure" ∧
      out.world.calls = world.calls ++ hbs ∧ out.world.store = s1 := by
  obtain ⟨e, he⟩ := unmarshal_malformedRecord v hv
  have := HandleUpsert_entry_fail h web.Vars.default ctr http.NewRecorder world es k v
    rest hbs s1 ⟨http.StatusBadRequest, "invalid JSON harbor structure"⟩
    ⟨s1, world.calls ++ hbs⟩ hh hu (by rw [he])
  rw [this, RespondWithError_fresh http.StatusBadRequest _ rfl]
  exact ⟨_, rfl, rfl, rfl, rfl, rfl⟩

theorem HandleUpsert_malformed_record_witness :
    ∃ out, (⟨mockHarborService none⟩ : handlers Unit).HandleUpsert web.Vars.default ⟨none, false⟩
        http.NewRecorder
        (.lbrace :: (renderEntries true ([] ++
          [("USLAX", .array [.string "Los Angeles", .string "USA"])]) ++ [.rbrace]))
        ⟨(), []⟩ = some out ∧
      out.w.Code = http.StatusBadRequest ∧
      out.w.Body = errorBody "invalid JSON harbor structure" ∧
      out.world.calls = [] ++ [] ∧ out.world.store = () :=
  HandleUpsert_malformed_record ⟨mockHarborService none⟩ ⟨none, false⟩ ⟨(), []⟩ [] "USLAX"
    (.array [.string "Los Angeles", .string "USA"]) [.rbrace] [] () (by rfl) (by rfl) (by rfl)

/-- C7. For every request in which `UpsertHarbor` returns an error for some entry, all
earlier entries having been processed successfully, `HandleUpsert` responds with status
500 and the body `{"error":"error upserting harbor"}` whatever the text `e` of the
underlying error, and no entry after the failing one is read, validated or upserted:
the input after the failing entry is left unread and the failing call is the last. -/
theorem HandleUpsert_upsert_failure {σ : Type} (h : handlers σ) (ctr : responseController)
    (world : World σ) (es : List (String × JValue)) (k : String) (v : JValue) (rest : List Lexeme)
    (hbs : List harbor.Harbor) (s1 s2 : σ) (hb : harbor.Harbor) (e : String)
    (hh : harborsOf es = some hbs) (hu : upsertAll h.service world.store hbs = some s1)
    (hv : entryHarbor (k, v) = some hb)
    (hfail : h.service.UpsertHarbor hb s1 = (some e, s2)) :
    ∃ out, h.HandleUpsert web.Vars.default ctr http.NewRecorder
        (.lbrace :: (renderEntries true (es ++ [(k, v)]) ++ rest)) world = some out ∧
      out.w.Code = http.StatusInternalServerError ∧
      out.w.Body = errorBody "error upserting harbor" ∧
      out.dec.buf = rest ∧
      out.world.calls = world.calls ++ hbs ++ [hb] ∧ out.world.store = s2 := by
  obtain ⟨req, hreq, hchk, rfl⟩ := entryHarbor_some _ _ hv
  simp only at hreq hchk
  have := HandleUpsert_entry_fail h web.Vars.default ctr http.NewRecorder world es k v
    rest hbs s1 ⟨http.StatusInternalServerError, "error upserting harbor"⟩
    ⟨s2, world.calls ++ hbs ++ [harborOf k req]⟩ hh hu
    (by rw [hreq]; simp only [hchk, handlers.UpsertHarbor, hfail])
  rw [this, RespondWithError_fresh http.StatusInternalServerError _ rfl]
  exact ⟨_, rfl, rfl, rfl, rfl, rfl, rfl⟩

theorem HandleUpsert_upsert_failure_witness :
    ∃ out, (⟨mockHarborService (some "disk full")⟩ : handlers Unit).HandleUpsert web.Vars.default
        ⟨none, false⟩ http.NewRecorder
        (.lbrace :: (renderEntries true ([] ++ [("USLAX", losAngeles)]) ++
          (renderEntries false [("AEAJM", losAngeles)] ++ [.rbrace])))
        ⟨(), []⟩ = some out ∧
      out.w.Code = http.StatusInternalServerError ∧
      out.w.Body = errorBody "error upserting harbor" ∧
      out.dec.buf = renderEntries false [("AEAJM", losAngeles)] ++ [.rbrace] ∧
      out.world.calls = [] ++ [] ++ [harborOf "USLAX"
        { UNLoc := "", Name := "Los Angeles", City := "Los Angeles", Country := "USA",
          Alias := .empty, Regions := .empty,
          Coordinates := ⟨[⟨13861393114467566145⟩, ⟨4629989238410472692⟩], []⟩,
          Province := "California", Timezone := "America/Los_Angeles",
          UNLocs := ⟨["USLAX"], []⟩,
          Code := "53001" }] ∧
      out.world.store = () :=
  HandleUpsert_upsert_failure ⟨mockHarborService (some "disk full")⟩ ⟨none, false⟩ ⟨(), []⟩ []
    "USLAX" losAngeles _ [] () () _ "disk full" (by rfl) (by rfl) (by rfl) (by rfl)

end harbors

namespace json

theorem renderElems_concat (xs : List JValue) (v : JValue) :
    renderElems (xs ++ [v]) = renderElemsComma xs ++ render v := by
  induction xs with
  | nil => simp [renderElems, renderElemsComma]
  | cons x xs ih =>
    cases xs with
    | nil => simp [renderElems, renderElemsComma]
    | cons y ys =>
      show render x ++ Lexeme.comma :: renderElems (y :: ys ++ [v]) = _
      rw [ih]
      simp [renderElemsComma]

theorem renderMembers_concat (ms : List (String × JValue)) (k : String) (v : JValue) :
    renderMembers (ms ++ [(k, v)]) = renderMembersComma ms ++ .str k :: .colon :: render v := by
  induction ms with
  | nil => simp [renderMembers, renderMembersComma]
  | cons m ms ih =>
    obtain ⟨k1, v1⟩ := m
    cases ms with
    | nil => simp [renderMembers, renderMembersComma]
    | cons y ys =>
      show Lexeme.str k1 :: Lexeme.colon ::
        (render v1 ++ Lexeme.comma :: renderMembers (y :: ys ++ [(k, v)])) = _
      rw [ih]
      simp [renderMembersComma]

theorem scalar_render (c : Lexeme) (v : JValue) (h : c.scalar? = some v) : render v = [c] := by
  cases c <;> simp [Lexeme.scalar?] at h <;> subst h <;> rfl

theorem beginValue_read (stack stack1 : List Frame) (c : Lexeme) (st1 : Step)
    (h : beginValue stack c = some (st1, stack1)) :
    stack1 = stack ∧ readOfStep st1 = [c] := by
  cases c <;> simp only [beginValue, Lexeme.scalar?, Option.map_some', Option.map_none',
    Option.some.injEq, Prod.mk.injEq] at h <;>
    first
    | (obtain ⟨rfl, rfl⟩ := h; exact ⟨rfl, rfl⟩)
    | cases h

/-- Every transition of the scanner reads exactly the lexical element it is given. -/
theorem step_read (st st1 : Step) (stack stack1 : List Frame) (c : Lexeme)
    (h : step st stack c = some (st1, stack1)) :
    readOfStack stack1 ++ readOfStep st1 = readOfStack stack ++ readOfStep st ++ [c] := by
  cases st with
  | beginValue =>
    simp only [step] at h
    obtain ⟨rfl, h2⟩ := beginValue_read _ _ _ _ h
    rw [h2]
    simp [readOfStep]
  | beginValueOrEmpty =>
    by_cases hc : c = .rbrack
    · subst hc
      simp only [step, Option.some.injEq, Prod.mk.injEq] at h
      obtain ⟨rfl, rfl⟩ := h
      simp [readOfStep, render, renderElems]
    · have h' : beginValue (.array [] :: stack) c = some (st1, stack1) := by
        cases c <;> first | exact absurd rfl hc | exact h
      obtain ⟨rfl, h2⟩ := beginValue_read _ _ _ _ h'
      rw [h2]
      simp [readOfStep, readOfStack, renderElemsComma]
  | beginStringOrEmpty =>
    cases c <;> simp only [step, Option.some.injEq, Prod.mk.injEq] at h <;>
      first
      | (obtain ⟨rfl, rfl⟩ := h
         simp [readOfStep, render, renderMembers, renderMembersComma])
      | cases h
  | beginString ms =>
    cases c <;> simp only [step, Option.some.injEq, Prod.mk.injEq] at h <;>
      first
      | (obtain ⟨rfl, rfl⟩ := h
         simp [readOfStep])
      | cases h
  | endKey ms k =>
    cases c <;> simp only [step, Option.some.injEq, Prod.mk.injEq] at h <;>
      first
      | (obtain ⟨rfl, rfl⟩ := h
         simp [readOfStep, readOfStack])
      | cases h
  | endValue v =>
    simp only [step] at h
    split at h
    · cases h
      simp [readOfStep, readOfStack, renderElemsComma]
    · cases h
      simp [readOfStep, readOfStack, render, renderElems_concat]
    · cases h
      simp [readOfStep, readOfStack, renderMembersComma]
    · cases h
      simp [readOfStep, readOfStack, render, renderMembers_concat]
    · cases h

/-- The scanner accepts nothing but the lexical elements of the value it returns: what
it had read, followed by its input, is that value followed by the input it leaves. -/
theorem scan_complete (input : List Lexeme) :
    ∀ (st : Step) (stack : List Frame) (v : JValue) (rest : List Lexeme),
      scan st stack input = .ok (v, rest) →
      readOfStack stack ++ readOfStep st ++ input = render v ++ rest := by
  induction input with
  | nil =>
    intro st stack v rest hs
    by_cases hd : ∃ w, st = .endValue w ∧ stack = []
    · obtain ⟨w, rfl, rfl⟩ := hd
      rw [scan_done] at hs
      cases hs; simp [readOfStack, readOfStep]
    · rw [scan.eq_2 _ _ (fun w h1 h2 => hd ⟨w, h1, h2⟩)] at hs
      cases hs
  | cons c input ih =>
    intro st stack v rest hs
    by_cases hd : ∃ w, st = .endValue w ∧ stack = []
    · obtain ⟨w, rfl, rfl⟩ := hd
      rw [scan_done] at hs
      cases hs; simp [readOfStack, readOfStep]
    · rw [scan.eq_3 _ _ _ _ (fun w h1 h2 => hd ⟨w, h1, h2⟩)] at hs
      cases hstep : step st stack c with
      | none => rw [hstep] at hs; cases hs
      | some p =>
        obtain ⟨st1, stack1⟩ := p
        rw [hstep] at hs
        have h1 := ih _ _ _ _ hs
        have h2 := step_read _ _ _ _ _ hstep
        rw [h2] at h1
        simpa using h1

theorem readValue_complete (buf : List Lexeme) (v : JValue) (rest : List Lexeme)
    (hr : readValue buf = .ok (v, rest)) : buf = render v ++ rest := by
  cases buf with
  | nil => simp [readValue] at hr
  | cons c buf =>
    simp only [readValue] at hr
    simpa [readOfStack, readOfStep] using scan_complete _ _ _ _ _ hr

end json

namespace harbors
open json

theorem Decode_complete {α : Type} (um : JValue → Except error α) (buf : List Lexeme)
    (stack : List TokenState) (x : α) (d2 : Decoder)
    (hd : Decoder.Decode um ⟨buf, none, .tokenObjectColon, stack⟩ = (.ok x, d2)) :
    ∃ v rest, buf = .colon :: (render v ++ rest) ∧ um v = .ok x ∧
      d2 = ⟨rest, none, .tokenObjectComma, stack⟩ := by
  cases buf with
  | nil => simp [Decoder.Decode, Decoder.tokenPrepareForDecode] at hd
  | cons c buf =>
    by_cases hc : c = .colon
    · subst hc
      simp only [Decoder.Decode, Decoder.tokenPrepareForDecode, ne_eq, not_true_eq_false,
        if_false, Decoder.tokenValueAllowed, Bool.not_true, Bool.false_eq_true] at hd
      cases hr : readValue buf with
      | error e => rw [hr] at hd; simp at hd
      | ok p =>
        obtain ⟨v, rest⟩ := p
        rw [hr] at hd
        simp only [Decoder.tokenValueEnd, Prod.mk.injEq] at hd
        exact ⟨v, rest, by rw [readValue_complete _ _ _ hr], hd.1, hd.2.symm⟩
    · simp [Decoder.Decode, Decoder.tokenPrepareForDecode, hc] at hd

theorem tokenLoop_key (dec0 : Decoder) (st : TokenState) (buf : List Lexeme) (k : String)
    (d1 : Decoder) (hst : st = .tokenObjectStart ∨ st = .tokenObjectKey)
    (herr : dec0.err = none)
    (ht : Decoder.tokenLoop dec0 st buf = (.ok (.string k), d1)) :
    ∃ rest, buf = .str k :: rest ∧
      d1 = ⟨rest, none, .tokenObjectColon, dec0.tokenStack⟩ := by
  obtain ⟨b0, e0, s0, k0⟩ := dec0
  simp only at herr
  subst herr
  cases buf with
  | nil => simp [Decoder.tokenLoop] at ht
  | cons c rest =>
    rcases hst with rfl | rfl <;> cases c <;>
      simp [Decoder.tokenLoop, Decoder.tokenDefault, Decoder.tokenValueAllowed,
        Decoder.tokenError, Decoder.Decode, Decoder.tokenPrepareForDecode, readValue, scan_cons,
        step, beginValue, Lexeme.scalar?, scan_done, unmarshalString, Decoder.tokenValueEnd] at ht ⊢
    all_goals first
      | exact ⟨rest, ⟨ht.1, rfl⟩, ht.2.symm⟩
      | (cases k0 <;> simp at ht)

theorem readKey_complete (first : Bool) (buf : List Lexeme) (stack : List TokenState)
    (k : String) (d1 : Decoder)
    (hk : readKey ⟨buf, none, entryState first, stack⟩ = (.ok k, d1)) :
    ∃ rest, buf = (if first then [] else [Lexeme.comma]) ++ .str k :: rest ∧
      d1 = ⟨rest, none, .tokenObjectColon, stack⟩ := by
  unfold readKey at hk
  split at hk
  · cases hk
  · rename_i key d ht
    simp only [Prod.mk.injEq, Except.ok.injEq] at hk
    obtain ⟨rfl, rfl⟩ := hk
    simp only [Decoder.Token] at ht
    cases first with
    | true =>
      simpa [entryState] using tokenLoop_key _ _ _ _ _ (Or.inl rfl) rfl ht
    | false =>
      simp only [entryState, Bool.false_eq_true, if_false] at ht ⊢
      cases buf with
      | nil => simp [Decoder.tokenLoop] at ht
      | cons c rest =>
        cases c <;>
          simp only [Decoder.tokenLoop, Decoder.tokenDefault, Decoder.tokenValueAllowed,
            Decoder.tokenError, Bool.not_false, if_true, ne_eq, reduceCtorEq, not_false_eq_true,
            and_self, and_true, and_false, if_false, not_true_eq_false, Prod.mk.injEq,
            false_and, or_self] at ht
        · split at ht <;> simp at ht
        · obtain ⟨rest1, h1, h2⟩ := tokenLoop_key _ _ _ _ _ (Or.inr rfl) rfl ht
          exact ⟨rest1, by simp [h1], by simpa using h2⟩
  · cases hk

/-- An entry attempt on input that does not begin with an entry that decodes and passes
validation fails without a call to `UpsertHarbor`. -/
theorem processSingleHarbor_nocall {σ : Type} (h : handlers σ) (world : World σ) (first : Bool)
    (buf : List Lexeme) (stack : List TokenState) (hstop : ¬ beginsWithEntry first buf) :
    ∃ herr dec1, h.processSingleHarbor world ⟨buf, none, entryState first, stack⟩ =
      (some herr, world, dec1) := by
  unfold handlers.processSingleHarbor
  rcases hk : readKey ⟨buf, none, entryState first, stack⟩ with ⟨e | k, d1⟩
  · exact ⟨_, _, rfl⟩
  · obtain ⟨rest, hbuf, rfl⟩ := readKey_complete _ _ _ _ _ hk
    simp only
    rcases hd : Decoder.Decode unmarshal ⟨rest, none, .tokenObjectColon, stack⟩ with ⟨e | req, d2⟩
    · exact ⟨_, _, rfl⟩
    · obtain ⟨v, rest2, hrest, hum, rfl⟩ := Decode_complete _ _ _ _ _ hd
      simp only
      cases hc : validate.Check req.required with
      | some errs => exact ⟨_, _, rfl⟩
      | none =>
        exfalso
        apply hstop
        refine ⟨(k, v), rest2, ?_, ?_⟩
        · simp [entryHarbor, entryRequest, hum, hc]
        · rw [hbuf, hrest, renderEntries_single]

theorem not_beginsWithEntry_More (first : Bool) (buf : List Lexeme) (err : Option error)
    (st : TokenState) (stack : List TokenState)
    (hm : Decoder.More ⟨renderEntries first [] ++ buf, err, st, stack⟩ = false) :
    ¬ beginsWithEntry first buf := by
  rintro ⟨⟨k, v⟩, rest, -, rfl⟩
  rw [renderEntries_single] at hm
  simp only [renderEntries, List.nil_append] at hm
  rw [More_entry] at hm
  cases hm

/-- The loop of `processHarbors` on input that consists of entries that decode and pass
validation, followed by input that does not begin with another such entry: the calls
made are those of `callsMade`, and the store is the one they leave. -/
theorem loop_calls {σ : Type} (h : handlers σ) (tail : List Lexeme) (stack : List TokenState) :
    ∀ (es : List (String × JValue)) (first : Bool) (world : World σ) (hbs : List harbor.Harbor),
      harborsOf es = some hbs → ¬ beginsWithEntry (first && es.isEmpty) tail →
      ∃ fuel r dec1, h.processHarborsLoop fuel world
          ⟨renderEntries first es ++ tail, none, entryState first, stack⟩ =
        some (r, ⟨storeAfter h.service world.store hbs,
          world.calls ++ callsMade h.service world.store hbs⟩, dec1) := by
  intro es
  induction es with
  | nil =>
    intro first world hbs hh hstop
    simp only [harborsOf, Option.some.injEq] at hh
    subst hh
    simp only [List.isEmpty_nil, Bool.and_true] at hstop
    refine ⟨1, ?_⟩
    simp only [handlers.processHarborsLoop, renderEntries, List.nil_append, callsMade, storeAfter,
      List.append_nil]
    by_cases hm : Decoder.More ⟨tail, none, entryState first, stack⟩ = true
    · obtain ⟨herr, dec1, hp⟩ := processSingleHarbor_nocall h world first tail stack hstop
      simp only [hm, if_true, hp]
      exact ⟨_, _, rfl⟩
    · simp only [hm]
      exact ⟨_, _, rfl⟩
  | cons e es ih =>
    intro first world hbs hh hstop
    obtain ⟨k, v⟩ := e
    obtain ⟨hb, hbs1, he, hh1, rfl⟩ := harborsOf_cons _ _ _ hh
    obtain ⟨req, hreq, hchk, rfl⟩ := entryHarbor_some _ _ he
    simp only at hreq hchk
    rcases hup : h.service.UpsertHarbor (harborOf k req) world.store with ⟨_ | e, s2⟩
    · obtain ⟨fuel, r, dec1, hl⟩ := ih false ⟨s2, world.calls ++ [harborOf k req]⟩ hbs1 hh1
        (by simpa using hstop)
      refine ⟨fuel + 1, r, dec1, ?_⟩
      simp only [handlers.processHarborsLoop, renderEntries, List.append_assoc, List.cons_append,
        More_entry, if_true]
      rw [processSingleHarbor_entry]
      simp only [hreq, hchk, handlers.UpsertHarbor, hup]
      simp only [entryState, Bool.false_eq_true, if_false] at hl
      rw [hl]
      simp [callsMade, storeAfter, hup]
    · refine ⟨1, some ⟨http.StatusInternalServerError, "error upserting harbor"⟩,
        ⟨renderEntries false es ++ tail, none, .tokenObjectComma, stack⟩, ?_⟩
      simp only [handlers.processHarborsLoop, renderEntries, List.append_assoc, List.cons_append,
        More_entry, if_true]
      rw [processSingleHarbor_entry]
      simp only [hreq, hchk, handlers.UpsertHarbor, hup, callsMade, storeAfter]

/-- Every input is a run of entries that decode and pass validation, followed by input
that does not begin with another such entry. -/
theorem entries_decomposition (n : Nat) :
    ∀ (buf : List Lexeme) (first : Bool), buf.length ≤ n →
      ∃ es tail hbs, buf = renderEntries first es ++ tail ∧ harborsOf es = some hbs ∧
        ¬ beginsWithEntry (first && es.isEmpty) tail := by
  induction n with
  | zero =>
    intro buf first hlen
    have : buf = [] := List.length_eq_zero.mp (Nat.le_zero.mp hlen)
    subst this
    refine ⟨[], [], [], rfl, rfl, ?_⟩
    rintro ⟨⟨k, v⟩, rest, -, hr⟩
    cases first <;> simp [renderEntries] at hr
  | succ n ih =>
    intro buf first hlen
    by_cases hb : beginsWithEntry first buf
    · obtain ⟨⟨k, v⟩, rest, hsome, rfl⟩ := hb
      have hlt : rest.length ≤ n := by
        rw [renderEntries_single] at hlen
        simp only [List.length_append, List.length_cons] at hlen
        omega
      obtain ⟨es, tail, hbs, rfl, hh, hstop⟩ := ih rest false hlt
      obtain ⟨hb1, he⟩ := Option.isSome_iff_exists.mp hsome
      refine ⟨(k, v) :: es, tail, hb1 :: hbs, ?_, ?_, ?_⟩
      · simp [renderEntries]
      · simp [harborsOf, he, hh]
      · simpa using hstop
    · exact ⟨[], buf, [], rfl, rfl, by simpa using hb⟩

/-- The store and the record of calls that a run of `HandleUpsert` leaves, for a body
that opens with the opening brace: whatever the response, they are those of the loop. -/
theorem HandleUpsert_world {σ : Type} (h : handlers σ) (vars : web.Vars)
    (ctr : responseController) (w : http.ResponseRecorder) (world : World σ)
    (es : List (String × JValue)) (tail : List Lexeme) (hbs : List harbor.Harbor)
    (hh : harborsOf es = some hbs) (hstop : ¬ beginsWithEntry es.isEmpty tail) :
    ∃ out, h.HandleUpsert vars ctr w (.lbrace :: (renderEntries true es ++ tail)) world = some out ∧
      out.world = ⟨storeAfter h.service world.store hbs,
        world.calls ++ callsMade h.service world.store hbs⟩ := by
  obtain ⟨fuel, r, dec1, hl⟩ := loop_calls h tail [.tokenTopValue] es true world hbs hh
    (by simpa using hstop)
  unfold handlers.HandleUpsert
  simp only [readExpectedToken_open]
  simp only [entryState, if_true] at hl
  simp only [processHarbors_eq h _ _ _ _ hl]
  cases r with
  | some herr => exact ⟨_, rfl, rfl⟩
  | none =>
    simp only
    rcases readExpectedToken dec1 '\x7d' with ⟨_ | e, dec3⟩
    · simp only
      rcases ctr.Flush w with ⟨_ | e, w1⟩
      · exact ⟨_, rfl, rfl⟩
      · exact ⟨_, rfl, rfl⟩
    · exact ⟨_, rfl, rfl⟩

theorem callsMade_take {σ : Type} (svc : harborService σ) (hbs : List harbor.Harbor) :
    ∀ s : σ, ∃ n, callsMade svc s hbs = hbs.take n := by
  induction hbs with
  | nil => intro s; exact ⟨0, rfl⟩
  | cons hb hbs ih =>
    intro s
    rcases hup : svc.UpsertHarbor hb s with ⟨_ | e, s1⟩
    · obtain ⟨n, hn⟩ := ih s1
      exact ⟨n + 1, by simp [callsMade, hup, hn]⟩
    · exact ⟨1, by simp [callsMade, hup]⟩

theorem harborsOf_forall2 (es : List (String × JValue)) :
    ∀ hbs, harborsOf es = some hbs →
      List.Forall₂ (fun e hb => entryHarbor e = some hb) es hbs := by
  induction es with
  | nil =>
    intro hbs hh
    simp only [harborsOf, Option.some.injEq] at hh
    subst hh
    exact List.Forall₂.nil
  | cons e es ih =>
    intro hbs hh
    obtain ⟨hb, hbs1, he, hh1, rfl⟩ := harborsOf_cons _ _ _ hh
    exact List.Forall₂.cons he (ih _ hh1)

/-- A body without the opening brace is answered at once; the store and the record of
calls are left as they were. -/
theorem HandleUpsert_not_open {σ : Type} (h : handlers σ) (vars : web.Vars)
    (ctr : responseController) (w : http.ResponseRecorder) (body : List Lexeme)
    (world : World σ) (hb : body.head? ≠ some .lbrace) :
    ∃ out, h.HandleUpsert vars ctr w body world = some out ∧ out.world = world := by
  obtain ⟨e, dec1, he⟩ := readExpectedToken_not_open body hb
  unfold handlers.HandleUpsert
  simp only [he]
  exact ⟨_, rfl, rfl⟩

/-- C8, as stated, fails when the first failing step is an `UpsertHarbor` call: that call
has been made. Here the body has one entry, the service fails on it, so no entry
precedes the first failing step; yet the record of calls is not empty. -/
theorem HandleUpsert_failing_call_is_made :
    ∃ out, (⟨mockHarborService (some "disk full")⟩ : handlers Unit).HandleUpsert web.Vars.default
        ⟨none, false⟩ http.NewRecorder (render (.object [("USLAX", losAngeles)])) ⟨(), []⟩ =
        some out ∧
      out.w.Code = http.StatusInternalServerError ∧
      out.world.calls.map (fun hb => hb.UNLoc) = ["USLAX"] ∧
      out.world.calls ≠ [] :=
  ⟨_, rfl, rfl, rfl, by decide⟩

/-- C8, amended. For every request, the calls made to `UpsertHarbor` are exactly these:
the body, after its opening brace, begins with a longest run `es` of entries that
decode and pass validation (what follows does not begin with another such entry), and
the calls are the harbors of `es`, in payload order, up to and including the first on
which `UpsertHarbor` returns an error, or all of them when none does. So an entry that
fails at its key, its decoding or its validation is never passed to `UpsertHarbor`,
no call follows a failed call, and the store is left as the calls made it. A body
without the opening brace makes no call. -/
theorem HandleUpsert_calls {σ : Type} (h : handlers σ) (vars : web.Vars)
    (ctr : responseController) (w : http.ResponseRecorder) (body : List Lexeme)
    (world : World σ) :
    ∃ out es tail hbs, h.HandleUpsert vars ctr w body world = some out ∧
      (body = .lbrace :: (renderEntries true es ++ tail) ∨
        (body.head? ≠ some .lbrace ∧ es = [])) ∧
      harborsOf es = some hbs ∧ ¬ beginsWithEntry es.isEmpty tail ∧
      out.world.calls = world.calls ++ callsMade h.service world.store hbs ∧
      out.world.store = storeAfter h.service world.store hbs := by
  by_cases hb : body.head? = some .lbrace
  · obtain ⟨buf, rfl⟩ : ∃ buf, body = .lbrace :: buf := by
      cases body with
      | nil => simp at hb
      | cons c buf => simp only [List.head?_cons, Option.some.injEq] at hb; exact ⟨buf, by rw [hb]⟩
    obtain ⟨es, tail, hbs, rfl, hh, hstop⟩ := entries_decomposition buf.length buf true (Nat.le_refl _)
    obtain ⟨out, hout, hw⟩ := HandleUpsert_world h vars ctr w world es tail hbs hh
      (by simpa using hstop)
    exact ⟨out, es, tail, hbs, hout, Or.inl rfl, hh, by simpa using hstop, by rw [hw], by rw [hw]⟩
  · obtain ⟨out, hout, hw⟩ := HandleUpsert_not_open h vars ctr w body world hb
    refine ⟨out, [], [], [], hout, Or.inr ⟨hb, rfl⟩, rfl, ?_, ?_, ?_⟩
    · rintro ⟨⟨k, v⟩, rest, -, hr⟩
      simp [renderEntries] at hr
    · simp [callsMade, hw]
    · simp [storeAfter, hw]

/-- What is decoded from an inner object that repeats a member: a later array is decoded
into the slice that the earlier ones left, so that a null element keeps what its slot
held. For `alias` given as `["a","b"]`, then `["c"]`, then `["x",null]`, the harbor passed
has the aliases `["x","b"]`, and for `coordinates` given as `[1,2]`, then `[null]`, it has
the coordinates `[1]`. -/
theorem repeated_member_example :
    ((⟨mockHarborService none⟩ : handlers Unit).HandleUpsert web.Vars.default ⟨none, false⟩
        http.NewRecorder
        (render (.object [("USLAX", .object [("name", .string "Los Angeles"),
          ("city", .string "Los Angeles"), ("country", .string "USA"),
          ("alias", .array [.string "a", .string "b"]), ("alias", .array [.string "c"]),
          ("alias", .array [.string "x", .null]),
          ("coordinates", .array [.number (some ⟨4607182418800017408⟩),
            .number (some ⟨4611686018427387904⟩)]),
          ("coordinates", .array [.null])])])) ⟨(), []⟩).map
      (fun out => out.world.calls.map (fun hb => (hb.UNLoc, hb.Alias, hb.Coordinates))) =
      some [("USLAX", ["x", "b"], [⟨4607182418800017408⟩])] := by
  rfl

/-- C9. For every entry that reaches the upsert step, the `Harbor` passed to
`UpsertHarbor` has `UNLoc` equal to the entry's outer JSON key, whatever `unloc` or
`code` the inner object carries, and every other field equal to the value decoded from
the inner object (the slices by their elements): in every run, the calls made
correspond, in order, to entries `es` with which the body begins, each call carrying
its entry's key and decoded fields. -/
theorem HandleUpsert_outer_key_wins {σ : Type} (h : handlers σ) (vars : web.Vars)
    (ctr : responseController) (w : http.ResponseRecorder) (body : List Lexeme)
    (world : World σ) :
    ∃ out es calls, h.HandleUpsert vars ctr w body world = some out ∧
      out.world.calls = world.calls ++ calls ∧
      (es = [] ∨ ∃ tail, body = .lbrace :: (renderEntries true es ++ tail)) ∧
      List.Forall₂ (fun e hb => ∃ req, unmarshal e.2 = .ok req ∧
        hb.UNLoc = e.1 ∧ hb.Name = req.Name ∧ hb.City = req.City ∧ hb.Country = req.Country ∧
        hb.Alias = req.Alias.elems ∧ hb.Regions = req.Regions.elems ∧
        hb.Coordinates = req.Coordinates.elems ∧
        hb.Province = req.Province ∧ hb.Timezone = req.Timezone ∧ hb.UNLocs = req.UNLocs.elems ∧
        hb.Code = req.Code) es calls := by
  by_cases hb : body.head? = some .lbrace
  · obtain ⟨buf, rfl⟩ : ∃ buf, body = .lbrace :: buf := by
      cases body with
      | nil => simp at hb
      | cons c buf => simp only [List.head?_cons, Option.some.injEq] at hb; exact ⟨buf, by rw [hb]⟩
    obtain ⟨es, tail, hbs, rfl, hh, hstop⟩ := entries_decomposition buf.length buf true (Nat.le_refl _)
    obtain ⟨out, hout, hw⟩ := HandleUpsert_world h vars ctr w world es tail hbs hh
      (by simpa using hstop)
    obtain ⟨n, hn⟩ := callsMade_take h.service hbs world.store
    refine ⟨out, es.take n, hbs.take n, hout, by rw [hw, hn],
      Or.inr ⟨renderEntries (true && (es.take n).isEmpty) (es.drop n) ++ tail, ?_⟩, ?_⟩
    · rw [← List.append_assoc, ← renderEntries_append, List.take_append_drop]
    · refine List.Forall₂.imp ?_ (List.forall₂_take n (harborsOf_forall2 es hbs hh))
      intro e hb1 he
      obtain ⟨req, hreq, -, rfl⟩ := entryHarbor_some _ _ he
      exact ⟨req, hreq, rfl, rfl, rfl, rfl, rfl, rfl, rfl, rfl, rfl, rfl, rfl⟩
  · obtain ⟨out, hout, hw⟩ := HandleUpsert_not_open h vars ctr w body world hb
    exact ⟨out, [], [], hout, by simp [hw], Or.inl rfl, List.Forall₂.nil⟩

/-- The outer key wins over an inner `unloc`, and an inner `code` is kept as the
`Code`: the record of the call for the body
`{"USLAX": {"unloc": "AEAJM", "code": "AEAJM", "name": ..., "city": ..., "country": ...}}`. -/
theorem outer_key_wins_example :
    ((⟨mockHarborService none⟩ : handlers Unit).HandleUpsert web.Vars.default ⟨none, false⟩
        http.NewRecorder
        (render (.object [("USLAX", .object [("unloc", .string "AEAJM"),
          ("code", .string "AEAJM"), ("name", .string "Los Angeles"),
          ("city", .string "Los Angeles"), ("country", .string "USA")])])) ⟨(), []⟩).map
      (fun out => out.world.calls.map (fun hb => (hb.UNLoc, hb.Code))) =
      some [("USLAX", "AEAJM")] := by
  rfl

/-- C10, as stated, fails: the body `{"": {...}}`, whose only key is the empty string,
is accepted, and the harbor passed to `UpsertHarbor` has an empty `UNLoc`. -/
theorem HandleUpsert_empty_key :
    ∃ out, (⟨mockHarborService none⟩ : handlers Unit).HandleUpsert web.Vars.default ⟨none, false⟩
        http.NewRecorder (render (.object [("", losAngeles)])) ⟨(), []⟩ = some out ∧
      out.w.Code = http.StatusOK ∧
      out.world.calls.map (fun hb => hb.UNLoc) = [""] :=
  ⟨_, rfl, rfl, rfl⟩

theorem callsMade_subset {σ : Type} (svc : harborService σ) (hbs : List harbor.Harbor) (s : σ)
    (hb : harbor.Harbor) (hm : hb ∈ callsMade svc s hbs) : hb ∈ hbs := by
  obtain ⟨n, hn⟩ := callsMade_take svc hbs s
  rw [hn] at hm
  exact List.mem_of_mem_take hm

/-- C10, amended. The `UNLoc` of every harbor passed to `UpsertHarbor` is the outer key
of its entry, and nothing rejects an empty key; so for every request in which the
entries that decode and pass validation all have a non-empty key, every `Harbor` that
`HandleUpsert` passes to `UpsertHarbor` has a non-empty `UNLoc`. -/
theorem HandleUpsert_unloc_nonempty {σ : Type} (h : handlers σ) (vars : web.Vars)
    (ctr : responseController) (w : http.ResponseRecorder) (world : World σ)
    (es : List (String × JValue)) (tail : List Lexeme) (hbs : List harbor.Harbor)
    (hh : harborsOf es = some hbs) (hstop : ¬ beginsWithEntry es.isEmpty tail)
    (hkeys : ∀ e ∈ es, e.1 ≠ "") :
    ∃ out calls, h.HandleUpsert vars ctr w (.lbrace :: (renderEntries true es ++ tail)) world =
        some out ∧
      out.world.calls = world.calls ++ calls ∧ ∀ hb ∈ calls, hb.UNLoc ≠ "" := by
  obtain ⟨out, hout, hw⟩ := HandleUpsert_world h vars ctr w world es tail hbs hh hstop
  refine ⟨out, callsMade h.service world.store hbs, hout, by rw [hw], ?_⟩
  intro hb hm
  have hmem := callsMade_subset _ _ _ _ hm
  have hall := harborsOf_forall2 es hbs hh
  obtain ⟨e, he, hrel⟩ : ∃ e, e ∈ es ∧ entryHarbor e = some hb := by
    clear hm hw hout hstop hkeys hh
    induction hall with
    | nil => simp at hmem
    | cons hr _ ih =>
      rcases List.mem_cons.mp hmem with rfl | hm1
      · exact ⟨_, List.mem_cons_self _ _, hr⟩
      · obtain ⟨e, he, hr1⟩ := ih hm1
        exact ⟨e, List.mem_cons_of_mem _ he, hr1⟩
  obtain ⟨req, -, -, rfl⟩ := entryHarbor_some _ _ hrel
  exact hkeys e he

theorem HandleUpsert_unloc_nonempty_witness :
    ∃ out calls, (⟨mockHarborService none⟩ : handlers Unit).HandleUpsert web.Vars.default
        ⟨none, false⟩ http.NewRecorder
        (.lbrace :: (renderEntries true [("USLAX", losAngeles)] ++ [.rbrace])) ⟨(), []⟩ =
        some out ∧
      out.world.calls = [] ++ calls ∧ ∀ hb ∈ calls, hb.UNLoc ≠ "" :=
  HandleUpsert_unloc_nonempty ⟨mockHarborService none⟩ web.Vars.default ⟨none, false⟩
    http.NewRecorder ⟨(), []⟩ [("USLAX", losAngeles)] [.rbrace] _ (by rfl)
    (by simp [beginsWithEntry, renderEntries]) (by simp)

theorem errorBody_ne_successBody (message : String) : errorBody message ≠ successBody := by
  intro h
  have := congrArg (fun s => s.data.get? 2) h
  simp [errorBody, successBody] at this

/-- C11. The code at the failing input: a valid body and a controller whose `Flush`
writes the response header before it returns its error, as the controller of
`http.NewResponseController` does on a connection that breaks. The status 200 is
already committed, the later `WriteHeader(500)` of `RespondWithError` has no effect, and
the response is the error body with status 200, where the claim and the test of the
handler say 500. -/
theorem HandleUpsert_flush_error_after_header :
    ∃ out, (⟨mockHarborService none⟩ : handlers Unit).HandleUpsert web.Vars.default
        ⟨some "error flushing response", true⟩ http.NewRecorder
        (render (.object [("UNLOC", losAngeles)])) ⟨(), []⟩ = some out ∧
      out.w.Code = http.StatusOK ∧ out.w.Code ≠ http.StatusInternalServerError ∧
      out.w.Body = errorBody "error flushing response" :=
  ⟨_, rfl, rfl, by decide, rfl⟩

/-- With a controller whose failing `Flush` has not written the response header (the
test double of the handler's tests), a request whose envelope and entries are all
processed successfully is answered with status 500 and the body `{"error": e}`, and the
success payload is not written. -/
theorem HandleUpsert_flush_failure_unwritten {σ : Type} (h : handlers σ)
    (ctr : responseController) (world : World σ) (payload : List (String × JValue))
    (hbs : List harbor.Harbor) (s1 : σ) (e : String)
    (hh : harborsOf payload = some hbs) (hu : upsertAll h.service world.store hbs = some s1)
    (hflush : ctr.FlushErr = some e) (hnf : ctr.flushes = false) :
    ∃ out, h.HandleUpsert web.Vars.default ctr http.NewRecorder (render (.object payload)) world =
        some out ∧
      out.w.Body = errorBody e ∧ out.w.Body ≠ successBody ∧
      out.w.Code = http.StatusInternalServerError := by
  have hmore : Decoder.More ⟨[Lexeme.rbrace], none, entryState payload.isEmpty, [.tokenTopValue]⟩ =
      false := by
    simp [Decoder.More, Decoder.peek]
  have := HandleUpsert_entries_end h web.Vars.default ctr http.NewRecorder world payload [.rbrace]
    hbs s1 hh hu hmore
  rw [readExpectedToken_close _ _ _ _ rfl] at this
  simp only [render, renderMembers_eq]
  rw [this]
  obtain ⟨ferr, flushes⟩ := ctr
  simp only at hflush hnf
  subst hflush
  subst hnf
  simp only [responseController.Flush, Bool.false_eq_true, if_false,
    RespondWithError_fresh http.StatusInternalServerError _ rfl]
  exact ⟨_, rfl, rfl, errorBody_ne_successBody e, rfl⟩

end harbors

namespace strings

theorem foldl_sep_append (sep : String) (rest : List String) :
    ∀ x y : String, rest.foldl (fun b s => b ++ sep ++ s) (x ++ y) =
      x ++ rest.foldl (fun b s => b ++ sep ++ s) y := by
  induction rest with
  | nil => intro x y; rfl
  | cons r rest ih =>
    intro x y
    simp only [List.foldl_cons]
    rw [String.append_assoc, String.append_assoc, ih, ← String.append_assoc y]

theorem Join_cons_cons (a b : String) (rest : List String) (sep : String) :
    Join (a :: b :: rest) sep = a ++ sep ++ Join (b :: rest) sep := by
  have h1 : Join (a :: b :: rest) sep = rest.foldl (fun b s => b ++ sep ++ s) (a ++ sep ++ b) := by
    simp [Join]
  have h2 : Join (b :: rest) sep = rest.foldl (fun b s => b ++ sep ++ s) b := by
    cases rest <;> simp [Join]
  rw [h1, h2, foldl_sep_append]

/-- `strings.Join` writes the elements in their order, separated by the separator:
it is the `String.intercalate` of the library. -/
theorem Join_eq_intercalate (elems : List String) (sep : String) :
    Join elems sep = String.intercalate sep elems := by
  have go : ∀ (rest : List String) (acc : String),
      String.intercalate.go acc sep rest = rest.foldl (fun b s => b ++ sep ++ s) acc := by
    intro rest
    induction rest with
    | nil => intro acc; rfl
    | cons r rest ih => intro acc; simp [String.intercalate.go, ih]
  cases elems with
  | nil => rfl
  | cons e rest =>
    cases rest with
    | nil => rfl
    | cons e1 rest => simp [Join, String.intercalate, go]

end strings

namespace sqlite

/-- C13. For every harbor, `harborSQLiteRepository.UpsertHarbor` passes `Alias`,
`Regions` and `UNLocs` to the store as their elements joined with a comma in input
order, and passes `UNLoc`, `Name`, `City`, `Country`, `Province`, `Timezone` and `Code`
unchanged, in the column order of the statement: its one call to the database is the
upsert statement with the values of `storedRow`, whose columns are those of the
statement; for the harbor of the tests the values are those the test expects. -/
theorem UpsertHarbor_passes_row {σ : Type} (formatFloat : float64 → String) (db : DB σ)
    (harbor : harbor.Harbor) (s : σ) :
    harborSQLiteRepository.UpsertHarbor formatFloat ⟨db⟩ harbor s =
      (match db.ExecContext upsertQuery
          ((storedRow (strings.Join (strings.Fields (fmt.Sprint formatFloat harbor.Coordinates))
            ",") harbor).map Prod.snd) s with
        | (some err, s1) => (some ("upserting harbor: " ++ err), s1)
        | (none, s1) => (none, s1)) ∧
      (storedRow (strings.Join (strings.Fields (fmt.Sprint formatFloat harbor.Coordinates)) ",")
        harbor).map Prod.fst = upsertColumns ∧
      (harborSQLiteRepository.UpsertHarbor formatTestFloat ⟨mockDB none⟩ testHarbor []).2 =
        [(upsertQuery, ["unloc", "name", "city", "country", "alias1,alias2", "region1,region2",
          "[1,2]", "province", "timezone", "unloc1,unloc2", "code"])] := by
  refine ⟨?_, rfl, rfl⟩
  simp only [harborSQLiteRepository.UpsertHarbor, storedRow, List.map,
    strings.Join_eq_intercalate]

end sqlite

namespace strings

/-- C14, as stated, fails: the one-element sequence `["a,b"]` and the two-element
sequence `["a", "b"]` are stored as the same text. -/
theorem Join_not_injective :
    Join ["a,b"] "," = Join ["a", "b"] "," ∧ (["a,b"] : List String) ≠ ["a", "b"] := by
  decide

theorem Join_data (w : String) (ws : List String) :
    (Join (w :: ws) ",").data =
      w.data ++ (match ws with
        | [] => []
        | w1 :: ws1 => ',' :: (Join (w1 :: ws1) ",").data) := by
  cases ws with
  | nil => simp [Join]
  | cons w1 ws1 =>
    rw [Join_cons_cons]
    simp [String.data_append]

theorem prefix_unique (xs : List Char) :
    ∀ (ys ra rb : List Char), ',' ∉ xs → ',' ∉ ys →
      (ra = [] ∨ ∃ t, ra = ',' :: t) → (rb = [] ∨ ∃ t, rb = ',' :: t) →
      xs ++ ra = ys ++ rb → xs = ys ∧ ra = rb := by
  induction xs with
  | nil =>
    intro ys ra rb _ hy hra hrb h
    cases ys with
    | nil => exact ⟨rfl, by simpa using h⟩
    | cons y ys =>
      exfalso
      simp only [List.nil_append, List.cons_append] at h
      rcases hra with rfl | ⟨t, rfl⟩
      · cases h
      · simp only [List.cons.injEq] at h
        exact hy (by rw [← h.1]; exact List.mem_cons_self _ _)
  | cons x xs ih =>
    intro ys ra rb hx hy hra hrb h
    cases ys with
    | nil =>
      exfalso
      simp only [List.nil_append, List.cons_append] at h
      rcases hrb with rfl | ⟨t, rfl⟩
      · cases h
      · simp only [List.cons.injEq] at h
        exact hx (by rw [h.1]; exact List.mem_cons_self _ _)
    | cons y ys =>
      simp only [List.cons_append, List.cons.injEq] at h
      obtain ⟨rfl, h2⟩ := h
      have := ih ys ra rb (fun hm => hx (List.mem_cons_of_mem _ hm))
        (fun hm => hy (List.mem_cons_of_mem _ hm)) hra hrb h2
      exact ⟨by rw [this.1], this.2⟩

theorem Join_cons_injective (a : List String) :
    ∀ (x y : String) (b : List String),
      (∀ s ∈ x :: a, ',' ∉ s.data) → (∀ s ∈ y :: b, ',' ∉ s.data) →
      Join (x :: a) "," = Join (y :: b) "," → x :: a = y :: b := by
  induction a with
  | nil =>
    intro x y b hx hy h
    have hd := congrArg String.data h
    rw [Join_data, Join_data] at hd
    have := prefix_unique x.data y.data _ _ (hx x (List.mem_cons_self _ _))
      (hy y (List.mem_cons_self _ _)) (Or.inl rfl)
      (by cases b with
        | nil => exact Or.inl rfl
        | cons b1 b2 => exact Or.inr ⟨_, rfl⟩) hd
    cases b with
    | nil => rw [String.ext this.1]
    | cons b1 b2 => simp at this
  | cons a1 a ih =>
    intro x y b hx hy h
    have hd := congrArg String.data h
    rw [Join_data, Join_data] at hd
    have := prefix_unique x.data y.data _ _ (hx x (List.mem_cons_self _ _))
      (hy y (List.mem_cons_self _ _)) (Or.inr ⟨_, rfl⟩)
      (by cases b with
        | nil => exact Or.inl rfl
        | cons b1 b2 => exact Or.inr ⟨_, rfl⟩) hd
    cases b with
    | nil => simp at this
    | cons b1 b2 =>
      simp only [List.cons.injEq, true_and] at this
      have hrec := ih a1 b1 b2 (fun s hs => hx s (List.mem_cons_of_mem _ hs))
        (fun s hs => hy s (List.mem_cons_of_mem _ hs)) (String.ext this.2)
      rw [String.ext this.1, hrec]

/-- C14, amended. The text that `UpsertHarbor` stores for an ordered sequence of strings
determines the sequence when no element contains a comma and the sequence is not the
one-element sequence of the empty string (which is stored as the empty text, like the
empty sequence): for all such `a` and `b`, if the comma-joined text of `a` is that of
`b`, then `a = b`. -/
theorem Join_injective (a b : List String)
    (ha : ∀ s ∈ a, ',' ∉ s.data) (hb : ∀ s ∈ b, ',' ∉ s.data)
    (ha1 : a ≠ [""]) (hb1 : b ≠ [""]) (h : Join a "," = Join b ",") : a = b := by
  have hempty : ∀ (y : String) (c : List String), Join (y :: c) "," = "" → y :: c = [""] := by
    intro y c hj
    have hd := congrArg String.data hj
    rw [Join_data] at hd
    cases c with
    | nil =>
      simp only [List.append_nil] at hd
      have hy : y = "" := String.ext hd
      rw [hy]
    | cons c1 c2 => simp at hd
  cases a with
  | nil =>
    cases b with
    | nil => rfl
    | cons y b => exact absurd (hempty y b (by rw [← h]; rfl)) hb1
  | cons x a =>
    cases b with
    | nil => exact absurd (hempty x a (by rw [h]; rfl)) ha1
    | cons y b => exact Join_cons_injective a x y b ha hb h

theorem Join_injective_witness :
    Join ["alias1", "alias2"] "," = "alias1,alias2" ∧
      (["alias1", "alias2"] : List String) = ["alias1", "alias2"] :=
  ⟨by decide, Join_injective ["alias1", "alias2"] ["alias1", "alias2"] (by decide) (by decide)
    (by decide) (by decide) (by decide)⟩

end strings

namespace strings

theorem fieldsFrom_cons_nonspace (c : Char) (cs cur : List Char) (h : isSpace c = false) :
    fieldsFrom (c :: cs) cur = fieldsFrom cs (c :: cur) := by
  simp [fieldsFrom, h]

theorem fieldsFrom_word (w : List Char) :
    ∀ (cs cur : List Char), (∀ c ∈ w, isSpace c = false) →
      fieldsFrom (w ++ cs) cur = fieldsFrom cs (w.reverse ++ cur) := by
  induction w with
  | nil => intro cs cur _; rfl
  | cons c w ih =>
    intro cs cur hw
    have hc : isSpace c = false := hw c (List.mem_cons_self _ _)
    rw [List.cons_append, fieldsFrom_cons_nonspace _ _ _ hc,
      ih cs (c :: cur) (fun d hd => hw d (List.mem_cons_of_mem _ hd))]
    simp

theorem Join_cons_of_ne_nil (x : String) (l : List String) (sep : String) (hl : l ≠ []) :
    Join (x :: l) sep = x ++ sep ++ Join l sep := by
  cases l with
  | nil => exact absurd rfl hl
  | cons y l => exact Join_cons_cons x y l sep

theorem Join_space_data (w : String) (ws : List String) :
    (Join (w :: ws) " ").data =
      w.data ++ (match ws with
        | [] => []
        | w1 :: ws1 => ' ' :: (Join (w1 :: ws1) " ").data) := by
  cases ws with
  | nil => simp [Join]
  | cons w1 ws1 =>
    rw [Join_cons_cons]
    simp [String.data_append]

/-- The fields of words separated by single spaces and closed by a bracket, joined
with commas: the words joined with commas, after what was read of the first field,
and closed by the bracket. -/
theorem Join_fieldsFrom (ws : List String) :
    ∀ (w : String) (cur : List Char),
      (∀ s ∈ w :: ws, s ≠ "" ∧ ∀ c ∈ s.data, isSpace c = false) →
      Join (fieldsFrom ((Join (w :: ws) " ").data ++ [']']) cur) "," =
        String.mk cur.reverse ++ Join (w :: ws) "," ++ "]" := by
  induction ws with
  | nil =>
    intro w cur hw
    have h1 := (hw w (List.mem_cons_self _ _)).2
    rw [Join_space_data]
    simp only [List.append_nil]
    rw [fieldsFrom_word _ _ _ h1]
    have hb : isSpace ']' = false := by decide
    simp only [fieldsFrom, hb, Bool.false_eq_true, if_false, List.isEmpty_cons]
    simp only [Join]
    apply String.ext
    simp [String.data_append]
  | cons w1 ws ih =>
    intro w cur hw
    have h1 := (hw w (List.mem_cons_self _ _)).2
    have hne : w.data ≠ [] := fun h0 => (hw w (List.mem_cons_self _ _)).1 (String.ext h0)
    rw [Join_space_data]
    simp only [List.append_assoc, List.cons_append]
    rw [fieldsFrom_word _ _ _ h1]
    have hs : isSpace ' ' = true := by decide
    have hcur : (w.data.reverse ++ cur).isEmpty = false := by
      cases hwd : w.data with
      | nil => exact absurd hwd hne
      | cons c cs => simp
    simp only [fieldsFrom, hs, if_true, hcur, Bool.false_eq_true, if_false]
    have hrec := ih w1 [] (fun s hs1 => hw s (List.mem_cons_of_mem _ hs1))
    have hnil : fieldsFrom ((Join (w1 :: ws) " ").data ++ [']']) [] ≠ [] := by
      intro h0
      rw [h0] at hrec
      have := congrArg (fun s => s.data.length) hrec
      simp [Join, String.data_append] at this
    rw [Join_cons_of_ne_nil _ _ _ hnil, hrec, Join_cons_cons]
    apply String.ext
    simp [String.data_append]

end strings

namespace sqlite

theorem flattenCoordinates_eq (formatFloat : float64 → String) (coordinates : List float64)
    (hfmt : ∀ f, formatFloat f ≠ "" ∧ ∀ c ∈ (formatFloat f).data, strings.isSpace c = false) :
    strings.Join (strings.Fields (fmt.Sprint formatFloat coordinates)) "," =
      coordinatesText formatFloat coordinates := by
  have hb : strings.isSpace '[' = false := by decide
  have hc : strings.isSpace ']' = false := by decide
  cases coordinates with
  | nil =>
    rfl
  | cons f fs =>
    have hd : (fmt.Sprint formatFloat (f :: fs)).data =
        '[' :: ((strings.Join (formatFloat f :: fs.map formatFloat) " ").data ++ [']']) := by
      simp [fmt.Sprint, String.data_append]
    unfold strings.Fields
    rw [hd, strings.fieldsFrom_cons_nonspace _ _ _ hb, strings.Join_fieldsFrom]
    · simp only [coordinatesText, List.map]
      apply String.ext
      simp [String.data_append]
    · intro s hs
      rcases List.mem_cons.mp hs with rfl | hm
      · exact hfmt f
      · obtain ⟨g, -, rfl⟩ := List.mem_map.mp hm
        exact hfmt g

/-- C18. For every harbor, `UpsertHarbor` passes for `Coordinates` the text made of an
opening bracket, the default formatting of each element, joined with commas in input
order, and a closing bracket, given that the formatting of a `float64` by `%v` is never
empty and has no white space: the one call to the database carries the values of
`storedRow` with that text. The text always carries the enclosing brackets, empty
coordinates give `[]` where a comma-joined string field gives the empty string, and
the coordinates 1.0 and 2.0 give `[1,2]`. -/
theorem UpsertHarbor_coordinates (formatFloat : float64 → String)
    (hfmt : ∀ f, formatFloat f ≠ "" ∧ ∀ c ∈ (formatFloat f).data, strings.isSpace c = false)
    (err : Option String) (harbor : harbor.Harbor) (log : List (String × List String)) :
    (harborSQLiteRepository.UpsertHarbor formatFloat ⟨mockDB err⟩ harbor log).2 =
        log ++ [(upsertQuery,
          (storedRow (coordinatesText formatFloat harbor.Coordinates) harbor).map Prod.snd)] ∧
      (coordinatesText formatFloat harbor.Coordinates).data.head? = some '[' ∧
      (coordinatesText formatFloat harbor.Coordinates).data.getLast? = some ']' ∧
      (harbor.Coordinates = [] →
        coordinatesText formatFloat harbor.Coordinates = "[]" ∧
          strings.Join ([] : List String) "," = "") ∧
      coordinatesText formatTestFloat testHarbor.Coordinates = "[1,2]" := by
  refine ⟨?_, ?_, ?_, ?_, rfl⟩
  · have hc := flattenCoordinates_eq formatFloat harbor.Coordinates hfmt
    simp only [harborSQLiteRepository.UpsertHarbor, mockDB, hc, storedRow, List.map,
      strings.Join_eq_intercalate]
    cases err <;> rfl
  · simp [coordinatesText, String.data_append]
  · have hd : (coordinatesText formatFloat harbor.Coordinates).data =
        ('[' :: (strings.Join (harbor.Coordinates.map formatFloat) ",").data) ++ [']'] := by
      simp [coordinatesText, String.data_append]
    rw [hd]
    exact List.getLast?_concat _
  · intro h0
    rw [h0]
    exact ⟨rfl, rfl⟩

theorem UpsertHarbor_coordinates_witness :
    (harborSQLiteRepository.UpsertHarbor formatTestFloat ⟨mockDB none⟩ testHarbor []).2 =
        [] ++ [(upsertQuery,
          (storedRow (coordinatesText formatTestFloat testHarbor.Coordinates) testHarbor).map
            Prod.snd)] ∧
      (coordinatesText formatTestFloat testHarbor.Coordinates).data.head? = some '[' ∧
      (coordinatesText formatTestFloat testHarbor.Coordinates).data.getLast? = some ']' ∧
      (testHarbor.Coordinates = [] →
        coordinatesText formatTestFloat testHarbor.Coordinates = "[]" ∧
          strings.Join ([] : List String) "," = "") ∧
      coordinatesText formatTestFloat testHarbor.Coordinates = "[1,2]" :=
  UpsertHarbor_coordinates formatTestFloat
    (by
      intro f
      unfold formatTestFloat
      split_ifs <;> exact ⟨by decide, by decide⟩)
    none testHarbor []

end sqlite

namespace http

theorem WriteHeader_written (rw : ResponseRecorder) (code : Nat) (h : rw.wroteHeader = true) :
    rw.WriteHeader code = rw := by
  simp [ResponseRecorder.WriteHeader, h]

theorem WriteHeader_first (rw : ResponseRecorder) (code : Nat) (h : rw.wroteHeader = false)
    (hcode : checkWriteHeaderCode code = false) :
    rw.WriteHeader code =
      { rw with Code := code, wroteHeader := true, snapHeader := rw.HeaderMap } := by
  simp [ResponseRecorder.WriteHeader, h, hcode]

theorem panics_valid (rw : ResponseRecorder) (code : Nat)
    (hcode : checkWriteHeaderCode code = false) : rw.panics code = false := by
  simp [ResponseRecorder.panics, hcode]

theorem Write_body (rw : ResponseRecorder) (buf : String) :
    (rw.Write buf).Body = rw.Body ++ buf := by
  cases h : rw.wroteHeader
  · simp [ResponseRecorder.Write, WriteHeader_first rw 200 h rfl]
  · simp [ResponseRecorder.Write, WriteHeader_written rw 200 h]

end http

namespace web

/-- The fallback response of `Respond` and `RespondAfterFlush`, on a writer `w` whose
header has not been written. -/
theorem fallback_response (w : http.ResponseRecorder) (hw : w.wroteHeader = false) :
    ((w.HeaderSet "Content-Type" "application/json").WriteHeader
        http.StatusInternalServerError).Write errorResponse =
      { w with
        Code := http.StatusInternalServerError
        HeaderMap := ("Content-Type", "application/json") ::
          w.HeaderMap.filter (fun kv => kv.1 != "Content-Type")
        Body := w.Body ++ errorResponse
        wroteHeader := true
        snapHeader := ("Content-Type", "application/json") ::
          w.HeaderMap.filter (fun kv => kv.1 != "Content-Type") } := by
  have h1 : (w.HeaderSet "Content-Type" "application/json").wroteHeader = false := hw
  rw [http.WriteHeader_first _ http.StatusInternalServerError h1 rfl]
  simp [http.ResponseRecorder.Write, http.ResponseRecorder.WriteHeader,
    http.ResponseRecorder.HeaderSet]

/-- C15, as stated, fails on a response whose header is out, which is where
`HandleUpsert` calls `RespondAfterFlush`: after a flush, a payload whose marshalling
fails is answered with the status 200 of the flush, and the content type is not among
the headers sent. -/
theorem RespondAfterFlush_marshal_failure_flushed :
    (RespondAfterFlush ⟨fun _ => .error "marshal error", Vars.default.writeResponse⟩
        http.NewRecorder.Flush .unsupported).Code = http.StatusOK ∧
      (RespondAfterFlush ⟨fun _ => .error "marshal error", Vars.default.writeResponse⟩
        http.NewRecorder.Flush .unsupported).Code ≠ http.StatusInternalServerError ∧
      ("Content-Type", "application/json") ∉
        (RespondAfterFlush ⟨fun _ => .error "marshal error", Vars.default.writeResponse⟩
          http.NewRecorder.Flush .unsupported).snapHeader := by
  decide

/-- C15, amended. For every payload and status code, when the JSON marshalling of the
payload fails and the header of the response has not been written, `Respond` and
`RespondAfterFlush` leave the same response, which does not depend on the payload: the
content type `application/json` is set and is among the headers sent, the status is
500, and exactly the fixed body is written (after what the writer held, which is
nothing on a new recorder). -/
theorem Respond_marshal_failure (vars : Vars) (w : http.ResponseRecorder) (code : Nat)
    (payload : Payload) (e : String) (hm : vars.marshalJson payload = .error e)
    (hw : w.wroteHeader = false) :
    RespondAfterFlush vars w payload = Respond vars w code payload ∧
      (Respond vars w code payload).Code = http.StatusInternalServerError ∧
      (Respond vars w code payload).Body = w.Body ++ errorResponse ∧
      ("Content-Type", "application/json") ∈ (Respond vars w code payload).HeaderMap ∧
      ("Content-Type", "application/json") ∈ (Respond vars w code payload).snapHeader ∧
      (Respond vars http.NewRecorder code payload).Body =
        "\x7b\"error\": \"internal server error\"\x7d" := by
  have h1 : Respond vars w code payload =
      ((w.HeaderSet "Content-Type" "application/json").WriteHeader
        http.StatusInternalServerError).Write errorResponse := by
    simp only [Respond, hm]
  have h2 : RespondAfterFlush vars w payload =
      ((w.HeaderSet "Content-Type" "application/json").WriteHeader
        http.StatusInternalServerError).Write errorResponse := by
    simp only [RespondAfterFlush, hm]
  have h3 : Respond vars http.NewRecorder code payload =
      ((http.NewRecorder.HeaderSet "Content-Type" "application/json").WriteHeader
        http.StatusInternalServerError).Write errorResponse := by
    simp only [Respond, hm]
  refine ⟨h2.trans h1.symm, ?_, ?_, ?_, ?_, ?_⟩
  · rw [h1, fallback_response w hw]
  · rw [h1, fallback_response w hw]
  · rw [h1, fallback_response w hw]
    exact List.mem_cons_self _ _
  · rw [h1, fallback_response w hw]
    exact List.mem_cons_self _ _
  · rw [h3]; rfl

theorem Respond_marshal_failure_witness :
    RespondAfterFlush ⟨fun _ => .error "marshal error", Vars.default.writeResponse⟩
          http.NewRecorder .unsupported =
        Respond ⟨fun _ => .error "marshal error", Vars.default.writeResponse⟩ http.NewRecorder
          http.StatusOK .unsupported ∧
      (Respond ⟨fun _ => .error "marshal error", Vars.default.writeResponse⟩ http.NewRecorder
        http.StatusOK .unsupported).Code = http.StatusInternalServerError ∧
      (Respond ⟨fun _ => .error "marshal error", Vars.default.writeResponse⟩ http.NewRecorder
        http.StatusOK .unsupported).Body = http.NewRecorder.Body ++ errorResponse ∧
      ("Content-Type", "application/json") ∈
        (Respond ⟨fun _ => .error "marshal error", Vars.default.writeResponse⟩ http.NewRecorder
          http.StatusOK .unsupported).HeaderMap ∧
      ("Content-Type", "application/json") ∈
        (Respond ⟨fun _ => .error "marshal error", Vars.default.writeResponse⟩
          http.NewRecorder http.StatusOK .unsupported).snapHeader ∧
      (Respond ⟨fun _ => .error "marshal error", Vars.default.writeResponse⟩ http.NewRecorder
        http.StatusOK .unsupported).Body = "\x7b\"error\": \"internal server error\"\x7d" :=
  Respond_marshal_failure ⟨fun _ => .error "marshal error", Vars.default.writeResponse⟩
    http.NewRecorder http.StatusOK .unsupported "marshal error" rfl rfl

/-- C16, as stated, fails for a write that fails after it has written: here the write
sends the first five bytes of the marshalled body, which commits the status 200, and
then fails. `RespondAfterFlush` leaves the status 200, not 500, and the body is the
five bytes followed by the generic body. -/
theorem RespondAfterFlush_partial_write :
    (RespondAfterFlush ⟨Marshal, fun w _ => (some "short write", w.Write "\x7b\"mes")⟩
        http.NewRecorder (.object [("message", "ok")])).Code = http.StatusOK ∧
      (RespondAfterFlush ⟨Marshal, fun w _ => (some "short write", w.Write "\x7b\"mes")⟩
        http.NewRecorder (.object [("message", "ok")])).Code ≠ http.StatusInternalServerError ∧
      (RespondAfterFlush ⟨Marshal, fun w _ => (some "short write", w.Write "\x7b\"mes")⟩
        http.NewRecorder (.object [("message", "ok")])).Body =
        "\x7b\"mes\x7b\"error\": \"internal server error\"\x7d" ∧
      (RespondAfterFlush ⟨Marshal, fun w _ => (some "short write", w.Write "\x7b\"mes")⟩
        http.NewRecorder (.object [("message", "ok")])).Body ≠ errorResponse := by
  decide

/-- A status code that `WriteHeader` refuses makes `Respond` panic before anything is
written. -/
theorem Respond_invalid_code :
    (Respond Vars.default http.NewRecorder 0 (.object [("message", "ok")])).panicked = true ∧
      (Respond Vars.default http.NewRecorder 0 (.object [("message", "ok")])).Body = "" ∧
      (Respond Vars.default http.NewRecorder 0 (.object [("message", "ok")])).wroteHeader =
        false := by
  decide

/-- C16, amended. When the marshalling succeeds and the write of the marshalled body
fails before anything has been written (it leaves the writer as it was, as the failing
write of the tests), on a response whose header has not been written and with a status
code that `WriteHeader` accepts (100 to 999): the body sent is the generic one, and the
status is the one committed first, which is `code` for `Respond`, whose later
`WriteHeader(500)` has no effect, and 500 for `RespondAfterFlush`, which wrote no header
before the write. -/
theorem Respond_write_failure (vars : Vars) (w : http.ResponseRecorder) (code : Nat)
    (payload : Payload) (response e : String) (hm : vars.marshalJson payload = .ok response)
    (hwrite : ∀ w1, vars.writeResponse w1 response = (some e, w1))
    (hw : w.wroteHeader = false) (hcode : http.checkWriteHeaderCode code = false) :
    (Respond vars w code payload).Code = code ∧
      (Respond vars w code payload).Body = w.Body ++ errorResponse ∧
      (RespondAfterFlush vars w payload).Code = http.StatusInternalServerError ∧
      (RespondAfterFlush vars w payload).Body = w.Body ++ errorResponse := by
  have h1 : (w.HeaderSet "Content-Type" "application/json").wroteHeader = false := hw
  have h500 : http.checkWriteHeaderCode http.StatusInternalServerError = false := rfl
  have hr : Respond vars w code payload =
      ((((w.HeaderSet "Content-Type" "application/json").WriteHeader code).WriteHeader
        http.StatusInternalServerError).Write errorResponse) := by
    simp only [Respond, hm, http.panics_valid _ _ hcode, Bool.false_eq_true, if_false, hwrite]
  have ha : RespondAfterFlush vars w payload =
      ((w.HeaderSet "Content-Type" "application/json").WriteHeader
        http.StatusInternalServerError).Write errorResponse := by
    simp only [RespondAfterFlush, hm, hwrite]
  rw [hr, ha, fallback_response w hw, http.WriteHeader_first _ _ h1 hcode]
  simp [http.ResponseRecorder.Write, http.ResponseRecorder.WriteHeader,
    http.ResponseRecorder.HeaderSet]

theorem Respond_write_failure_witness :
    (Respond ⟨Marshal, fun w _ => (some "forced write error", w)⟩ http.NewRecorder http.StatusOK
        (.object [("message", "ok")])).Code = http.StatusOK ∧
      (Respond ⟨Marshal, fun w _ => (some "forced write error", w)⟩ http.NewRecorder
        http.StatusOK (.object [("message", "ok")])).Body =
        http.NewRecorder.Body ++ errorResponse ∧
      (RespondAfterFlush ⟨Marshal, fun w _ => (some "forced write error", w)⟩ http.NewRecorder
        (.object [("message", "ok")])).Code = http.StatusInternalServerError ∧
      (RespondAfterFlush ⟨Marshal, fun w _ => (some "forced write error", w)⟩ http.NewRecorder
        (.object [("message", "ok")])).Body = http.NewRecorder.Body ++ errorResponse :=
  Respond_write_failure ⟨Marshal, fun w _ => (some "forced write error", w)⟩ http.NewRecorder
    http.StatusOK (.object [("message", "ok")]) _ "forced write error" rfl (fun _ => rfl) rfl rfl

end web

namespace middleware

theorem Error_eq (w : http.ResponseRecorder) (error : String) (code : Nat)
    (hcode : http.checkWriteHeaderCode code = false) :
    http.Error w error code =
      ((((w.HeaderDel "Content-Length").HeaderSet "Content-Type"
        "text/plain; charset=utf-8").HeaderSet "X-Content-Type-Options" "nosniff").WriteHeader
          code).Write (error ++ "\n") := by
  simp only [http.Error, http.panics_valid _ _ hcode, Bool.false_eq_true, if_false]

theorem Error_body (w : http.ResponseRecorder) (error : String) (code : Nat)
    (hcode : http.checkWriteHeaderCode code = false) :
    (http.Error w error code).Body = w.Body ++ (error ++ "\n") := by
  rw [Error_eq w error code hcode, http.Write_body]
  cases hw : w.wroteHeader <;>
    simp [http.ResponseRecorder.HeaderSet, http.ResponseRecorder.HeaderDel,
      http.ResponseRecorder.WriteHeader, hw, hcode]

/-- C17. `PreventRequestSmuggling` rejects a request, whatever the next handler is
(which is thus not invoked), with the response of `http.Error` for the message
`Invalid Transfer-Encoding header` and status 400, if and only if the request's
`Transfer-Encoding` header equals `chunked` and its `ContentLength` is greater than 0;
every other request is passed to the next handler unchanged, with the writer as it is.
The rejection writes the message and a newline, and on a writer whose header has not
been written its status is 400. -/
theorem PreventRequestSmuggling_rejects_iff (w : http.ResponseRecorder) (r : http.Request) :
    ((∀ next, PreventRequestSmuggling next w r =
          http.Error w "Invalid Transfer-Encoding header" http.StatusBadRequest) ↔
        (r.HeaderGet "Transfer-Encoding" = "chunked" ∧ r.ContentLength > 0)) ∧
      (¬ (r.HeaderGet "Transfer-Encoding" = "chunked" ∧ r.ContentLength > 0) →
        ∀ next, PreventRequestSmuggling next w r = next w r) ∧
      (http.Error w "Invalid Transfer-Encoding header" http.StatusBadRequest).Body =
        w.Body ++ "Invalid Transfer-Encoding header\n" ∧
      (w.wroteHeader = false →
        (http.Error w "Invalid Transfer-Encoding header" http.StatusBadRequest).Code = 400) := by
  have h400 : http.checkWriteHeaderCode http.StatusBadRequest = false := rfl
  have hpass : ¬ (r.HeaderGet "Transfer-Encoding" = "chunked" ∧ r.ContentLength > 0) →
      ∀ next, PreventRequestSmuggling next w r = next w r := by
    intro hc next
    unfold PreventRequestSmuggling
    rw [if_neg]
    simpa using hc
  refine ⟨⟨?_, ?_⟩, hpass, ?_, ?_⟩
  · intro hall
    by_contra hc
    have h1 := hall (fun w1 _ => { w1 with Body := w1.Body ++ "Invalid Transfer-Encoding header\n." })
    rw [hpass hc] at h1
    have h2 := congrArg (fun x => x.Body.length) h1
    simp [Error_body _ _ _ h400, String.length_append] at h2
    exact absurd h2 (by decide)
  · intro hc next
    unfold PreventRequestSmuggling
    rw [if_pos]
    simpa using hc
  · rw [Error_body _ _ _ h400]; rfl
  · intro hw
    have h1 : (((w.HeaderDel "Content-Length").HeaderSet "Content-Type"
        "text/plain; charset=utf-8").HeaderSet "X-Content-Type-Options"
        "nosniff").wroteHeader = false := hw
    rw [Error_eq _ _ _ h400, http.WriteHeader_first _ _ h1 h400]
    simp [http.ResponseRecorder.Write, http.ResponseRecorder.WriteHeader, http.StatusBadRequest]

/-- The request of the middleware's test is rejected with status 400, and the same
request without a body is passed on. -/
theorem PreventRequestSmuggling_example :
    (PreventRequestSmuggling (fun w _ => w.Write "OK") http.NewRecorder
        ⟨[("Transfer-Encoding", ["chunked"])], 4, []⟩).Code = 400 ∧
      (PreventRequestSmuggling (fun w _ => w.Write "OK") http.NewRecorder
        ⟨[("Transfer-Encoding", ["chunked"])], 4, []⟩).Body =
        "Invalid Transfer-Encoding header\n" ∧
      (PreventRequestSmuggling (fun w _ => w.Write "OK") http.NewRecorder
        ⟨[("Transfer-Encoding", ["chunked"])], 0, []⟩).Body = "OK" := by
  refine ⟨?_, ?_, ?_⟩ <;> rfl

end middleware

namespace harbors
open json

theorem not_beginsWithEntry_close (first : Bool) (rest : List Lexeme) :
    ¬ beginsWithEntry first (.rbrace :: rest) := by
  rintro ⟨⟨k, v⟩, rest1, -, hr⟩
  cases first <;> simp [renderEntries] at hr

end harbors

namespace sqlite
open json harbors

/-- On the table, `UpsertHarbor` never fails: the row of the harbor becomes the row of
its key. -/
theorem tableHandlers_UpsertHarbor (formatFloat : float64 → String) (hb : harbor.Harbor)
    (t : Table) :
    (tableHandlers formatFloat).service.UpsertHarbor hb t =
      (none, fun k => if k = hb.UNLoc then some (rowOf formatFloat hb) else t k) := by
  simp [tableHandlers, harbors.New, services.HarborService.service,
    services.HarborService.UpsertHarbor, services.NewHarborService,
    harborSQLiteRepository.repository, NewHarborRepository, harborSQLiteRepository.UpsertHarbor,
    tableDB, rowOf, storedRow, strings.Join_eq_intercalate]

theorem tableHandlers_callsMade (formatFloat : float64 → String) (hbs : List harbor.Harbor) :
    ∀ t : Table, callsMade (tableHandlers formatFloat).service t hbs = hbs := by
  induction hbs with
  | nil => intro t; rfl
  | cons hb hbs ih =>
    intro t
    simp only [callsMade, tableHandlers_UpsertHarbor, ih]

theorem tableHandlers_storeAfter (formatFloat : float64 → String) (hbs : List harbor.Harbor) :
    ∀ t : Table, storeAfter (tableHandlers formatFloat).service t hbs =
      tableAfter formatFloat t hbs := by
  induction hbs with
  | nil => intro t; rfl
  | cons hb hbs ih =>
    intro t
    simp only [storeAfter, tableHandlers_UpsertHarbor, ih]
    funext k
    simp only [tableAfter, lastHarbor]
    cases lastHarbor hbs k with
    | some last => rfl
    | none =>
      by_cases hk : k = hb.UNLoc
      · simp [hk]
      · simp [hk]

theorem tableAfter_idempotent (formatFloat : float64 → String) (t : Table)
    (hbs : List harbor.Harbor) :
    tableAfter formatFloat (tableAfter formatFloat t hbs) hbs = tableAfter formatFloat t hbs := by
  funext k
  simp only [tableAfter]
  cases lastHarbor hbs k <;> rfl

/-- C12. Idempotence, with the store a map from `unloc` to row and the upsert statement
an insert-or-overwrite on `unloc`: `HandleUpsert`, wired to the repository as in
`cmd/main.go`, on a valid payload makes every call to `UpsertHarbor`, none of which
fails, and leaves the table in which every key of the payload has the row of its last
entry (a key that already had a row has that row replaced) and every other key the row
it had; submitting the same payload again, whatever the writer, the controller and the
package variables, leaves the same table. -/
theorem HandleUpsert_idempotent (formatFloat : float64 → String) (vars vars2 : web.Vars)
    (ctr ctr2 : responseController) (w w2 : http.ResponseRecorder) (t : Table)
    (calls calls2 : List harbor.Harbor) (payload : List (String × JValue))
    (hbs : List harbor.Harbor) (hh : harborsOf payload = some hbs) :
    ∃ out1 out2,
      (tableHandlers formatFloat).HandleUpsert vars ctr w (render (.object payload)) ⟨t, calls⟩ =
          some out1 ∧
        (tableHandlers formatFloat).HandleUpsert vars2 ctr2 w2 (render (.object payload))
          ⟨out1.world.store, calls2⟩ = some out2 ∧
        out1.world.calls = calls ++ hbs ∧
        out1.world.store = tableAfter formatFloat t hbs ∧
        out2.world.calls = calls2 ++ hbs ∧
        out2.world.store = out1.world.store := by
  have hstop : ¬ beginsWithEntry payload.isEmpty [Lexeme.rbrace] :=
    not_beginsWithEntry_close _ _
  obtain ⟨out1, h1, hw1⟩ := HandleUpsert_world (tableHandlers formatFloat) vars ctr w ⟨t, calls⟩
    payload [.rbrace] hbs hh hstop
  obtain ⟨out2, h2, hw2⟩ := HandleUpsert_world (tableHandlers formatFloat) vars2 ctr2 w2
    ⟨out1.world.store, calls2⟩ payload [.rbrace] hbs hh hstop
  simp only [tableHandlers_callsMade, tableHandlers_storeAfter] at hw1 hw2
  refine ⟨out1, out2, ?_, ?_, ?_, ?_, ?_, ?_⟩
  · simp only [render, renderMembers_eq]
    exact h1
  · simp only [render, renderMembers_eq]
    exact h2
  · rw [hw1]
  · rw [hw1]
  · rw [hw2]
  · rw [hw2, hw1]
    exact tableAfter_idempotent formatFloat t hbs

theorem HandleUpsert_idempotent_witness :
    ∃ out1 out2,
      (tableHandlers formatTestFloat).HandleUpsert web.Vars.default ⟨none, true⟩ http.NewRecorder
          (render (.object [("USLAX", losAngeles)])) ⟨fun _ => none, []⟩ = some out1 ∧
        (tableHandlers formatTestFloat).HandleUpsert web.Vars.default ⟨none, true⟩
          http.NewRecorder (render (.object [("USLAX", losAngeles)]))
          ⟨out1.world.store, []⟩ = some out2 ∧
        out1.world.calls = [] ++ [("USLAX", losAngeles)].filterMap entryHarbor ∧
        out1.world.store = tableAfter formatTestFloat (fun _ => none)
          ([("USLAX", losAngeles)].filterMap entryHarbor) ∧
        out2.world.calls = [] ++ [("USLAX", losAngeles)].filterMap entryHarbor ∧
        out2.world.store = out1.world.store :=
  HandleUpsert_idempotent formatTestFloat web.Vars.default web.Vars.default ⟨none, true⟩
    ⟨none, true⟩ http.NewRecorder http.NewRecorder (fun _ => none) [] []
    [("USLAX", losAngeles)] _ rfl

end sqlite

namespace harbors
open json

/-- Where a key is due, no delimiter is read. -/
theorem tokenLoop_key_not_delim (dec0 : Decoder) (buf : List Lexeme) (c : Char) (d : Decoder) :
    Decoder.tokenLoop dec0 .tokenObjectKey buf ≠ (.ok (.Delim c), d) := by
  intro h
  cases buf with
  | nil => simp [Decoder.tokenLoop] at h
  | cons l rest =>
    cases l <;>
      simp [Decoder.tokenLoop, Decoder.tokenDefault, Decoder.tokenValueAllowed,
        Decoder.tokenError, Decoder.Decode, Decoder.tokenPrepareForDecode, readValue, scan_cons,
        step, beginValue, Lexeme.scalar?, scan_done, unmarshalString, Decoder.tokenValueEnd] at h
    all_goals (split at h <;> simp at h)

/-- Where an entry or the end of the object is due, only the closing brace is read as
the closing delimiter. -/
theorem readExpectedToken_close_complete (first : Bool) (buf : List Lexeme)
    (stack : List TokenState) (d3 : Decoder)
    (h : readExpectedToken ⟨buf, none, entryState first, stack⟩ '\x7d' = (none, d3)) :
    ∃ rest, buf = .rbrace :: rest := by
  unfold readExpectedToken at h
  simp only [Decoder.Token] at h
  cases buf with
  | nil => simp [Decoder.tokenLoop] at h
  | cons c rest =>
    cases c
    case rbrace => exact ⟨rest, rfl⟩
    case comma =>
      exfalso
      cases first
      · simp only [entryState, Bool.false_eq_true, if_false, Decoder.tokenLoop, reduceCtorEq,
          if_true] at h
        split at h
        · cases h
        · rename_i tok dec1 ht
          split at h
          · cases h
          · simp only [ne_eq, Decidable.not_not] at *
            rename_i hne
            subst hne
            exact tokenLoop_key_not_delim _ _ _ _ ht
      · simp [entryState, Decoder.tokenLoop, Decoder.tokenError] at h
    all_goals
      exfalso
      cases first <;>
        simp [entryState, Decoder.tokenLoop, Decoder.tokenDefault, Decoder.tokenValueAllowed,
          Decoder.tokenError, Decoder.Decode, Decoder.tokenPrepareForDecode, readValue, scan_cons,
          step, beginValue, Lexeme.scalar?, scan_done, unmarshalString, Decoder.tokenValueEnd] at h

/-- The loop of `processHarbors` on input that consists of entries that decode and pass
validation, followed by input that does not begin with another such entry: it ends
without error only when every entry has been upserted without error, and then the
decoder is left right after the last entry. -/
theorem loop_outcome {σ : Type} (h : handlers σ) (tail : List Lexeme) (stack : List TokenState) :
    ∀ (es : List (String × JValue)) (first : Bool) (world : World σ) (hbs : List harbor.Harbor),
      harborsOf es = some hbs → ¬ beginsWithEntry (first && es.isEmpty) tail →
      ∃ fuel r world1 dec1, h.processHarborsLoop fuel world
          ⟨renderEntries first es ++ tail, none, entryState first, stack⟩ =
          some (r, world1, dec1) ∧
        (r = none → (∃ s1, upsertAll h.service world.store hbs = some s1) ∧
          dec1 = ⟨tail, none, entryState (first && es.isEmpty), stack⟩) ∧
        (upsertAll h.service world.store hbs = none →
          r = some ⟨http.StatusInternalServerError, "error upserting harbor"⟩) := by
  intro es
  induction es with
  | nil =>
    intro first world hbs hh hstop
    simp only [harborsOf, Option.some.injEq] at hh
    subst hh
    simp only [List.isEmpty_nil, Bool.and_true] at hstop ⊢
    refine ⟨1, ?_⟩
    simp only [handlers.processHarborsLoop, renderEntries, List.nil_append]
    by_cases hm : Decoder.More ⟨tail, none, entryState first, stack⟩ = true
    · obtain ⟨herr, dec1, hp⟩ := processSingleHarbor_nocall h world first tail stack hstop
      simp only [hm, if_true, hp]
      exact ⟨_, _, _, rfl, (fun hr => by cases hr), (fun hu => by cases hu)⟩
    · simp only [hm]
      exact ⟨_, _, _, rfl, (fun _ => ⟨⟨_, rfl⟩, rfl⟩), (fun hu => by cases hu)⟩
  | cons e es ih =>
    intro first world hbs hh hstop
    obtain ⟨k, v⟩ := e
    obtain ⟨hb, hbs1, he, hh1, rfl⟩ := harborsOf_cons _ _ _ hh
    obtain ⟨req, hreq, hchk, rfl⟩ := entryHarbor_some _ _ he
    simp only at hreq hchk
    rcases hup : h.service.UpsertHarbor (harborOf k req) world.store with ⟨_ | e, s2⟩
    · obtain ⟨fuel, r, world1, dec1, hl, himp, hfail⟩ :=
        ih false ⟨s2, world.calls ++ [harborOf k req]⟩ hbs1 hh1 (by simpa using hstop)
      refine ⟨fuel + 1, r, world1, dec1, ?_, ?_, ?_⟩
      · simp only [handlers.processHarborsLoop, renderEntries, List.append_assoc,
          List.cons_append, More_entry, if_true]
        rw [processSingleHarbor_entry]
        simp only [hreq, hchk, handlers.UpsertHarbor, hup]
        simp only [entryState, Bool.false_eq_true, if_false] at hl
        rw [hl]
      · intro hr
        obtain ⟨⟨s1, hs1⟩, hd⟩ := himp hr
        refine ⟨⟨s1, ?_⟩, ?_⟩
        · simp only [upsertAll, hup]
          exact hs1
        · simpa using hd
      · intro hu
        simp only [upsertAll, hup] at hu
        exact hfail hu
    · refine ⟨1, some ⟨http.StatusInternalServerError, "error upserting harbor"⟩,
        ⟨s2, world.calls ++ [harborOf k req]⟩,
        ⟨renderEntries false es ++ tail, none, .tokenObjectComma, stack⟩, ?_, ?_, ?_⟩
      · simp only [handlers.processHarborsLoop, renderEntries, List.append_assoc,
          List.cons_append, More_entry, if_true]
        rw [processSingleHarbor_entry]
        simp only [hreq, hchk, handlers.UpsertHarbor, hup]
      · intro hr; cases hr
      · intro _; rfl

/-- C19. On every execution path, for every request body and every outcome of the
service and of the flush, `HandleUpsert` issues exactly one response. The run of
`HandleUpsert` that also records its calls to the package `web` returns, leaves the
writer, the store, the calls to `UpsertHarbor` and the decoder of `HandleUpsert`, and
has recorded exactly one call, to `RespondWithError` or to `RespondAfterFlush`. The call
is to `RespondAfterFlush` only when the flush returns no error and the body is the
opening brace, entries that all decode, pass validation and are upserted without
error, and the closing brace (whatever follows it). -/
theorem HandleUpsert_one_response {σ : Type} (h : handlers σ) (vars : web.Vars)
    (ctr : responseController) (w : http.ResponseRecorder) (body : List Lexeme)
    (world : World σ) :
    ∃ out c, h.HandleUpsert vars ctr w body world = some out ∧
      h.HandleUpsertVia (recordingResponder vars ctr) (w, []) body world =
        some ((out.w, [c]), out.world, out.dec) ∧
      ∀ payload, c = .RespondAfterFlush payload →
        ctr.FlushErr = none ∧
          ∃ es hbs s1 rest, body = .lbrace :: (renderEntries true es ++ .rbrace :: rest) ∧
            harborsOf es = some hbs ∧ upsertAll h.service world.store hbs = some s1 := by
  by_cases hb : body.head? = some .lbrace
  · obtain ⟨buf, rfl⟩ : ∃ buf, body = .lbrace :: buf := by
      cases body with
      | nil => cases hb
      | cons c buf =>
        simp only [List.head?_cons, Option.some.injEq] at hb
        exact ⟨buf, by rw [hb]⟩
    obtain ⟨es, tail, hbs, rfl, hh, hstop⟩ := entries_decomposition buf.length buf true
      (Nat.le_refl _)
    obtain ⟨fuel, r, world1, dec1, hl, himp, -⟩ := loop_outcome h tail [.tokenTopValue] es true
      world hbs hh (by simpa using hstop)
    simp only [entryState, if_true] at hl
    have hp := processHarbors_eq h _ _ _ _ hl
    unfold handlers.HandleUpsert handlers.HandleUpsertVia
    simp only [readExpectedToken_open, hp, recordingResponder]
    cases r with
    | some herr => exact ⟨_, _, rfl, rfl, fun _ hc => by cases hc⟩
    | none =>
      obtain ⟨⟨s1, hs1⟩, rfl⟩ := himp rfl
      simp only [Bool.true_and]
      rcases hclose : readExpectedToken ⟨tail, none, entryState es.isEmpty, [.tokenTopValue]⟩
        '\x7d' with ⟨_ | e, dec3⟩
      · obtain ⟨rest, rfl⟩ := readExpectedToken_close_complete _ _ _ _ hclose
        simp only
        obtain ⟨ferr, flushes⟩ := ctr
        cases ferr with
        | none =>
          exact ⟨_, _, rfl, rfl, fun _ _ => ⟨rfl, es, hbs, s1, rest, rfl, hh, hs1⟩⟩
        | some e => exact ⟨_, _, rfl, rfl, fun _ hc => by cases hc⟩
      · exact ⟨_, _, rfl, rfl, fun _ hc => by cases hc⟩
  · obtain ⟨e, dec1, he⟩ := readExpectedToken_not_open body hb
    unfold handlers.HandleUpsert handlers.HandleUpsertVia
    simp only [he, recordingResponder]
    exact ⟨_, _, rfl, rfl, fun _ hc => by cases hc⟩

/-- The run of `HandleUpsert` on a body that is an object of entries that decode and
pass validation, followed by any input: the response, the store and the calls are
determined by the entries. -/
theorem HandleUpsert_object_then {σ : Type} (h : handlers σ) (vars : web.Vars)
    (ctr : responseController) (w : http.ResponseRecorder) (world : World σ)
    (payload : List (String × JValue)) (rest : List Lexeme) (hbs : List harbor.Harbor)
    (hh : harborsOf payload = some hbs) :
    ∃ out, h.HandleUpsert vars ctr w (render (.object payload) ++ rest) world = some out ∧
      out.w = (match upsertAll h.service world.store hbs with
        | none =>
          web.RespondWithError vars w http.StatusInternalServerError "error upserting harbor"
        | some _ =>
          match ctr.Flush w with
          | (some err, w1) => web.RespondWithError vars w1 http.StatusInternalServerError err
          | (none, w1) =>
            web.RespondAfterFlush vars w1
              (UpsertHarborResponse.payload { Message := "harbors upserted" })) ∧
      out.world = ⟨storeAfter h.service world.store hbs,
        world.calls ++ callsMade h.service world.store hbs⟩ ∧
      ((∃ s1, upsertAll h.service world.store hbs = some s1) → out.dec.buf = rest) := by
  have hbody : render (.object payload) ++ rest =
      .lbrace :: (renderEntries true payload ++ .rbrace :: rest) := by
    simp [render, renderMembers_eq]
  rw [hbody]
  have hstop : ¬ beginsWithEntry payload.isEmpty (.rbrace :: rest) :=
    not_beginsWithEntry_close _ _
  obtain ⟨out, hout, hworld⟩ := HandleUpsert_world h vars ctr w world payload (.rbrace :: rest)
    hbs hh hstop
  refine ⟨out, hout, ?_, hworld, ?_⟩
  · cases hu : upsertAll h.service world.store hbs with
    | some s1 =>
      have hmore : Decoder.More
          ⟨.rbrace :: rest, none, entryState payload.isEmpty, [.tokenTopValue]⟩ = false := by
        simp [Decoder.More, Decoder.peek]
      have := HandleUpsert_entries_end h vars ctr w world payload (.rbrace :: rest) hbs s1 hh hu
        hmore
      rw [readExpectedToken_close _ _ _ _ rfl, hout] at this
      simp only
      rcases hf : ctr.Flush w with ⟨_ | e, w1⟩
      · rw [hf] at this
        simp only [Option.some.injEq] at this
        rw [this]
      · rw [hf] at this
        simp only [Option.some.injEq] at this
        rw [this]
    | none =>
      obtain ⟨fuel, r, world1, dec1, hl, -, hfail⟩ := loop_outcome h (.rbrace :: rest)
        [.tokenTopValue] payload true world hbs hh (by simpa using hstop)
      simp only [entryState, if_true] at hl
      have hp := processHarbors_eq h _ _ _ _ hl
      rw [hfail hu] at hp
      unfold handlers.HandleUpsert at hout
      simp only [readExpectedToken_open, hp, Option.some.injEq] at hout
      rw [← hout]
      rfl
  · rintro ⟨s1, hu⟩
    have hmore : Decoder.More
        ⟨.rbrace :: rest, none, entryState payload.isEmpty, [.tokenTopValue]⟩ = false := by
      simp [Decoder.More, Decoder.peek]
    have := HandleUpsert_entries_end h vars ctr w world payload (.rbrace :: rest) hbs s1 hh hu
      hmore
    rw [readExpectedToken_close _ _ _ _ rfl, hout] at this
    rcases hf : ctr.Flush w with ⟨_ | e, w1⟩
    · rw [hf] at this
      simp only [Option.some.injEq] at this
      rw [this]
    · rw [hf] at this
      simp only [Option.some.injEq] at this
      rw [this]

/-- The success response on a new recorder, after a flush without error. -/
theorem RespondAfterFlush_success (ctr : responseController) (hf : ctr.FlushErr = none) :
    (ctr.Flush http.NewRecorder).1 = none ∧
      (web.RespondAfterFlush web.Vars.default (ctr.Flush http.NewRecorder).2
        (UpsertHarborResponse.payload { Message := "harbors upserted" })).Code = http.StatusOK ∧
      (web.RespondAfterFlush web.Vars.default (ctr.Flush http.NewRecorder).2
        (UpsertHarborResponse.payload { Message := "harbors upserted" })).Body = successBody := by
  obtain ⟨ferr, flushes⟩ := ctr
  simp only at hf
  subst hf
  cases flushes <;> exact ⟨rfl, rfl, rfl⟩

/-- C20. `HandleUpsert` stops reading after the closing brace of the top-level object:
for every body that is a valid payload (an object of entries that decode and pass
validation) followed by any further input, the run returns, and the response and the
calls to `UpsertHarbor` are those of the run on the payload alone; when every upsert
succeeds the further input is left unread, and the response is the success response
with status 200 if the flush succeeds as well (on a new recorder, with the package
variables as they are). In particular the empty object followed by any input yields
status 200 with no call to `UpsertHarbor`. -/
theorem HandleUpsert_stops_after_close {σ : Type} (h : handlers σ) (vars : web.Vars)
    (ctr : responseController) (w : http.ResponseRecorder) (world : World σ)
    (payload : List (String × JValue)) (rest : List Lexeme) (hbs : List harbor.Harbor)
    (hh : harborsOf payload = some hbs) :
    (∃ out1 out2,
      h.HandleUpsert vars ctr w (render (.object payload) ++ rest) world = some out1 ∧
        h.HandleUpsert vars ctr w (render (.object payload)) world = some out2 ∧
        out1.w = out2.w ∧ out1.world = out2.world ∧
        ((∃ s1, upsertAll h.service world.store hbs = some s1) → out1.dec.buf = rest)) ∧
      ((∃ s1, upsertAll h.service world.store hbs = some s1) → ctr.FlushErr = none →
        ∃ out, h.HandleUpsert web.Vars.default ctr http.NewRecorder
            (render (.object payload) ++ rest) world = some out ∧
          out.w.Code = http.StatusOK ∧ out.w.Body = successBody ∧
          out.world.calls = world.calls ++ hbs) ∧
      (ctr.FlushErr = none →
        ∃ out, h.HandleUpsert web.Vars.default ctr http.NewRecorder
            (.lbrace :: .rbrace :: rest) world = some out ∧
          out.w.Code = http.StatusOK ∧ out.w.Body = successBody ∧
          out.world.calls = world.calls ∧ out.dec.buf = rest) := by
  have key : ∀ (payload : List (String × JValue)) (hbs : List harbor.Harbor),
      harborsOf payload = some hbs → (∃ s1, upsertAll h.service world.store hbs = some s1) →
      ctr.FlushErr = none →
      ∃ out, h.HandleUpsert web.Vars.default ctr http.NewRecorder
          (render (.object payload) ++ rest) world = some out ∧
        out.w.Code = http.StatusOK ∧ out.w.Body = successBody ∧
        out.world.calls = world.calls ++ hbs ∧ out.dec.buf = rest := by
    intro payload hbs hh hu hf
    obtain ⟨out, hout, hw, hworld, hdec⟩ := HandleUpsert_object_then h web.Vars.default ctr
      http.NewRecorder world payload rest hbs hh
    obtain ⟨s1, hs1⟩ := hu
    obtain ⟨f1, f2, f3⟩ := RespondAfterFlush_success ctr hf
    have hcalls : callsMade h.service world.store hbs = hbs := by
      clear hw hworld hdec hout hh
      generalize world.store = s at hs1
      induction hbs generalizing s with
      | nil => rfl
      | cons hb hbs ih =>
        obtain ⟨s2, hs2, hu1⟩ := upsertAll_cons _ _ _ _ _ hs1
        simp only [callsMade, hs2, ih s2 hu1]
    rw [hs1] at hw
    simp only at hw
    rcases hfl : ctr.Flush http.NewRecorder with ⟨ferr, w1⟩
    rw [hfl] at hw f1 f2 f3
    simp only at f1 f2 f3
    subst f1
    simp only at hw
    refine ⟨out, hout, ?_, ?_, ?_, hdec ⟨s1, hs1⟩⟩
    · rw [hw]; exact f2
    · rw [hw]; exact f3
    · rw [hworld, hcalls]
  refine ⟨?_, ?_, ?_⟩
  · obtain ⟨out1, h1, hw1, hworld1, hdec1⟩ := HandleUpsert_object_then h vars ctr w world payload
      rest hbs hh
    obtain ⟨out2, h2, hw2, hworld2, -⟩ := HandleUpsert_object_then h vars ctr w world payload
      [] hbs hh
    rw [List.append_nil] at h2
    exact ⟨out1, out2, h1, h2, hw1.trans hw2.symm, hworld1.trans hworld2.symm, hdec1⟩
  · intro hu hf
    obtain ⟨out, h1, h2, h3, h4, -⟩ := key payload hbs hh hu hf
    exact ⟨out, h1, h2, h3, h4⟩
  · intro hf
    obtain ⟨out, h1, h2, h3, h4, h5⟩ := key [] [] rfl ⟨_, rfl⟩ hf
    exact ⟨out, h1, h2, h3, by simpa using h4, h5⟩

theorem HandleUpsert_stops_after_close_witness :
    (∃ out1 out2,
      (⟨mockHarborService none⟩ : handlers Unit).HandleUpsert web.Vars.default ⟨none, true⟩
          http.NewRecorder (render (.object [("USLAX", losAngeles)]) ++ [.rbrace, .str "x"])
          ⟨(), []⟩ = some out1 ∧
        (⟨mockHarborService none⟩ : handlers Unit).HandleUpsert web.Vars.default ⟨none, true⟩
          http.NewRecorder (render (.object [("USLAX", losAngeles)])) ⟨(), []⟩ = some out2 ∧
        out1.w = out2.w ∧ out1.world = out2.world ∧
        ((∃ s1, upsertAll (mockHarborService none) ()
            ([("USLAX", losAngeles)].filterMap entryHarbor) = some s1) →
          out1.dec.buf = [.rbrace, .str "x"])) ∧
      ((∃ s1, upsertAll (mockHarborService none) ()
          ([("USLAX", losAngeles)].filterMap entryHarbor) = some s1) →
        (⟨none, true⟩ : responseController).FlushErr = none →
        ∃ out, (⟨mockHarborService none⟩ : handlers Unit).HandleUpsert web.Vars.default
            ⟨none, true⟩ http.NewRecorder
            (render (.object [("USLAX", losAngeles)]) ++ [.rbrace, .str "x"]) ⟨(), []⟩ =
            some out ∧
          out.w.Code = http.StatusOK ∧ out.w.Body = successBody ∧
          out.world.calls = [] ++ [("USLAX", losAngeles)].filterMap entryHarbor) ∧
      ((⟨none, true⟩ : responseController).FlushErr = none →
        ∃ out, (⟨mockHarborService none⟩ : handlers Unit).HandleUpsert web.Vars.default
            ⟨none, true⟩ http.NewRecorder (.lbrace :: .rbrace :: [.rbrace, .str "x"]) ⟨(), []⟩ =
            some out ∧
          out.w.Code = http.StatusOK ∧ out.w.Body = successBody ∧
          out.world.calls = [] ∧ out.dec.buf = [.rbrace, .str "x"]) :=
  HandleUpsert_stops_after_close ⟨mockHarborService none⟩ web.Vars.default ⟨none, true⟩
    http.NewRecorder ⟨(), []⟩ [("USLAX", losAngeles)] [.rbrace, .str "x"] _ rfl

end harbors
end HarborService

